import Mathlib

/-!
Shallow embedding of the `ctrie` compressed trie (src/ctrie.c, the variant
with explicit key lengths) and verification of its specification.

Keys and labels are byte sequences modelled as `List Nat`.  The byte-sized
machine fields of the C code (`label_len_t`, i.e. `byte_t`) are modelled
with an explicit `% 256` where overflow matters: `set_label` stores the
label length in a byte, so the effective label is truncated to
`len % 256` bytes.  Memory management (capacity fields, `resize`,
`realloc`) has no observable effect on the structure and is not modelled;
pointer identity of the per-node value slot is rendered as the child-index
path from the fake root to the node.
-/

/-- A trie node (`struct ctnode`): the label bytes of the incoming edge,
the `F_WORD` flag, the `F_WILD` flag, and the array of children kept
sorted by discriminator byte (the node's char array and child array,
zipped). -/
inductive Node : Type where
  | mk (label : List Nat) (word : Bool) (wild : Bool)
       (children : List (Nat × Node)) : Node

/-- Label of a node (`get_label` / `label_len`). -/
def Node.label : Node → List Nat
  | .mk l _ _ _ => l

/-- The `F_WORD` flag. -/
def Node.word : Node → Bool
  | .mk _ w _ _ => w

/-- The `F_WILD` flag. -/
def Node.wild : Node → Bool
  | .mk _ _ wi _ => wi

/-- The (discriminator byte, child) pairs, i.e. the char array zipped with
the child array. -/
def Node.children : Node → List (Nat × Node)
  | .mk _ _ _ cs => cs

def defaultNode : Node := .mk [] false false []

instance : Inhabited Node := ⟨defaultNode⟩

/-- The trie handle (`struct ctrie`); `data_size` only affects memory
layout and is not modelled. -/
structure Trie where
  fake_root : Node

/-- `set_label`: the stored label length field is a `label_len_t` (one
byte), so the effective label kept by the node is the first
`len % 256` bytes. -/
def set_label (l : List Nat) : List Nat :=
  l.take (l.length % 256)

/-- The matching loop
`for (j = 0; i < key_len && j < n->label_len && key[i] == l[j]; j++, i++)`:
number of initial bytes on which label and remaining key agree. -/
def matchLen : List Nat → List Nat → Nat
  | a :: as, b :: bs => if a = b then matchLen as bs + 1 else 0
  | _, _ => 0

/-- The binary search of `find_child_idx` over the sorted char array:
least index in `[l, r)` whose byte is `≥ k` (lower bound), `r` if none. -/
def bsearch (a : List Nat) (k : Nat) (l r : Nat) : Nat :=
  if _h : l < r then
    let m := (l + r) / 2
    if k ≤ a.getD m 0 then bsearch a k l m else bsearch a k (m + 1) r
  else l
termination_by r - l
decreasing_by all_goals omega

/-- `find_child_idx`: lower-bound binary search for `k` over the char
array of `n`. -/
def find_child_idx (n : Node) (k : Nat) : Nat :=
  bsearch (n.children.map Prod.fst) k 0 n.children.length

/-- The child-presence test used throughout the C code:
`idx < n->nchild && char_array(n)[idx] == k` after `find_child_idx`.
Returns the index of the child with discriminator `k`, if present. -/
def child_lookup (n : Node) (b : Nat) : Option Nat :=
  if find_child_idx n b < n.children.length ∧
     (n.children.getD (find_child_idx n b) default).1 = b
  then some (find_child_idx n b) else none

/-- `insert_child`: insert child `c` with discriminator `k` at the
position found by `find_child_idx` (keeping the char array sorted),
returning the new node and the insertion index. -/
def insert_child (n : Node) (k : Nat) (c : Node) : Node × Nat :=
  let idx := find_child_idx n k
  (.mk n.label n.word n.wild (n.children.insertIdx idx (k, c)), idx)

/-- `ctrie_init`: the fake root has the true root as its single child
under discriminator `'\0'`; the true root is marked `F_WORD`. -/
def ctrie_init : Trie :=
  ⟨.mk [] false false [(0, .mk [] true false [])]⟩

/-- The true root, `child_array(t, t->fake_root)[0]`. -/
def Trie.root (t : Trie) : Node :=
  (t.fake_root.children.getD 0 default).2

/-- The descent of `find3`.  `krem` is the unread rest of the key, `path`
the child-index path from the fake root to `n`, `w` the path of the last
wildcard node recorded.  Returns the path to the exact word node if the
key matches one, otherwise the last recorded wildcard path (if any). -/
def find3Go (n : Node) (krem : List Nat) (path : List Nat)
    (w : Option (List Nat)) : Option (List Nat) :=
  if matchLen n.label krem < n.label.length then w
  else
    match _hk : krem.drop (matchLen n.label krem) with
    | [] => if n.word then some path else w
    | b :: krem' =>
      match child_lookup n b with
      | some i =>
        find3Go ((n.children.getD i default).2) krem' (path ++ [i])
          (if n.wild then some path else w)
      | none => if n.wild then some path else w
termination_by krem.length
decreasing_by
  have h1 : (krem.drop (matchLen n.label krem)).length = krem.length - matchLen n.label krem :=
    List.length_drop _ _
  rw [_hk] at h1
  simp only [List.length_cons] at h1
  omega

/-- `find3` from the fake root: resolve key `k` to the path of the node
`find3` returns (`[0]` is the true root's position). -/
def resolve (t : Trie) (k : List Nat) : Option (List Nat) :=
  find3Go t.root k [0] none

/-- `ctrie_contains`. -/
def ctrie_contains (t : Trie) (k : List Nat) : Bool :=
  (resolve t k).isSome

/-- `ctrie_find`: the value-slot reference is rendered as the path of the
resolved node. -/
def ctrie_find (t : Trie) (k : List Nat) : Option (List Nat) :=
  resolve t k

/-- The recursive core of `ctrie_insert`: descend with the unread rest of
the key, splitting the label and extending the path as in the C loop;
returns the new subtree together with the child-index path (within that
subtree) of the node that was marked as a word — the node whose value
slot the C function returns. -/
def insertGo (n : Node) (krem : List Nat) (wildcard : Bool) :
    Node × List Nat :=
  let j := matchLen n.label krem
  if j < n.label.length then
    -- split: new node `s` between parent and `n`, label split at `j`
    let nShort : Node := .mk (set_label (n.label.drop (j + 1))) n.word n.wild n.children
    let s : Node := .mk (set_label (n.label.take j)) false false
      [(n.label.getD j 0, nShort)]
    match krem.drop j with
    | [] => (.mk s.label true (s.wild || wildcard) s.children, [])
    | b :: rest =>
      -- prolong the path from `s`
      let leaf : Node := .mk (set_label rest) true wildcard []
      let si := insert_child s b leaf
      (si.1, [si.2])
  else
    match _hk : krem.drop j with
    | [] => (.mk n.label true (n.wild || wildcard) n.children, [])
    | b :: rest =>
      match child_lookup n b with
      | some i =>
        let ci := insertGo ((n.children.getD i default).2) rest wildcard
        (.mk n.label n.word n.wild
          (n.children.set i ((n.children.getD i default).1, ci.1)), i :: ci.2)
      | none =>
        -- `n` is a proper stem of the key, prolong the path
        let leaf : Node := .mk (set_label rest) true wildcard []
        let ni := insert_child n b leaf
        (ni.1, [ni.2])
termination_by krem.length
decreasing_by
  have h1 : (krem.drop (matchLen n.label krem)).length = krem.length - matchLen n.label krem :=
    List.length_drop _ _
  rw [_hk] at h1
  simp only [List.length_cons] at h1
  omega

/-- `ctrie_insert`: returns the new trie and the path of the value slot
returned (`0 ::` the path within the true root's subtree). -/
def ctrie_insert (t : Trie) (k : List Nat) (wildcard : Bool) :
    Trie × List Nat :=
  let ri := insertGo t.root k wildcard
  (⟨.mk t.fake_root.label t.fake_root.word t.fake_root.wild
      (t.fake_root.children.set 0
        ((t.fake_root.children.getD 0 default).1, ri.1))⟩,
   0 :: ri.2)

/-- `cut`: merge node `n` (assumed to have exactly one child and not be a
word node) into its only child: the child's new label is `n`'s label,
the discriminator byte, then the child's label, stored through
`set_label`. -/
def cut (n : Node) : Node :=
  match n.children with
  | bc :: _ => .mk (set_label (n.label ++ bc.1 :: bc.2.label)) bc.2.word bc.2.wild bc.2.children
  | [] => n

/-- Replace the child at index `i` of `n` (discriminator byte kept), as
`child_array(t, p)[pi] = c` does. -/
def Node.setChild (n : Node) (i : Nat) (c : Node) : Node :=
  .mk n.label n.word n.wild (n.children.set i ((n.children.getD i default).1, c))

/-- Remove the child at index `i` of `n` (both parallel arrays shifted
down, `nchild` decremented). -/
def Node.removeChild (n : Node) (i : Nat) : Node :=
  .mk n.label n.word n.wild (n.children.eraseIdx i)

/-- The surgery of `ctrie_remove` along the child-index path `π` of the
resolved node, performed from the node `x` (initially the fake root).
With one path component left, `x` is the parent `p`: clear the word flag
and either keep the node (≥ 2 children), `cut` it into its only child
(1 child), or unlink the leaf.  With two components left, `x` is the
grandparent `pp`: in the leaf case, after unlinking, the parent is merged
into its remaining single child when it is no longer a word node
(the cascading `cut(p, pp, ppi)`). -/
def removeAt (x : Node) : List Nat → Node
  | [] => x
  | [i1] =>
    let n := (x.children.getD i1 default).2
    if n.children.length > 1 then
      x.setChild i1 (.mk n.label false n.wild n.children)
    else if n.children.length = 1 then
      x.setChild i1 (cut (.mk n.label false n.wild n.children))
    else
      x.removeChild i1
  | [i1, i2] =>
    let p := (x.children.getD i1 default).2
    let n := (p.children.getD i2 default).2
    if n.children.length = 0 then
      let p' := p.removeChild i2
      if p'.children.length = 1 && !p'.word then x.setChild i1 (cut p')
      else x.setChild i1 p'
    else x.setChild i1 (removeAt p [i2])
  | i :: rest => x.setChild i (removeAt ((x.children.getD i default).2) rest)
termination_by π => π.length
decreasing_by all_goals simp_arith

/-- `ctrie_remove`: resolve the key with `find3` (note: this may resolve
to a wildcard node when no exact word matches); return `-1` leaving the
trie unchanged when nothing resolves, else `0` and the modified trie. -/
def ctrie_remove (t : Trie) (k : List Nat) : Int × Trie :=
  match resolve t k with
  | none => (-1, t)
  | some π => (0, ⟨removeAt t.fake_root π⟩)

/-- An iterator stack entry (`struct ctrie_iter_stkent`).  The C field
`idx` starts at `(size_t)-1` and is pre-incremented before use; we store
`idx` as the number of children already visited (= C's `idx + 1`), so it
starts at `0`. -/
structure Frame where
  n : Node
  idx : Nat
  key_len : Nat

/-- Iterator state: the stack (`it->stack`, top first here, where the C
array keeps the top at the end) and the caller's reusable key buffer.
Bytes of the C buffer beyond the current key length are never read, so
the buffer is modelled as its meaningful part only. -/
structure IterState where
  stack : List Frame
  buf : List Nat

/-- `ctrie_iter_init`: push a frame for the true root with key length 0;
the caller's buffer starts empty (`*key = NULL`). -/
def ctrie_iter_init (t : Trie) : IterState :=
  ⟨[⟨t.root, 0, 0⟩], []⟩

/-- The `while (it->nstack)` loop of `ctrie_iter_next`, as a fuelled loop
collecting every key yielded until the stack empties (each fuel unit is
one loop iteration; with enough fuel the result is the whole remaining
iteration).  A loop iteration pops the top frame when its children are
exhausted; otherwise it writes the discriminator byte and the child's
label into the buffer after its key prefix, pushes a frame for the child
when it has children, and yields the buffer content when the child is a
word node. -/
def iterLoop : Nat → IterState → List (List Nat)
  | 0, _ => []
  | fuel + 1, st =>
    match st.stack with
    | [] => []
    | fr :: rest =>
      if fr.idx ≥ fr.n.children.length then iterLoop fuel ⟨rest, st.buf⟩
      else
        let bc := fr.n.children.getD fr.idx default
        let klen := fr.key_len + 1 + bc.2.label.length
        let buf' := st.buf.take fr.key_len ++ bc.1 :: bc.2.label
        let fr' : Frame := ⟨fr.n, fr.idx + 1, fr.key_len⟩
        let stack' :=
          if bc.2.children.length ≠ 0 then (⟨bc.2, 0, klen⟩ : Frame) :: fr' :: rest
          else fr' :: rest
        if bc.2.word then buf' :: iterLoop fuel ⟨stack', buf'⟩
        else iterLoop fuel ⟨stack', buf'⟩

/-- Number of nodes of a subtree (used as an iteration/fuel measure). -/
def nodeCount : Node → Nat
  | .mk _ _ _ cs => 1 + (cs.attach.map (fun bc => nodeCount bc.1.2)).sum
termination_by n => sizeOf n
decreasing_by
  obtain ⟨⟨b, c⟩, hmem⟩ := bc
  have h1 := List.sizeOf_lt_of_mem hmem
  simp only [Prod.mk.sizeOf_spec] at h1 ⊢
  simp only [Node.mk.sizeOf_spec] at h1 ⊢
  omega

/-- Nodes of the whole trie, fake root included. -/
def trieNodeCount (t : Trie) : Nat := nodeCount t.fake_root

/-- The keys registered as words in the subtree rooted at `n`, where
`pre` is the key consumed strictly above `n`'s label: `pre ++ n.label`
if `n` is a word node, together with the word keys of every child
(reached through one discriminator byte). Listed in child-array order. -/
def wordsAux : List Nat → Node → List (List Nat)
  | pre, .mk l w _ cs =>
    (if w then [pre ++ l] else []) ++
    (cs.attach.map (fun bc => wordsAux (pre ++ l ++ [bc.1.1]) bc.1.2)).flatten
termination_by _ n => sizeOf n
decreasing_by
  obtain ⟨⟨b, c⟩, hmem⟩ := bc
  have h1 := List.sizeOf_lt_of_mem hmem
  simp only [Prod.mk.sizeOf_spec] at h1 ⊢
  simp only [Node.mk.sizeOf_spec] at h1 ⊢
  omega

/-- The keys whose node carries the `F_WILD` flag in the subtree at `n`. -/
def wildsAux : List Nat → Node → List (List Nat)
  | pre, .mk l _ wi cs =>
    (if wi then [pre ++ l] else []) ++
    (cs.attach.map (fun bc => wildsAux (pre ++ l ++ [bc.1.1]) bc.1.2)).flatten
termination_by _ n => sizeOf n
decreasing_by
  obtain ⟨⟨b, c⟩, hmem⟩ := bc
  have h1 := List.sizeOf_lt_of_mem hmem
  simp only [Prod.mk.sizeOf_spec] at h1 ⊢
  simp only [Node.mk.sizeOf_spec] at h1 ⊢
  omega

/-- Registered word keys of the trie. -/
def wordsOf (t : Trie) : List (List Nat) := wordsAux [] t.root

/-- Keys carrying the wildcard flag. -/
def wildsOf (t : Trie) : List (List Nat) := wildsAux [] t.root

/-- Strict ascending chain test for the char array. -/
def chainLt : List Nat → Bool
  | [] => true
  | [_] => true
  | a :: b :: rest => decide (a < b) && chainLt (b :: rest)

/-- Invariant I1: in every node, sibling discriminator bytes are unique
and sorted ascending. -/
def sortedNode : Node → Bool
  | .mk _ _ _ cs =>
    chainLt (cs.map Prod.fst) && cs.attach.all (fun bc => sortedNode bc.1.2)
termination_by n => sizeOf n
decreasing_by
  obtain ⟨⟨b, c⟩, hmem⟩ := bc
  have h1 := List.sizeOf_lt_of_mem hmem
  simp only [Prod.mk.sizeOf_spec] at h1 ⊢
  simp only [Node.mk.sizeOf_spec] at h1 ⊢
  omega

/-- Invariant I2 on a subtree: every node has at least two children or is
a word node (to be applied below the true root). -/
def compactNode : Node → Bool
  | .mk _ w _ cs =>
    (decide (cs.length ≥ 2) || w) && cs.attach.all (fun bc => compactNode bc.1.2)
termination_by n => sizeOf n
decreasing_by
  obtain ⟨⟨b, c⟩, hmem⟩ := bc
  have h1 := List.sizeOf_lt_of_mem hmem
  simp only [Prod.mk.sizeOf_spec] at h1 ⊢
  simp only [Node.mk.sizeOf_spec] at h1 ⊢
  omega

/-- Every node with the wildcard flag also has the word flag (holds while
no wildcard key is removed). -/
def wildWordNode : Node → Bool
  | .mk _ w wi cs =>
    (!wi || w) && cs.attach.all (fun bc => wildWordNode bc.1.2)
termination_by n => sizeOf n
decreasing_by
  obtain ⟨⟨b, c⟩, hmem⟩ := bc
  have h1 := List.sizeOf_lt_of_mem hmem
  simp only [Prod.mk.sizeOf_spec] at h1 ⊢
  simp only [Node.mk.sizeOf_spec] at h1 ⊢
  omega

/-- Key-length bound: with `base` bytes consumed above `n`'s label, every
key reaching into this subtree stays within 256 bytes (so every label
fits `label_len_t` and `set_label` never truncates). -/
def strBounded (base : Nat) : Node → Bool
  | .mk l _ _ cs =>
    decide (base + l.length ≤ 256) &&
    cs.attach.all (fun bc => strBounded (base + l.length + 1) bc.1.2)
termination_by n => sizeOf n
decreasing_by
  obtain ⟨⟨b, c⟩, hmem⟩ := bc
  have h1 := List.sizeOf_lt_of_mem hmem
  simp only [Prod.mk.sizeOf_spec] at h1 ⊢
  simp only [Node.mk.sizeOf_spec] at h1 ⊢
  omega

/-- Discriminator bytes and label bytes are genuine bytes (< 256). -/
def bytesOkNode : Node → Bool
  | .mk l _ _ cs =>
    l.all (fun b => decide (b < 256)) &&
    cs.attach.all (fun bc => decide (bc.1.1 < 256) && bytesOkNode bc.1.2)
termination_by n => sizeOf n
decreasing_by
  obtain ⟨⟨b, c⟩, hmem⟩ := bc
  have h1 := List.sizeOf_lt_of_mem hmem
  simp only [Prod.mk.sizeOf_spec] at h1 ⊢
  simp only [Node.mk.sizeOf_spec] at h1 ⊢
  omega

/-- Every node's child count is at most 256 (one child per possible
discriminator byte). -/
def childrenBounded : Node → Bool
  | .mk _ _ _ cs =>
    decide (cs.length ≤ 256) && cs.attach.all (fun bc => childrenBounded bc.1.2)
termination_by n => sizeOf n
decreasing_by
  obtain ⟨⟨b, c⟩, hmem⟩ := bc
  have h1 := List.sizeOf_lt_of_mem hmem
  simp only [Prod.mk.sizeOf_spec] at h1 ⊢
  simp only [Node.mk.sizeOf_spec] at h1 ⊢
  omega

/-- Every node's child count is at most 255, the capacity cap enforced
by `resize_if_needed` (capacity is `MIN(255, ...)` and `s <= 255` is
asserted). -/
def childrenBounded255 : Node → Bool
  | .mk _ _ _ cs =>
    decide (cs.length ≤ 255) && cs.attach.all (fun bc => childrenBounded255 bc.1.2)
termination_by n => sizeOf n
decreasing_by
  obtain ⟨⟨b, c⟩, hmem⟩ := bc
  have h1 := List.sizeOf_lt_of_mem hmem
  simp only [Prod.mk.sizeOf_spec] at h1 ⊢
  simp only [Node.mk.sizeOf_spec] at h1 ⊢
  omega

/-- The core of `ctrie_insert` with the allocator's capacity cap made
explicit: the path-prolonging `insert_child` is preceded in the C by
`resize_if_needed(t, n, n->nchild + 1, n->label_len)`, which caps the
capacity at `MIN(255, ...)` and asserts `s <= 255`, so a node already
holding 255 children cannot receive another; the run fails (`none`)
instead of producing a state the C program never reaches. -/
def insertGoC (n : Node) (krem : List Nat) (wildcard : Bool) :
    Option (Node × List Nat) :=
  let j := matchLen n.label krem
  if j < n.label.length then
    let nShort : Node := .mk (set_label (n.label.drop (j + 1))) n.word n.wild n.children
    let s : Node := .mk (set_label (n.label.take j)) false false
      [(n.label.getD j 0, nShort)]
    match krem.drop j with
    | [] => some (.mk s.label true (s.wild || wildcard) s.children, [])
    | b :: rest =>
      if s.children.length + 1 ≤ 255 then
        let leaf : Node := .mk (set_label rest) true wildcard []
        let si := insert_child s b leaf
        some (si.1, [si.2])
      else none
  else
    match _hk : krem.drop j with
    | [] => some (.mk n.label true (n.wild || wildcard) n.children, [])
    | b :: rest =>
      match child_lookup n b with
      | some i =>
        (insertGoC ((n.children.getD i default).2) rest wildcard).map
          (fun ci => (.mk n.label n.word n.wild
            (n.children.set i ((n.children.getD i default).1, ci.1)), i :: ci.2))
      | none =>
        if n.children.length + 1 ≤ 255 then
          let leaf : Node := .mk (set_label rest) true wildcard []
          let ni := insert_child n b leaf
          some (ni.1, [ni.2])
        else none
termination_by krem.length
decreasing_by
  have h1 : (krem.drop (matchLen n.label krem)).length = krem.length - matchLen n.label krem :=
    List.length_drop _ _
  rw [_hk] at h1
  simp only [List.length_cons] at h1
  omega

/-- `ctrie_insert` under the capacity cap (see `insertGoC`). -/
def ctrie_insertC (t : Trie) (k : List Nat) (wildcard : Bool) :
    Option (Trie × List Nat) :=
  (insertGoC t.root k wildcard).map (fun ri =>
    (⟨.mk t.fake_root.label t.fake_root.word t.fake_root.wild
        (t.fake_root.children.set 0
          ((t.fake_root.children.getD 0 default).1, ri.1))⟩,
     0 :: ri.2))

/-- `stem w k`: `w` is an initial byte segment of `k`. -/
def stem (w k : List Nat) : Prop := ∃ r, w ++ r = k

instance (w k : List Nat) : Decidable (stem w k) :=
  decidable_of_iff (k.take w.length = w) (by
    constructor
    · intro h
      refine ⟨k.drop w.length, ?_⟩
      conv_rhs => rw [← List.take_append_drop w.length k]
      rw [h]
    · rintro ⟨r, rfl⟩
      simp)

/-- A single mutating operation. -/
inductive Op : Type where
  | ins (k : List Nat) (wild : Bool) : Op
  | rem (k : List Nat) : Op

/-- Apply one operation to a trie. -/
def execOp (t : Trie) : Op → Trie
  | .ins k w => (ctrie_insert t k w).1
  | .rem k => (ctrie_remove t k).2

/-- Run a sequence of operations from a trie. -/
def execOps (t : Trie) : List Op → Trie
  | [] => t
  | op :: ops => execOps (execOp t op) ops

/-- Apply one operation under the allocator's capacity cap (only
insertion can hit the cap; `ctrie_remove` never adds a child). -/
def execOpC (t : Trie) : Op → Option Trie
  | .ins k w => (ctrie_insertC t k w).map (fun r => r.1)
  | .rem k => some (ctrie_remove t k).2

/-- Run a sequence of operations under the capacity cap; `none` when
some insertion would exceed 255 children at a node. -/
def execOpsC (t : Trie) : List Op → Option Trie
  | [] => some t
  | op :: ops => (execOpC t op).bind (fun t2 => execOpsC t2 ops)

/-- Abstract replay of one operation on the pair
(registered word keys, wildcard keys). -/
def specStep (st : List (List Nat) × List (List Nat)) : Op →
    List (List Nat) × List (List Nat)
  | .ins k w => (st.1.insert k, if w then st.2.insert k else st.2)
  | .rem k => (st.1.erase k, st.2)

/-- Abstract replay of a sequence of operations. -/
def specRun (st : List (List Nat) × List (List Nat)) : List Op →
    List (List Nat) × List (List Nat)
  | [] => st
  | op :: ops => specRun (specStep st op) ops

/-- The abstract state established by `ctrie_init`: the empty key is
registered as a word (the true root carries `F_WORD`), no wildcards. -/
def spec0 : List (List Nat) × List (List Nat) := ([[]], [])

/-- Discipline under which the exactness property holds: inserted keys
fit in 256 bytes, and every removed key is at that point a registered
word, is nonempty, and is not a wildcard key. -/
def legalC1 (st : List (List Nat) × List (List Nat)) : List Op → Prop
  | [] => True
  | op :: ops =>
    (match op with
     | .ins k _ => k.length ≤ 256
     | .rem k => k ≠ [] ∧ k ∈ st.1 ∧ k ∉ st.2) ∧
    legalC1 (specStep st op) ops

/-- Per-operation side condition for the compaction theorem: wildcard
inserts and removals use nonempty keys (removing the empty key deletes
the true root, after which the C code's behaviour is undefined). -/
def opOk3 : Op → Prop
  | .ins k w => w = true → k ≠ []
  | .rem k => k ≠ []

/-- Compaction below the true root: every node other than the fake root
and the true root has at least two children or is a word node. -/
def compactBelowRoot (t : Trie) : Bool :=
  t.root.children.all (fun bc => compactNode bc.2)

/-- Fuel consumed by one iterator frame. -/
def frameFuel (fr : Frame) : Nat :=
  2 * ((fr.n.children.drop fr.idx).map (fun bc => nodeCount bc.2)).sum + 1

/-- Fuel sufficient to drive `iterLoop` to exhaustion from a state. -/
def stateFuel (st : IterState) : Nat :=
  (st.stack.map frameFuel).sum

/-- Remaining output of one iterator stack frame: the word keys of the
children not yet visited, with the frame's key prefix read from the
buffer. -/
def frameOut (buf : List Nat) (fr : Frame) : List (List Nat) :=
  ((fr.n.children.drop fr.idx).map
    (fun bc => wordsAux ((buf.take fr.key_len) ++ [bc.1]) bc.2)).flatten

/-- Remaining output of the whole iterator state. -/
def iterOut (stack : List Frame) (buf : List Nat) : List (List Nat) :=
  (stack.map (frameOut buf)).flatten

/-- Well-formedness of the iterator stack relative to the key buffer:
key lengths fit the buffer and decrease (weakly) down the stack. -/
def stackOk : List Frame → List Nat → Prop
  | [], _ => True
  | fr :: rest, buf =>
    fr.key_len ≤ buf.length ∧
    (∀ fr2 ∈ rest, fr2.key_len ≤ fr.key_len) ∧ stackOk rest buf

/-- `legalC1` is decidable, so concrete instances can be checked by
evaluation. -/
def legalC1Dec : ∀ (s : List (List Nat) × List (List Nat)) (ops : List Op),
    Decidable (legalC1 s ops)
  | _, [] => .isTrue trivial
  | s, .ins k w :: ops =>
    haveI h2 : Decidable (legalC1 (specStep s (.ins k w)) ops) :=
      legalC1Dec (specStep s (.ins k w)) ops
    instDecidableAnd
  | s, .rem k :: ops =>
    haveI h2 : Decidable (legalC1 (specStep s (.rem k)) ops) :=
      legalC1Dec (specStep s (.rem k)) ops
    instDecidableAnd

instance (s : List (List Nat) × List (List Nat)) (ops : List Op) :
    Decidable (legalC1 s ops) := legalC1Dec s ops

/- ### Path functions and label bounds -/

/-- Every label in the subtree fits `label_len_t` (at most 255 bytes). -/
def labels255 : Node → Bool
  | .mk l _ _ cs =>
    decide (l.length ≤ 255) && cs.attach.all (fun bc => labels255 bc.1.2)
termination_by n => sizeOf n
decreasing_by
  obtain ⟨⟨b, c⟩, hmem⟩ := bc
  have h1 := List.sizeOf_lt_of_mem hmem
  simp only [Prod.mk.sizeOf_spec] at h1 ⊢
  simp only [Node.mk.sizeOf_spec] at h1 ⊢
  omega

/-- The node reached by a child-index path (junk on invalid indices). -/
def nodeAt : Node → List Nat → Node
  | n, [] => n
  | n, i :: π => nodeAt ((n.children.getD i default).2) π

/-- The key read along a child-index path: the node's label, then for
each step the discriminator byte and the child's key; `none` when an
index is out of bounds. -/
def pathKey : Node → List Nat → Option (List Nat)
  | n, [] => some n.label
  | n, i :: π =>
    if i < n.children.length then
      (pathKey (n.children.getD i default).2 π).map
        (fun s => n.label ++ (n.children.getD i default).1 :: s)
    else none

/-- The structural well-formedness bundle maintained by all operations. -/
def trieInv (t : Trie) : Prop :=
  t.fake_root.children.length = 1 ∧
  t.root.label = [] ∧ t.root.word = true ∧
  sortedNode t.root = true ∧ wildWordNode t.root = true ∧
  strBounded 0 t.root = true ∧ labels255 t.root = true

/-- Invariant bundle tying a trie to the abstract word/wildcard state. -/
def invC1 (t : Trie) (st : List (List Nat) × List (List Nat)) : Prop :=
  t.fake_root.children.length = 1 ∧
  t.root.label = [] ∧ t.root.word = true ∧
  sortedNode t.root = true ∧ wildWordNode t.root = true ∧
  strBounded 0 t.root = true ∧ labels255 t.root = true ∧
  st.1.Nodup ∧
  (∀ y, y ∈ wordsOf t ↔ y ∈ st.1) ∧
  (∀ y, y ∈ wildsOf t ↔ y ∈ st.2)

/-- Invariant bundle for the compaction claim. -/
def invC3 (t : Trie) : Prop :=
  t.fake_root.children.length = 1 ∧
  t.root.label = [] ∧ t.root.word = true ∧ t.root.wild = false ∧
  sortedNode t.root = true ∧ compactNode t.root = true

/- ### Basic lemmas: matchLen, stem -/

theorem matchLen_le_left (l k : List Nat) : matchLen l k ≤ l.length := by
  induction l generalizing k with
  | nil => simp [matchLen]
  | cons a as ih =>
    cases k with
    | nil => simp [matchLen]
    | cons b bs =>
      by_cases h : a = b <;> simp [matchLen, h]
      exact ih bs

theorem matchLen_le_right (l k : List Nat) : matchLen l k ≤ k.length := by
  induction l generalizing k with
  | nil => simp [matchLen]
  | cons a as ih =>
    cases k with
    | nil => simp [matchLen]
    | cons b bs =>
      by_cases h : a = b <;> simp [matchLen, h]
      exact ih bs

theorem matchLen_nil_right (l : List Nat) : matchLen l [] = 0 := by
  cases l <;> rfl

theorem matchLen_cons_eq (a : Nat) (as bs : List Nat) :
    matchLen (a :: as) (a :: bs) = matchLen as bs + 1 := by
  simp [matchLen]

theorem matchLen_cons_ne {a b : Nat} (h : a ≠ b) (as bs : List Nat) :
    matchLen (a :: as) (b :: bs) = 0 := by
  simp [matchLen, h]

theorem stem_iff_matchLen (l k : List Nat) :
    stem l k ↔ matchLen l k = l.length := by
  induction l generalizing k with
  | nil => simp [stem, matchLen]
  | cons a as ih =>
    cases k with
    | nil =>
      rw [matchLen_nil_right]
      simp only [List.length_cons, stem]
      constructor
      · rintro ⟨r, h⟩; simp at h
      · omega
    | cons b bs =>
      by_cases h : a = b
      · subst h
        rw [matchLen_cons_eq]
        simp only [List.length_cons, Nat.add_right_cancel_iff]
        rw [← ih bs]
        constructor
        · rintro ⟨r, hr⟩
          simp only [List.cons_append, List.cons.injEq] at hr
          exact ⟨r, hr.2⟩
        · rintro ⟨r, hr⟩
          exact ⟨r, by simp [hr]⟩
      · rw [matchLen_cons_ne h]
        simp only [List.length_cons, stem]
        constructor
        · rintro ⟨r, hr⟩
          simp only [List.cons_append, List.cons.injEq] at hr
          exact absurd hr.1 h
        · omega

theorem stem_refl (k : List Nat) : stem k k := ⟨[], by simp⟩

theorem stem_trans {a b c : List Nat} (h1 : stem a b) (h2 : stem b c) :
    stem a c := by
  obtain ⟨r1, rfl⟩ := h1
  obtain ⟨r2, rfl⟩ := h2
  exact ⟨r1 ++ r2, by simp⟩

theorem stem_length {a b : List Nat} (h : stem a b) : a.length ≤ b.length := by
  obtain ⟨r, rfl⟩ := h; simp

theorem stem_append (a r : List Nat) : stem a (a ++ r) := ⟨r, rfl⟩

theorem stem_antisymm {a b : List Nat} (h1 : stem a b) (h2 : b.length ≤ a.length) :
    a = b := by
  obtain ⟨r, rfl⟩ := h1
  simp at h2
  simp [h2]

theorem matchLen_take (l k : List Nat) :
    l.take (matchLen l k) = k.take (matchLen l k) := by
  induction l generalizing k with
  | nil => simp [matchLen]
  | cons a as ih =>
    cases k with
    | nil => simp [matchLen]
    | cons b bs =>
      by_cases h : a = b <;> simp [matchLen, h]
      exact ih bs

theorem matchLen_of_stem {l k : List Nat} (h : stem l k) :
    matchLen l k = l.length := (stem_iff_matchLen l k).mp h

/- ### Accessor simp lemmas -/

@[simp] theorem Node.label_mk (l : List Nat) (w wi : Bool) (cs : List (Nat × Node)) :
    (Node.mk l w wi cs).label = l := rfl

@[simp] theorem Node.word_mk (l : List Nat) (w wi : Bool) (cs : List (Nat × Node)) :
    (Node.mk l w wi cs).word = w := rfl

@[simp] theorem Node.wild_mk (l : List Nat) (w wi : Bool) (cs : List (Nat × Node)) :
    (Node.mk l w wi cs).wild = wi := rfl

@[simp] theorem Node.children_mk (l : List Nat) (w wi : Bool) (cs : List (Nat × Node)) :
    (Node.mk l w wi cs).children = cs := rfl

theorem Node.eta (n : Node) : Node.mk n.label n.word n.wild n.children = n := by
  cases n; rfl

/- ### Sorted children: chainLt, bsearch, child_lookup -/

theorem chainLt_iff (l : List Nat) :
    chainLt l = true ↔ List.Pairwise (· < ·) l := by
  induction l with
  | nil => simp [chainLt]
  | cons a as ih =>
    cases as with
    | nil => simp [chainLt]
    | cons b bs =>
      rw [List.pairwise_cons]
      constructor
      · intro h
        simp only [chainLt, Bool.and_eq_true, decide_eq_true_eq] at h
        have hp : List.Pairwise (· < ·) (b :: bs) := (ih).mp h.2
        refine ⟨?_, hp⟩
        intro x hx
        rcases List.mem_cons.mp hx with rfl | hx
        · exact h.1
        · exact lt_trans h.1 ((List.pairwise_cons.mp hp).1 x hx)
      · rintro ⟨hall, hp⟩
        simp only [chainLt, Bool.and_eq_true, decide_eq_true_eq]
        exact ⟨hall b (by simp), ih.mpr hp⟩

theorem pairwise_getD_lt {a : List Nat} (h : List.Pairwise (· < ·) a)
    {i j : Nat} (hij : i < j) (hj : j < a.length) :
    a.getD i 0 < a.getD j 0 := by
  rw [List.getD_eq_getElem a 0 (lt_trans hij hj), List.getD_eq_getElem a 0 hj]
  exact List.pairwise_iff_getElem.mp h i j (lt_trans hij hj) hj hij

theorem pairwise_getD_le {a : List Nat} (h : List.Pairwise (· < ·) a)
    {i j : Nat} (hij : i ≤ j) (hj : j < a.length) :
    a.getD i 0 ≤ a.getD j 0 := by
  rcases Nat.eq_or_lt_of_le hij with rfl | hlt
  · exact le_refl _
  · exact le_of_lt (pairwise_getD_lt h hlt hj)

theorem bsearch_spec (a : List Nat) (k : Nat)
    (hs : List.Pairwise (· < ·) a) :
    ∀ d l r, r - l ≤ d → l ≤ r → r ≤ a.length →
      (l ≤ bsearch a k l r ∧ bsearch a k l r ≤ r) ∧
      (∀ i, l ≤ i → i < bsearch a k l r → a.getD i 0 < k) ∧
      (∀ i, bsearch a k l r ≤ i → i < r → k ≤ a.getD i 0) := by
  intro d
  induction d with
  | zero =>
    intro l r hd hlr _
    have : l = r := by omega
    subst this
    rw [bsearch]
    simp only [lt_irrefl, dite_false]
    exact ⟨⟨le_refl _, le_refl _⟩, by omega, by omega⟩
  | succ d ih =>
    intro l r hd hlr hra
    by_cases hlt : l < r
    · rw [bsearch]
      simp only [hlt, dite_true]
      by_cases hk : k ≤ a.getD ((l + r) / 2) 0
      · simp only [hk, if_true]
        have hm1 : l ≤ (l + r) / 2 := by omega
        have hm2 : (l + r) / 2 < r := by omega
        obtain ⟨⟨hb1, hb2⟩, hlo, hhi⟩ :=
          ih l ((l + r) / 2) (by omega) hm1 (by omega)
        refine ⟨⟨hb1, by omega⟩, hlo, ?_⟩
        intro i hi1 hi2
        by_cases him : i < (l + r) / 2
        · exact hhi i hi1 him
        · calc k ≤ a.getD ((l + r) / 2) 0 := hk
            _ ≤ a.getD i 0 := pairwise_getD_le hs (by omega) (by omega)
      · simp only [hk, if_false]
        have hm2 : (l + r) / 2 < r := by omega
        obtain ⟨⟨hb1, hb2⟩, hlo, hhi⟩ :=
          ih ((l + r) / 2 + 1) r (by omega) (by omega) hra
        refine ⟨⟨by omega, hb2⟩, ?_, hhi⟩
        intro i hi1 hi2
        by_cases him : (l + r) / 2 + 1 ≤ i
        · exact hlo i him hi2
        · calc a.getD i 0 ≤ a.getD ((l + r) / 2) 0 :=
              pairwise_getD_le hs (by omega) (by omega)
            _ < k := by omega
    · rw [bsearch]
      simp only [hlt, dite_false]
      exact ⟨⟨le_refl _, hlr⟩, by omega, by omega⟩

/-- Characterization of `sortedNode` by membership. -/
theorem sortedNode_iff (l : List Nat) (w wi : Bool) (cs : List (Nat × Node)) :
    sortedNode (.mk l w wi cs) = true ↔
      List.Pairwise (· < ·) (cs.map Prod.fst) ∧
      ∀ bc ∈ cs, sortedNode bc.2 = true := by
  rw [sortedNode]
  simp only [Bool.and_eq_true, List.all_eq_true, List.mem_attach, true_implies,
    Subtype.forall, chainLt_iff]

theorem sortedNode_children {n : Node} (h : sortedNode n = true) :
    ∀ bc ∈ n.children, sortedNode bc.2 = true := by
  cases n with
  | mk l w wi cs => exact ((sortedNode_iff l w wi cs).mp h).2

theorem sortedNode_pairwise {n : Node} (h : sortedNode n = true) :
    List.Pairwise (· < ·) (n.children.map Prod.fst) := by
  cases n with
  | mk l w wi cs => exact ((sortedNode_iff l w wi cs).mp h).1

theorem find_child_idx_le (n : Node) (b : Nat)
    (hs : List.Pairwise (· < ·) (n.children.map Prod.fst)) :
    find_child_idx n b ≤ n.children.length := by
  have := (bsearch_spec (n.children.map Prod.fst) b hs
    n.children.length 0 n.children.length (by simp) (by omega) (by simp)).1.2
  simpa [find_child_idx] using this

/-- If `child_lookup` succeeds, the index is in bounds and the
discriminator there is `b`. -/
theorem child_lookup_some {n : Node} {b : Nat} {i : Nat}
    (h : child_lookup n b = some i) :
    i < n.children.length ∧ (n.children.getD i default).1 = b := by
  unfold child_lookup at h
  split at h
  · next hc =>
    obtain rfl := (Option.some.injEq _ _).mp h
    exact hc
  · exact absurd h (by simp)

/-- On sorted children, a failing `child_lookup` means no child carries
the discriminator `b`. -/
theorem child_lookup_none {n : Node} {b : Nat}
    (hs : List.Pairwise (· < ·) (n.children.map Prod.fst))
    (h : child_lookup n b = none) :
    ∀ bc ∈ n.children, bc.1 ≠ b := by
  intro bc hmem hbc
  obtain ⟨j, hj, hgj⟩ := List.getElem_of_mem hmem
  have hlen : (n.children.map Prod.fst).length = n.children.length := by simp
  obtain ⟨⟨hb1, hb2⟩, hlo, hhi⟩ := bsearch_spec (n.children.map Prod.fst) b hs
    n.children.length 0 n.children.length (by omega) (by omega) (by omega)
  set res := bsearch (n.children.map Prod.fst) b 0 n.children.length with hres
  have hjb : (n.children.map Prod.fst).getD j 0 = b := by
    rw [List.getD_eq_getElem _ 0 (by omega)]
    simp only [List.getElem_map]
    rw [hgj, hbc]
  have hjres : ¬ j < res := by
    intro hlt
    have := hlo j (by omega) hlt
    omega
  have hreslen : res < n.children.length := by omega
  have h1 : b ≤ (n.children.map Prod.fst).getD res 0 := hhi res (le_refl _) (by omega)
  have h2 : (n.children.map Prod.fst).getD res 0 ≤ (n.children.map Prod.fst).getD j 0 :=
    pairwise_getD_le hs (by omega) (by omega)
  have hresb : (n.children.map Prod.fst).getD res 0 = b := by omega
  unfold child_lookup at h
  split at h
  · exact absurd h (by simp)
  · next hc =>
    apply hc
    have hfci : find_child_idx n b = res := rfl
    refine ⟨by rw [hfci]; omega, ?_⟩
    rw [hfci]
    have : (n.children.map Prod.fst).getD res 0 = (n.children.getD res default).1 := by
      rw [List.getD_eq_getElem _ 0 (by omega), List.getD_eq_getElem _ default (by omega)]
      simp
    omega

/- ### Node induction and child-array helpers -/

/-- Induction over nodes with access to membership in the child list. -/
theorem Node.indMem {P : Node → Prop}
    (h : ∀ l w wi cs, (∀ bc ∈ cs, P bc.2) → P (.mk l w wi cs)) :
    ∀ n, P n
  | .mk l w wi cs => h l w wi cs (fun bc hm => Node.indMem h bc.2)
termination_by n => sizeOf n
decreasing_by
  have h1 := List.sizeOf_lt_of_mem hm
  obtain ⟨b, c⟩ := bc
  simp only [Prod.mk.sizeOf_spec] at h1 ⊢
  simp only [Node.mk.sizeOf_spec]
  omega

theorem getD_mem {α : Type} [Inhabited α] {l : List α} {i : Nat}
    (h : i < l.length) : l.getD i default ∈ l := by
  rw [List.getD_eq_getElem l default h]
  exact List.getElem_mem h

/-- On duplicate-free discriminators, a successful `child_lookup` for the
discriminator of a member returns exactly that member. -/
theorem child_lookup_mem {n : Node} {b : Nat} {c : Node}
    (hs : List.Pairwise (· < ·) (n.children.map Prod.fst))
    (hmem : (b, c) ∈ n.children) :
    ∃ i, child_lookup n b = some i ∧ n.children.getD i default = (b, c) := by
  cases hcl : child_lookup n b with
  | none => exact absurd rfl (child_lookup_none hs hcl (b, c) hmem)
  | some i =>
    obtain ⟨hi, hib⟩ := child_lookup_some hcl
    refine ⟨i, rfl, ?_⟩
    obtain ⟨j, hj, hgj⟩ := List.getElem_of_mem hmem
    have hnd : (n.children.map Prod.fst).Nodup := hs.nodup
    have hij : i = j := by
      by_contra hne
      have hi2 : i < (n.children.map Prod.fst).length := by simpa using hi
      have hj2 : j < (n.children.map Prod.fst).length := by simpa using hj
      have h1 : (n.children.map Prod.fst)[i] =
          (n.children.map Prod.fst)[j] := by
        simp only [List.getElem_map]
        rw [hgj]
        have : n.children[i] = n.children.getD i default := by
          rw [List.getD_eq_getElem n.children default hi]
        rw [this, hib]
      exact hne (List.Nodup.getElem_inj_iff hnd |>.mp h1)
    subst hij
    rw [List.getD_eq_getElem n.children default hi, hgj]

theorem insertIdx_eq_take_cons_drop {α : Type} (l : List α) (n : Nat)
    (h : n ≤ l.length) (x : α) :
    l.insertIdx n x = l.take n ++ x :: l.drop n := by
  induction l generalizing n with
  | nil =>
    simp only [List.length_nil, Nat.le_zero] at h
    subst h
    simp [List.insertIdx]
  | cons a as ih =>
    cases n with
    | zero => simp [List.insertIdx]
    | succ m =>
      simp only [List.insertIdx_succ_cons, List.take_succ_cons,
        List.drop_succ_cons, List.cons_append, List.cons.injEq, true_and]
      exact ih m (by simpa using h)

theorem map_insertIdx {α β : Type} (f : α → β) (l : List α) (n : Nat) (x : α) :
    (l.insertIdx n x).map f = (l.map f).insertIdx n (f x) := by
  induction l generalizing n with
  | nil => cases n <;> simp [List.insertIdx]
  | cons a as ih => cases n <;> simp [List.insertIdx_succ_cons, ih]

theorem map_eraseIdx {α β : Type} (f : α → β) (l : List α) (i : Nat) :
    (l.eraseIdx i).map f = (l.map f).eraseIdx i := by
  induction l generalizing i with
  | nil => simp
  | cons a as ih => cases i <;> simp [List.eraseIdx, ih]

/-- Inserting `b` at its lower-bound position keeps the char array
strictly sorted, provided `b` is not already present. -/
theorem pairwise_insertIdx {a : List Nat} {b : Nat} {idx : Nat}
    (hs : List.Pairwise (· < ·) a)
    (hidx : idx ≤ a.length)
    (hlo : ∀ i, i < idx → a.getD i 0 < b)
    (hhi : ∀ i, idx ≤ i → i < a.length → b < a.getD i 0) :
    List.Pairwise (· < ·) (a.insertIdx idx b) := by
  rw [insertIdx_eq_take_cons_drop a idx hidx b]
  rw [List.pairwise_append]
  refine ⟨hs.sublist (List.take_sublist _ _), ?_, ?_⟩
  · rw [List.pairwise_cons]
    constructor
    · intro x hx
      obtain ⟨i, hi, hgi⟩ := List.getElem_of_mem hx
      have hlen : (a.drop idx).length = a.length - idx := by simp
      have hb1 : idx + i < a.length := by omega
      have : (a.drop idx)[i] = a[idx + i] := List.getElem_drop _
      rw [this] at hgi
      have := hhi (idx + i) (by omega) (by omega)
      rw [List.getD_eq_getElem a 0 (by omega)] at this
      omega
    · exact hs.sublist (List.drop_sublist _ _)
  · intro x hx y hy
    obtain ⟨i, hi, hgi⟩ := List.getElem_of_mem hx
    have hb2 : i < a.length := by simp at hi; omega
    have hti : (a.take idx)[i] = a[i] := List.getElem_take _
    rw [hti] at hgi
    have hilen : i < idx := by simp at hi; omega
    have hxb : x < b := by
      have := hlo i hilen
      rw [List.getD_eq_getElem a 0 (by simp at hi; omega)] at this
      omega
    rcases List.mem_cons.mp hy with rfl | hy
    · exact hxb
    · obtain ⟨jj, hjj, hgjj⟩ := List.getElem_of_mem hy
      have hb3 : idx + jj < a.length := by simp at hjj; omega
      have : (a.drop idx)[jj] = a[idx + jj] := List.getElem_drop _
      rw [this] at hgjj
      have hby := hhi (idx + jj) (by omega) (by simp at hjj; omega)
      rw [List.getD_eq_getElem a 0 (by simp at hjj; omega)] at hby
      omega

/- ### wordsAux / wildsAux structure lemmas -/

theorem mem_wordsAux {x pre : List Nat} {l : List Nat} {w wi : Bool}
    {cs : List (Nat × Node)} :
    x ∈ wordsAux pre (.mk l w wi cs) ↔
      (w = true ∧ x = pre ++ l) ∨ ∃ bc ∈ cs, x ∈ wordsAux (pre ++ l ++ [bc.1]) bc.2 := by
  rw [wordsAux]
  simp only [List.mem_append, List.mem_flatten, List.mem_map, List.mem_attach,
    true_and, Subtype.exists]
  constructor
  · rintro (hx | ⟨ys, ⟨bc, hbc, rfl⟩, hy⟩)
    · left
      split at hx
      · next hw => simpa [hw] using hx
      · simp at hx
    · exact Or.inr ⟨bc, hbc, hy⟩
  · rintro (⟨hw, rfl⟩ | ⟨bc, hbc, hy⟩)
    · left; simp [hw]
    · exact Or.inr ⟨wordsAux (pre ++ l ++ [bc.1]) bc.2, ⟨bc, hbc, rfl⟩, hy⟩

theorem mem_wildsAux {x pre : List Nat} {l : List Nat} {w wi : Bool}
    {cs : List (Nat × Node)} :
    x ∈ wildsAux pre (.mk l w wi cs) ↔
      (wi = true ∧ x = pre ++ l) ∨ ∃ bc ∈ cs, x ∈ wildsAux (pre ++ l ++ [bc.1]) bc.2 := by
  rw [wildsAux]
  simp only [List.mem_append, List.mem_flatten, List.mem_map, List.mem_attach,
    true_and, Subtype.exists]
  constructor
  · rintro (hx | ⟨ys, ⟨bc, hbc, rfl⟩, hy⟩)
    · left
      split at hx
      · next hw => simpa [hw] using hx
      · simp at hx
    · exact Or.inr ⟨bc, hbc, hy⟩
  · rintro (⟨hw, rfl⟩ | ⟨bc, hbc, hy⟩)
    · left; simp [hw]
    · exact Or.inr ⟨wildsAux (pre ++ l ++ [bc.1]) bc.2, ⟨bc, hbc, rfl⟩, hy⟩

theorem wordsAux_shift : ∀ (n : Node) (pre : List Nat),
    wordsAux pre n = (wordsAux [] n).map (fun s => pre ++ s) := by
  intro n
  induction n using Node.indMem with
  | h l w wi cs ih =>
    intro pre
    conv_lhs => rw [wordsAux]
    conv_rhs => rw [wordsAux]
    rw [List.map_append]
    congr 1
    · split <;> simp
    · rw [List.map_flatten, List.map_map]
      congr 1
      apply List.map_congr_left
      intro bc _
      simp only [Function.comp_apply]
      rw [ih bc.1 bc.2 (pre ++ l ++ [bc.1.1]), ih bc.1 bc.2 ([] ++ l ++ [bc.1.1])]
      rw [List.map_map]
      apply List.map_congr_left
      intro s _
      simp

theorem wildsAux_shift : ∀ (n : Node) (pre : List Nat),
    wildsAux pre n = (wildsAux [] n).map (fun s => pre ++ s) := by
  intro n
  induction n using Node.indMem with
  | h l w wi cs ih =>
    intro pre
    conv_lhs => rw [wildsAux]
    conv_rhs => rw [wildsAux]
    rw [List.map_append]
    congr 1
    · split <;> simp
    · rw [List.map_flatten, List.map_map]
      congr 1
      apply List.map_congr_left
      intro bc _
      simp only [Function.comp_apply]
      rw [ih bc.1 bc.2 (pre ++ l ++ [bc.1.1]), ih bc.1 bc.2 ([] ++ l ++ [bc.1.1])]
      rw [List.map_map]
      apply List.map_congr_left
      intro s _
      simp

theorem stem_of_mem_wordsAux : ∀ (n : Node) (pre x : List Nat),
    x ∈ wordsAux pre n → stem (pre ++ n.label) x := by
  intro n
  induction n using Node.indMem with
  | h l w wi cs ih =>
    intro pre x hx
    rcases mem_wordsAux.mp hx with ⟨_, rfl⟩ | ⟨bc, hbc, hy⟩
    · exact stem_refl _
    · have := ih bc hbc (pre ++ l ++ [bc.1]) x hy
      refine stem_trans ?_ this
      simp only [Node.label_mk]
      exact ⟨[bc.1] ++ bc.2.label, by simp⟩

theorem stem_of_mem_wildsAux : ∀ (n : Node) (pre x : List Nat),
    x ∈ wildsAux pre n → stem (pre ++ n.label) x := by
  intro n
  induction n using Node.indMem with
  | h l w wi cs ih =>
    intro pre x hx
    rcases mem_wildsAux.mp hx with ⟨_, rfl⟩ | ⟨bc, hbc, hy⟩
    · exact stem_refl _
    · have := ih bc hbc (pre ++ l ++ [bc.1]) x hy
      refine stem_trans ?_ this
      simp only [Node.label_mk]
      exact ⟨[bc.1] ++ bc.2.label, by simp⟩

/- ### More stem lemmas -/

theorem stem_append_cons {l : List Nat} {a b : Nat} {r : List Nat}
    (h : stem (l ++ [a]) (l ++ b :: r)) : a = b := by
  obtain ⟨s, hs⟩ := h
  rw [List.append_assoc] at hs
  have h2 := List.append_cancel_left hs
  rw [List.singleton_append] at h2
  have h3 := congrArg (fun t => t.headD 0) h2
  simpa using h3

theorem stem_append_iff (p x y : List Nat) :
    stem (p ++ x) (p ++ y) ↔ stem x y := by
  constructor
  · rintro ⟨s, hs⟩
    rw [List.append_assoc] at hs
    exact ⟨s, List.append_cancel_left hs⟩
  · rintro ⟨s, rfl⟩
    exact ⟨s, by simp⟩

theorem stem_cons_self (l : List Nat) (b : Nat) (r : List Nat) :
    stem l (l ++ b :: r) := ⟨b :: r, rfl⟩

theorem krem_eq_of_matchLen {l krem : List Nat}
    (h : ¬ matchLen l krem < l.length) :
    krem = l ++ krem.drop l.length := by
  have hle := matchLen_le_left l krem
  have heq : matchLen l krem = l.length := by omega
  have hstem : stem l krem := (stem_iff_matchLen l krem).mpr heq
  obtain ⟨r, rfl⟩ := hstem
  simp

/- ### Unfolding lemmas for the find3 descent -/

theorem find3Go_mismatch {n : Node} {krem : List Nat}
    (h : matchLen n.label krem < n.label.length) (path : List Nat)
    (w : Option (List Nat)) : find3Go n krem path w = w := by
  rw [find3Go]
  simp [h]

theorem find3Go_exact {n : Node} {krem : List Nat}
    (h : ¬ matchLen n.label krem < n.label.length)
    (hd : krem.drop (matchLen n.label krem) = []) (path : List Nat)
    (w : Option (List Nat)) :
    find3Go n krem path w = if n.word = true then some path else w := by
  rw [find3Go, if_neg h]
  split
  · rfl
  · next heq => rw [hd] at heq; simp at heq

theorem find3Go_step {n : Node} {krem : List Nat} {b : Nat} {rest : List Nat}
    (h : ¬ matchLen n.label krem < n.label.length)
    (hd : krem.drop (matchLen n.label krem) = b :: rest) (path : List Nat)
    (w : Option (List Nat)) :
    find3Go n krem path w =
      match child_lookup n b with
      | some i =>
        find3Go ((n.children.getD i default).2) rest (path ++ [i])
          (if n.wild = true then some path else w)
      | none => if n.wild = true then some path else w := by
  rw [find3Go, if_neg h]
  split
  · next heq => rw [hd] at heq; simp at heq
  · next b' rest' heq =>
    rw [hd] at heq
    injection heq with h1 h2
    subst h1
    subst h2
    rfl

theorem find3Go_step_none {n : Node} {krem : List Nat} {b : Nat} {rest : List Nat}
    (h : ¬ matchLen n.label krem < n.label.length)
    (hd : krem.drop (matchLen n.label krem) = b :: rest)
    (hcl : child_lookup n b = none) (path : List Nat) (w : Option (List Nat)) :
    find3Go n krem path w = if n.wild = true then some path else w := by
  rw [find3Go_step h hd, hcl]

theorem find3Go_step_some {n : Node} {krem : List Nat} {b : Nat} {rest : List Nat}
    {i : Nat} (h : ¬ matchLen n.label krem < n.label.length)
    (hd : krem.drop (matchLen n.label krem) = b :: rest)
    (hcl : child_lookup n b = some i) (path : List Nat) (w : Option (List Nat)) :
    find3Go n krem path w =
      find3Go ((n.children.getD i default).2) rest (path ++ [i])
        (if n.wild = true then some path else w) := by
  rw [find3Go_step h hd, hcl]

/- ### Correctness of the find3 descent -/

theorem find3Go_isSome : ∀ (n : Node), sortedNode n = true →
    ∀ (krem path : List Nat) (w : Option (List Nat)),
    (find3Go n krem path w).isSome = true ↔
      (krem ∈ wordsAux [] n ∨
       (∃ x ∈ wildsAux [] n, stem x krem ∧ x ≠ krem) ∨
       w.isSome = true) := by
  intro n
  induction n using Node.indMem with
  | h l wo wi cs ih =>
    intro hs krem path w
    by_cases hj : matchLen (Node.mk l wo wi cs).label krem < (Node.mk l wo wi cs).label.length
    · rw [find3Go_mismatch hj]
      simp only [Node.label_mk] at hj
      have hnstem : ¬ stem l krem := by
        rw [stem_iff_matchLen]; omega
      constructor
      · intro hw
        exact Or.inr (Or.inr hw)
      · rintro (hword | ⟨x, hx, hxk, _⟩ | hw)
        · exact absurd (by simpa using stem_of_mem_wordsAux _ [] krem hword) hnstem
        · have := stem_of_mem_wildsAux _ [] x hx
          simp only [List.nil_append, Node.label_mk] at this
          exact absurd (stem_trans this hxk) hnstem
        · exact hw
    · simp only [Node.label_mk] at hj
      have hkrem := krem_eq_of_matchLen hj
      have hml : matchLen l krem = l.length := by
        have := matchLen_le_left l krem; omega
      cases hd : krem.drop l.length with
      | nil =>
        rw [find3Go_exact (n := .mk l wo wi cs) (by simpa using hj)
          (by simpa [hml] using hd) path w]
        have hkl : krem = l := by rw [hkrem, hd, List.append_nil]
        simp only [Node.word_mk]
        constructor
        · intro hsome
          split at hsome
          · next hwo =>
            exact Or.inl (mem_wordsAux.mpr (Or.inl ⟨hwo, by simp [hkl]⟩))
          · exact Or.inr (Or.inr hsome)
        · rintro (hword | ⟨x, hx, hxk, hne⟩ | hw)
          · rcases mem_wordsAux.mp hword with ⟨hwo, _⟩ | ⟨bc, hbc, hy⟩
            · simp [hwo]
            · have hst := stem_of_mem_wordsAux _ _ _ hy
              have hlen := stem_length (stem_trans ⟨bc.2.label, rfl⟩ hst)
              have hklen := congrArg List.length hkl
              simp only [List.nil_append, List.append_assoc, List.length_append,
                List.length_cons, List.singleton_append] at hlen hklen
              have := stem_length hst
              simp only [List.nil_append, List.append_assoc, List.length_append] at this
              omega
          · have hst := stem_of_mem_wildsAux _ [] x hx
            simp only [List.nil_append, Node.label_mk] at hst
            rw [← hkl] at hst
            exact absurd (stem_antisymm hxk (stem_length hst)) hne
          · split <;> simp [hw]
      | cons b rest =>
        have hkbr : krem = l ++ b :: rest := by rw [hkrem, hd]
        -- every word/wildcard below `n` matching the key goes through the
        -- unique child with discriminator `b`
        have hwords : krem ∈ wordsAux [] (.mk l wo wi cs) ↔
            ∃ bc ∈ cs, bc.1 = b ∧ rest ∈ wordsAux [] bc.2 := by
          rw [mem_wordsAux]
          constructor
          · rintro (⟨_, hkl2⟩ | ⟨bc, hbc, hy⟩)
            · rw [hkbr] at hkl2
              simp at hkl2
            · have hst := stem_of_mem_wordsAux _ _ _ hy
              have hb : bc.1 = b := by
                apply stem_append_cons (l := l) (r := rest)
                rw [← hkbr]
                refine stem_trans ?_ hst
                simp only [List.nil_append]
                exact ⟨bc.2.label, by simp⟩
              refine ⟨bc, hbc, hb, ?_⟩
              rw [wordsAux_shift] at hy
              obtain ⟨s, hsmem, hseq⟩ := List.mem_map.mp hy
              have heq2 : ([] ++ l ++ [bc.1]) ++ s = krem := hseq
              rw [hkbr, hb] at heq2
              simp only [List.nil_append, List.append_assoc, List.singleton_append] at heq2
              have hseq2 : b :: s = b :: rest := List.append_cancel_left heq2
              obtain rfl : s = rest := by simpa using hseq2
              exact hsmem
          · rintro ⟨bc, hbc, hb, hy⟩
            refine Or.inr ⟨bc, hbc, ?_⟩
            rw [wordsAux_shift]
            refine List.mem_map.mpr ⟨rest, hy, ?_⟩
            rw [hkbr, hb]
            simp
        have hwilds : (∃ x ∈ wildsAux [] (.mk l wo wi cs), stem x krem ∧ x ≠ krem) ↔
            ((wi = true) ∨
             ∃ bc ∈ cs, bc.1 = b ∧
               ∃ x ∈ wildsAux [] bc.2, stem x rest ∧ x ≠ rest) := by
          constructor
          · rintro ⟨x, hx, hxk, hne⟩
            rcases mem_wildsAux.mp hx with ⟨hwi, hxl⟩ | ⟨bc, hbc, hy⟩
            · exact Or.inl hwi
            · have hst := stem_of_mem_wildsAux _ _ _ hy
              have hb : bc.1 = b := by
                apply stem_append_cons (l := l) (r := rest)
                rw [← hkbr]
                refine stem_trans (stem_trans ?_ hst) hxk
                simp only [List.nil_append]
                exact ⟨bc.2.label, by simp⟩
              refine Or.inr ⟨bc, hbc, hb, ?_⟩
              rw [wildsAux_shift] at hy
              obtain ⟨s, hsmem, rfl⟩ := List.mem_map.mp hy
              refine ⟨s, hsmem, ?_, ?_⟩
              · have hx2 : stem (([] ++ l ++ [bc.1]) ++ s) ((l ++ [b]) ++ rest) := by
                  have hkk : (l ++ [b]) ++ rest = krem := by rw [hkbr]; simp
                  rw [hkk]
                  exact hxk
                rw [hb] at hx2
                simp only [List.nil_append] at hx2
                exact (stem_append_iff (l ++ [b]) s rest).mp hx2
              · intro hcon
                apply hne
                rw [hcon, hkbr, hb]
                simp
          · rintro (hwi | ⟨bc, hbc, hb, x, hx, hxr, hne⟩)
            · refine ⟨l, mem_wildsAux.mpr (Or.inl ⟨hwi, by simp⟩), ?_, ?_⟩
              · rw [hkbr]; exact stem_cons_self l b rest
              · rw [hkbr]; simp
            · refine ⟨([] ++ l ++ [bc.1]) ++ x, ?_, ?_, ?_⟩
              · apply mem_wildsAux.mpr
                refine Or.inr ⟨bc, hbc, ?_⟩
                rw [wildsAux_shift]
                exact List.mem_map.mpr ⟨x, hx, rfl⟩
              · rw [hkbr, hb]
                simp only [List.nil_append]
                rw [show l ++ b :: rest = (l ++ [b]) ++ rest by simp]
                exact (stem_append_iff (l ++ [b]) x rest).mpr hxr
              · rw [hkbr, hb]
                simp only [List.nil_append]
                intro hcon
                apply hne
                rw [show l ++ b :: rest = (l ++ [b]) ++ rest by simp] at hcon
                exact List.append_cancel_left hcon
        cases hcl : child_lookup (Node.mk l wo wi cs) b with
        | none =>
          rw [find3Go_step_none (n := .mk l wo wi cs) (by simpa using hj)
            (by simpa [hml] using hd) hcl path w]
          simp only [Node.wild_mk]
          have hnone := child_lookup_none (sortedNode_pairwise hs) hcl
          simp only [Node.children_mk] at hnone
          constructor
          · intro hsome
            split at hsome
            · next hwi => exact Or.inr (Or.inl (hwilds.mpr (Or.inl hwi)))
            · exact Or.inr (Or.inr hsome)
          · rintro (hword | hwild | hw)
            · obtain ⟨bc, hbc, hb, _⟩ := hwords.mp hword
              exact absurd hb (hnone bc hbc)
            · rcases hwilds.mp hwild with hwi | ⟨bc, hbc, hb, _⟩
              · simp [hwi]
              · exact absurd hb (hnone bc hbc)
            · split
              · simp
              · exact hw
        | some i =>
          rw [find3Go_step_some (n := .mk l wo wi cs) (by simpa using hj)
            (by simpa [hml] using hd) hcl path w]
          simp only [Node.wild_mk, Node.children_mk]
          obtain ⟨hi, hib⟩ := child_lookup_some hcl
          simp only [Node.children_mk] at hi hib
          have hmem : cs.getD i default ∈ cs := getD_mem hi
          have hchild : sortedNode (cs.getD i default).2 = true :=
            sortedNode_children hs _ hmem
          rw [ih (cs.getD i default) hmem hchild rest (path ++ [i])
            (if wi = true then some path else w)]
          have huniq : ∀ bc ∈ cs, bc.1 = b → bc = cs.getD i default := by
            intro bc hbc hb
            obtain ⟨b1, c1⟩ := bc
            simp only at hb
            subst hb
            obtain ⟨i', hi', hgd⟩ := child_lookup_mem (sortedNode_pairwise hs) (by simpa using hbc)
            simp only [Node.children_mk] at hi' hgd
            rw [hcl] at hi'
            obtain rfl := (Option.some.injEq _ _).mp hi'
            exact hgd.symm
          have hwords2 : krem ∈ wordsAux [] (.mk l wo wi cs) ↔
              rest ∈ wordsAux [] (cs.getD i default).2 := by
            rw [hwords]
            constructor
            · rintro ⟨bc, hbc, hb, hy⟩
              rw [huniq bc hbc hb] at hy
              exact hy
            · intro hy
              exact ⟨cs.getD i default, hmem, hib, hy⟩
          have hwilds2 : (∃ x ∈ wildsAux [] (.mk l wo wi cs), stem x krem ∧ x ≠ krem) ↔
              ((wi = true) ∨
               ∃ x ∈ wildsAux [] (cs.getD i default).2, stem x rest ∧ x ≠ rest) := by
            rw [hwilds]
            constructor
            · rintro (hwi | ⟨bc, hbc, hb, hy⟩)
              · exact Or.inl hwi
              · rw [huniq bc hbc hb] at hy
                exact Or.inr hy
            · rintro (hwi | hy)
              · exact Or.inl hwi
              · exact Or.inr ⟨cs.getD i default, hmem, hib, hy⟩
          rw [hwords2, hwilds2]
          constructor
          · rintro (h1 | h2 | h3)
            · exact Or.inl h1
            · exact Or.inr (Or.inl (Or.inr h2))
            · by_cases hwi : wi = true
              · exact Or.inr (Or.inl (Or.inl hwi))
              · simp only [hwi, if_false] at h3
                exact Or.inr (Or.inr h3)
          · rintro (h1 | (hwi | h2) | h3)
            · exact Or.inl h1
            · simp [hwi]
            · exact Or.inr (Or.inl h2)
            · by_cases hwi : wi = true
              · simp [hwi]
              · simp only [hwi, if_false]
                exact Or.inr (Or.inr h3)

theorem labels255_iff (l : List Nat) (w wi : Bool) (cs : List (Nat × Node)) :
    labels255 (.mk l w wi cs) = true ↔
      l.length ≤ 255 ∧ ∀ bc ∈ cs, labels255 bc.2 = true := by
  rw [labels255]
  simp only [Bool.and_eq_true, decide_eq_true_eq, List.all_eq_true,
    List.mem_attach, true_implies, Subtype.forall]

theorem strBounded_iff (base : Nat) (l : List Nat) (w wi : Bool)
    (cs : List (Nat × Node)) :
    strBounded base (.mk l w wi cs) = true ↔
      base + l.length ≤ 256 ∧
      ∀ bc ∈ cs, strBounded (base + l.length + 1) bc.2 = true := by
  rw [strBounded]
  simp only [Bool.and_eq_true, decide_eq_true_eq, List.all_eq_true,
    List.mem_attach, true_implies, Subtype.forall]

theorem compactNode_iff (l : List Nat) (w wi : Bool) (cs : List (Nat × Node)) :
    compactNode (.mk l w wi cs) = true ↔
      (cs.length ≥ 2 ∨ w = true) ∧ ∀ bc ∈ cs, compactNode bc.2 = true := by
  rw [compactNode]
  simp only [Bool.and_eq_true, Bool.or_eq_true, decide_eq_true_eq,
    List.all_eq_true, List.mem_attach, true_implies, Subtype.forall]

theorem wildWordNode_iff (l : List Nat) (w wi : Bool) (cs : List (Nat × Node)) :
    wildWordNode (.mk l w wi cs) = true ↔
      (wi = true → w = true) ∧ ∀ bc ∈ cs, wildWordNode bc.2 = true := by
  rw [wildWordNode]
  simp only [Bool.and_eq_true, List.all_eq_true, List.mem_attach, true_implies,
    Subtype.forall, Bool.or_eq_true, Bool.not_eq_true']
  constructor
  · rintro ⟨h1, h2⟩
    refine ⟨?_, h2⟩
    intro hwi
    rcases h1 with h1 | h1
    · rw [hwi] at h1; cases h1
    · exact h1
  · rintro ⟨h1, h2⟩
    refine ⟨?_, h2⟩
    by_cases hwi : wi = true
    · exact Or.inr (h1 hwi)
    · exact Or.inl (by simpa using hwi)

theorem nodeCount_eq (l : List Nat) (w wi : Bool) (cs : List (Nat × Node)) :
    nodeCount (.mk l w wi cs) = 1 + (cs.map (fun bc => nodeCount bc.2)).sum := by
  rw [nodeCount]
  congr 1
  rw [← List.attach_map_val cs (fun bc => nodeCount bc.2)]

/- ### Unfolding lemmas for insertGo -/

theorem insertGo_split_exact {n : Node} {krem : List Nat}
    (h : matchLen n.label krem < n.label.length)
    (hd : krem.drop (matchLen n.label krem) = []) (wildcard : Bool) :
    insertGo n krem wildcard =
      (.mk (set_label (n.label.take (matchLen n.label krem))) true wildcard
        [(n.label.getD (matchLen n.label krem) 0,
          .mk (set_label (n.label.drop (matchLen n.label krem + 1)))
            n.word n.wild n.children)], []) := by
  rw [insertGo, if_pos h, hd]
  simp

theorem insertGo_split_extend {n : Node} {krem : List Nat} {b : Nat}
    {rest : List Nat} (h : matchLen n.label krem < n.label.length)
    (hd : krem.drop (matchLen n.label krem) = b :: rest) (wildcard : Bool) :
    insertGo n krem wildcard =
      ((insert_child
          (.mk (set_label (n.label.take (matchLen n.label krem))) false false
            [(n.label.getD (matchLen n.label krem) 0,
              .mk (set_label (n.label.drop (matchLen n.label krem + 1)))
                n.word n.wild n.children)])
          b (.mk (set_label rest) true wildcard [])).1,
       [(insert_child
          (.mk (set_label (n.label.take (matchLen n.label krem))) false false
            [(n.label.getD (matchLen n.label krem) 0,
              .mk (set_label (n.label.drop (matchLen n.label krem + 1)))
                n.word n.wild n.children)])
          b (.mk (set_label rest) true wildcard [])).2]) := by
  rw [insertGo, if_pos h, hd]

theorem insertGo_flags {n : Node} {krem : List Nat}
    (h : ¬ matchLen n.label krem < n.label.length)
    (hd : krem.drop (matchLen n.label krem) = []) (wildcard : Bool) :
    insertGo n krem wildcard =
      (.mk n.label true (n.wild || wildcard) n.children, []) := by
  rw [insertGo, if_neg h]
  split
  · rfl
  · next heq => rw [hd] at heq; simp at heq

theorem insertGo_descend {n : Node} {krem : List Nat} {b : Nat}
    {rest : List Nat} {i : Nat}
    (h : ¬ matchLen n.label krem < n.label.length)
    (hd : krem.drop (matchLen n.label krem) = b :: rest)
    (hcl : child_lookup n b = some i) (wildcard : Bool) :
    insertGo n krem wildcard =
      (.mk n.label n.word n.wild
        (n.children.set i ((n.children.getD i default).1,
          (insertGo (n.children.getD i default).2 rest wildcard).1)),
       i :: (insertGo (n.children.getD i default).2 rest wildcard).2) := by
  rw [insertGo, if_neg h]
  split
  · next heq => rw [hd] at heq; simp at heq
  · next b' rest' heq =>
    rw [hd] at heq
    injection heq with h1 h2
    subst h1
    subst h2
    rw [hcl]

theorem insertGo_extend {n : Node} {krem : List Nat} {b : Nat}
    {rest : List Nat} (h : ¬ matchLen n.label krem < n.label.length)
    (hd : krem.drop (matchLen n.label krem) = b :: rest)
    (hcl : child_lookup n b = none) (wildcard : Bool) :
    insertGo n krem wildcard =
      ((insert_child n b (.mk (set_label rest) true wildcard [])).1,
       [(insert_child n b (.mk (set_label rest) true wildcard [])).2]) := by
  rw [insertGo, if_neg h]
  split
  · next heq => rw [hd] at heq; simp at heq
  · next b' rest' heq =>
    rw [hd] at heq
    injection heq with h1 h2
    subst h1
    subst h2
    rw [hcl]

/- ### Small helpers for the insert/remove analysis -/

theorem set_label_eq {l : List Nat} (h : l.length ≤ 255) : set_label l = l := by
  unfold set_label
  rw [Nat.mod_eq_of_lt (by omega)]
  exact List.take_length l

theorem take_getD_drop {l : List Nat} {j : Nat} (h : j < l.length) :
    l.take j ++ l.getD j 0 :: l.drop (j + 1) = l := by
  conv_rhs => rw [← List.take_append_drop j l]
  rw [List.drop_eq_getElem_cons h, List.getD_eq_getElem l 0 h]

theorem list_decomp {α : Type} [Inhabited α] {cs : List α} {i : Nat}
    (h : i < cs.length) :
    cs = cs.take i ++ cs.getD i default :: cs.drop (i + 1) := by
  conv_lhs => rw [← List.take_append_drop i cs]
  rw [List.drop_eq_getElem_cons h, List.getD_eq_getElem cs default h]

theorem set_decomp {α : Type} {cs : List α} {i : Nat} (h : i < cs.length) (y : α) :
    cs.set i y = cs.take i ++ y :: cs.drop (i + 1) := by
  rw [List.set_eq_take_append_cons_drop, if_pos h]

theorem getD_set_self {α : Type} [Inhabited α] {cs : List α} {i : Nat}
    (h : i < cs.length) (y : α) : (cs.set i y).getD i default = y := by
  rw [List.getD_eq_getElem _ default (by simpa using h)]
  simp

theorem map_fst_getD {cs : List (Nat × Node)} {i : Nat} (h : i < cs.length) :
    (cs.map Prod.fst).getD i 0 = (cs.getD i default).1 := by
  rw [List.getD_eq_getElem _ 0 (by simpa using h), List.getD_eq_getElem _ default h]
  simp

theorem map_fst_set_self {cs : List (Nat × Node)} {i : Nat}
    (h : i < cs.length) (c' : Node) :
    (cs.set i ((cs.getD i default).1, c')).map Prod.fst = cs.map Prod.fst := by
  rw [List.map_set]
  apply List.ext_getElem
  · simp
  · intro n h1 h2
    rw [List.getElem_set]
    split
    · next he =>
      subst he
      simp only [List.getElem_map]
      show (List.getD cs i default).1 = _
      rw [List.getD_eq_getElem cs default h]
    · rfl

theorem matchLen_ne {l k : List Nat}
    (hl : matchLen l k < l.length) (hk : matchLen l k < k.length) :
    l.getD (matchLen l k) 0 ≠ k.getD (matchLen l k) 0 := by
  induction l generalizing k with
  | nil => simp at hl
  | cons a as ih =>
    cases k with
    | nil => simp at hk
    | cons b bs =>
      by_cases hab : a = b
      · subst hab
        rw [matchLen_cons_eq] at hl hk ⊢
        simp only [List.length_cons] at hl hk
        simpa using ih (by omega) (by omega)
      · rw [matchLen_cons_ne hab]
        simpa using hab

theorem child_lookup_eq_none_of {n : Node} {b : Nat}
    (h : ∀ bc ∈ n.children, bc.1 ≠ b) : child_lookup n b = none := by
  cases hcl : child_lookup n b with
  | none => rfl
  | some i =>
    obtain ⟨hi, hib⟩ := child_lookup_some hcl
    exact absurd hib (h _ (getD_mem hi))

theorem pathKey_cons {n : Node} {i : Nat} (h : i < n.children.length)
    (π : List Nat) :
    pathKey n (i :: π) =
      (pathKey (n.children.getD i default).2 π).map
        (fun s => n.label ++ (n.children.getD i default).1 :: s) := by
  rw [pathKey, if_pos h]

theorem nodeAt_cons (n : Node) (i : Nat) (π : List Nat) :
    nodeAt n (i :: π) = nodeAt (n.children.getD i default).2 π := rfl

/-- `wordsAux` only depends on the label through the accumulated key. -/
theorem wordsAux_label (pre l : List Nat) (w wi : Bool) (cs : List (Nat × Node)) :
    wordsAux pre (.mk l w wi cs) = wordsAux (pre ++ l) (.mk [] w wi cs) := by
  rw [wordsAux, wordsAux]
  simp only [Node.label_mk, Node.word_mk, Node.children_mk, List.append_nil]

theorem wildsAux_label (pre l : List Nat) (w wi : Bool) (cs : List (Nat × Node)) :
    wildsAux pre (.mk l w wi cs) = wildsAux (pre ++ l) (.mk [] w wi cs) := by
  rw [wildsAux, wildsAux]
  simp only [Node.label_mk, Node.wild_mk, Node.children_mk, List.append_nil]

/-- Specification of `insert_child` for a fresh discriminator on sorted
children. -/
theorem insert_child_spec {n : Node} {b : Nat} (c : Node)
    (hs : List.Pairwise (· < ·) (n.children.map Prod.fst))
    (hcl : child_lookup n b = none) :
    (insert_child n b c).1.label = n.label ∧
    (insert_child n b c).1.word = n.word ∧
    (insert_child n b c).1.wild = n.wild ∧
    (∀ x, x ∈ (insert_child n b c).1.children ↔ x = (b, c) ∨ x ∈ n.children) ∧
    List.Pairwise (· < ·) ((insert_child n b c).1.children.map Prod.fst) ∧
    (insert_child n b c).2 < (insert_child n b c).1.children.length ∧
    (insert_child n b c).1.children.getD (insert_child n b c).2 default = (b, c) := by
  have hlen : (n.children.map Prod.fst).length = n.children.length := by simp
  have hfci : find_child_idx n b =
      bsearch (n.children.map Prod.fst) b 0 n.children.length := rfl
  obtain ⟨⟨hb1, hb2⟩, hlo, hhi⟩ := bsearch_spec (n.children.map Prod.fst) b hs
    n.children.length 0 n.children.length (by omega) (by omega) (by omega)
  have hidx : find_child_idx n b ≤ n.children.length := by omega
  have hnb : ∀ i, find_child_idx n b ≤ i → i < n.children.length →
      b < (n.children.map Prod.fst).getD i 0 := by
    intro i h1 h2
    have hge := hhi i (by omega) (by omega)
    rcases Nat.lt_or_ge b ((n.children.map Prod.fst).getD i 0) with h | h
    · exact h
    · exfalso
      have heq : (n.children.map Prod.fst).getD i 0 = b := by omega
      have hmem : (n.children.getD i default).1 = b := by
        rw [← map_fst_getD h2]; exact heq
      have hcl2 : child_lookup n ((n.children.getD i default).1) = none := by
        rw [hmem]; exact hcl
      have hne := child_lookup_none hs hcl2 (n.children.getD i default) (getD_mem h2)
      exact hne rfl
  refine ⟨rfl, rfl, rfl, ?_, ?_, ?_, ?_⟩
  · intro x
    show x ∈ n.children.insertIdx (find_child_idx n b) (b, c) ↔ _
    rw [List.mem_insertIdx hidx]
  · show List.Pairwise (· < ·) ((n.children.insertIdx (find_child_idx n b) (b, c)).map Prod.fst)
    rw [map_insertIdx]
    apply pairwise_insertIdx hs (by omega)
    · intro i hi
      exact hlo i (by omega) (by omega)
    · intro i h1 h2
      exact hnb i h1 (by omega)
  · show find_child_idx n b < (n.children.insertIdx (find_child_idx n b) (b, c)).length
    rw [List.length_insertIdx _ _ hidx]
    omega
  · show (n.children.insertIdx (find_child_idx n b) (b, c)).getD (find_child_idx n b) default = (b, c)
    rw [insertIdx_eq_take_cons_drop _ _ hidx]
    rw [List.getD_eq_getElem _ default (by
      simp only [List.length_append, List.length_take, List.length_cons]
      omega)]
    rw [List.getElem_append_right (by simp [Nat.min_eq_left hidx])]
    simp [Nat.min_eq_left hidx]

/- ### Accessor-level (primed) characterizations -/

theorem mem_wordsAux' {x pre : List Nat} {n : Node} :
    x ∈ wordsAux pre n ↔
      (n.word = true ∧ x = pre ++ n.label) ∨
      ∃ bc ∈ n.children, x ∈ wordsAux (pre ++ n.label ++ [bc.1]) bc.2 := by
  cases n
  exact mem_wordsAux

theorem mem_wildsAux' {x pre : List Nat} {n : Node} :
    x ∈ wildsAux pre n ↔
      (n.wild = true ∧ x = pre ++ n.label) ∨
      ∃ bc ∈ n.children, x ∈ wildsAux (pre ++ n.label ++ [bc.1]) bc.2 := by
  cases n
  exact mem_wildsAux

theorem sortedNode_iff' (n : Node) :
    sortedNode n = true ↔
      List.Pairwise (· < ·) (n.children.map Prod.fst) ∧
      ∀ bc ∈ n.children, sortedNode bc.2 = true := by
  cases n
  exact sortedNode_iff _ _ _ _

theorem labels255_iff' (n : Node) :
    labels255 n = true ↔
      n.label.length ≤ 255 ∧ ∀ bc ∈ n.children, labels255 bc.2 = true := by
  cases n
  exact labels255_iff _ _ _ _

theorem strBounded_iff' (base : Nat) (n : Node) :
    strBounded base n = true ↔
      base + n.label.length ≤ 256 ∧
      ∀ bc ∈ n.children, strBounded (base + n.label.length + 1) bc.2 = true := by
  cases n
  exact strBounded_iff _ _ _ _ _

theorem compactNode_iff' (n : Node) :
    compactNode n = true ↔
      (n.children.length ≥ 2 ∨ n.word = true) ∧
      ∀ bc ∈ n.children, compactNode bc.2 = true := by
  cases n
  exact compactNode_iff _ _ _ _

theorem wildWordNode_iff' (n : Node) :
    wildWordNode n = true ↔
      (n.wild = true → n.word = true) ∧
      ∀ bc ∈ n.children, wildWordNode bc.2 = true := by
  cases n
  exact wildWordNode_iff _ _ _ _

theorem nodeCount_eq' (n : Node) :
    nodeCount n = 1 + (n.children.map (fun bc => nodeCount bc.2)).sum := by
  cases n
  exact nodeCount_eq _ _ _ _

theorem wordsAux_label' (pre : List Nat) (n : Node) :
    wordsAux pre n = wordsAux (pre ++ n.label) (.mk [] n.word n.wild n.children) := by
  cases n
  exact wordsAux_label _ _ _ _ _

theorem getD_append_length {A : List Nat} {b : Nat} {B : List Nat} :
    (A ++ b :: B).getD A.length 0 = b := by
  rw [List.getD_eq_getElem _ 0 (by simp)]
  rw [List.getElem_append_right (le_refl _)]
  simp

/- ### Insert effect, by branch -/

theorem insertGo_spec_split_exact {l : List Nat} {wo wi : Bool}
    {cs : List (Nat × Node)} {krem : List Nat} {wildcard : Bool}
    (hs : sortedNode (.mk l wo wi cs) = true)
    (hl255 : labels255 (.mk l wo wi cs) = true)
    (hj : matchLen l krem < l.length)
    (hd : krem.drop (matchLen l krem) = []) :
    sortedNode (insertGo (.mk l wo wi cs) krem wildcard).1 = true ∧
    labels255 (insertGo (.mk l wo wi cs) krem wildcard).1 = true ∧
    (∀ x, x ∈ wordsAux [] (insertGo (.mk l wo wi cs) krem wildcard).1 ↔
      (x ∈ wordsAux [] (.mk l wo wi cs) ∨ x = krem)) ∧
    (∀ x, x ∈ wildsAux [] (insertGo (.mk l wo wi cs) krem wildcard).1 ↔
      (x ∈ wildsAux [] (.mk l wo wi cs) ∨ (wildcard = true ∧ x = krem))) ∧
    pathKey (insertGo (.mk l wo wi cs) krem wildcard).1
      (insertGo (.mk l wo wi cs) krem wildcard).2 = some krem ∧
    (nodeAt (insertGo (.mk l wo wi cs) krem wildcard).1
      (insertGo (.mk l wo wi cs) krem wildcard).2).word = true := by
  obtain ⟨hlab, hlch⟩ := (labels255_iff _ _ _ _).mp hl255
  have hpw : List.Pairwise (· < ·) (cs.map Prod.fst) := by
    have := sortedNode_pairwise hs; simpa using this
  have hsch : ∀ bc ∈ cs, sortedNode bc.2 = true := by
    have := sortedNode_children hs; simpa using this
  have htake : set_label (l.take (matchLen l krem)) = l.take (matchLen l krem) :=
    set_label_eq (by rw [List.length_take]; omega)
  have hdropl : set_label (l.drop (matchLen l krem + 1)) = l.drop (matchLen l krem + 1) :=
    set_label_eq (by rw [List.length_drop]; omega)
  have hktake : krem.take (matchLen l krem) = l.take (matchLen l krem) :=
    (matchLen_take l krem).symm
  have hpre : (l.take (matchLen l krem) ++ [l.getD (matchLen l krem) 0]) ++
      l.drop (matchLen l krem + 1) = [] ++ l := by
    rw [List.append_assoc, List.singleton_append, take_getD_drop hj]
    simp
  have hweq : wordsAux (l.take (matchLen l krem) ++ [l.getD (matchLen l krem) 0])
      (.mk (l.drop (matchLen l krem + 1)) wo wi cs) = wordsAux [] (.mk l wo wi cs) := by
    rw [wordsAux_label (l.take (matchLen l krem) ++ [l.getD (matchLen l krem) 0])
      (l.drop (matchLen l krem + 1)) wo wi cs, hpre]
    rw [wordsAux_label [] l wo wi cs]
  have hwieq : wildsAux (l.take (matchLen l krem) ++ [l.getD (matchLen l krem) 0])
      (.mk (l.drop (matchLen l krem + 1)) wo wi cs) = wildsAux [] (.mk l wo wi cs) := by
    rw [wildsAux_label (l.take (matchLen l krem) ++ [l.getD (matchLen l krem) 0])
      (l.drop (matchLen l krem + 1)) wo wi cs, hpre]
    rw [wildsAux_label [] l wo wi cs]
  have hsShort : sortedNode (.mk (l.drop (matchLen l krem + 1)) wo wi cs) = true :=
    (sortedNode_iff _ _ _ _).mpr ⟨hpw, hsch⟩
  have hlShort : labels255 (.mk (l.drop (matchLen l krem + 1)) wo wi cs) = true :=
    (labels255_iff _ _ _ _).mpr ⟨by rw [List.length_drop]; omega, hlch⟩
  have hkeq : krem = l.take (matchLen l krem) := by
    conv_lhs => rw [← List.take_append_drop (matchLen l krem) krem]
    rw [hd, List.append_nil, hktake]
  rw [insertGo_split_exact (n := .mk l wo wi cs) (by simpa using hj) (by simpa using hd)]
  simp only [Node.label_mk, Node.word_mk, Node.wild_mk, Node.children_mk]
  rw [htake, hdropl]
  refine ⟨?_, ?_, ?_, ?_, ?_, ?_⟩
  · apply (sortedNode_iff _ _ _ _).mpr
    constructor
    · simp
    · intro bc hbc
      simp only [List.mem_singleton] at hbc
      subst hbc
      exact hsShort
  · apply (labels255_iff _ _ _ _).mpr
    constructor
    · rw [List.length_take]; omega
    · intro bc hbc
      simp only [List.mem_singleton] at hbc
      subst hbc
      exact hlShort
  · intro x
    rw [mem_wordsAux]
    constructor
    · rintro (⟨_, rfl⟩ | ⟨bc, hbc, hy⟩)
      · right
        rw [List.nil_append]
        exact hkeq.symm
      · left
        simp only [List.mem_singleton] at hbc
        subst hbc
        simp only [List.nil_append] at hy
        rw [hweq] at hy
        exact hy
    · rintro (hx | rfl)
      · refine Or.inr ⟨_, List.mem_singleton_self _, ?_⟩
        simp only [List.nil_append]
        rw [hweq]
        exact hx
      · exact Or.inl ⟨rfl, by rw [List.nil_append]; exact hkeq⟩
  · intro x
    rw [mem_wildsAux]
    constructor
    · rintro (⟨hwc, rfl⟩ | ⟨bc, hbc, hy⟩)
      · right
        exact ⟨hwc, by rw [List.nil_append]; exact hkeq.symm⟩
      · left
        simp only [List.mem_singleton] at hbc
        subst hbc
        simp only [List.nil_append] at hy
        rw [hwieq] at hy
        exact hy
    · rintro (hx | ⟨hwc, rfl⟩)
      · refine Or.inr ⟨_, List.mem_singleton_self _, ?_⟩
        simp only [List.nil_append]
        rw [hwieq]
        exact hx
      · exact Or.inl ⟨hwc, by rw [List.nil_append]; exact hkeq⟩
  · rw [pathKey, Node.label_mk]
    conv_rhs => rw [hkeq]
  · rw [nodeAt]
    rfl

theorem getD_append_cons_of {A : List Nat} {b : Nat} {B : List Nat} {j : Nat}
    (h : A.length = j) : (A ++ b :: B).getD j 0 = b := by
  subst h
  exact getD_append_length

theorem insertGo_spec_split_extend {l : List Nat} {wo wi : Bool}
    {cs : List (Nat × Node)} {krem : List Nat} {wildcard : Bool}
    {b : Nat} {rest : List Nat}
    (hs : sortedNode (.mk l wo wi cs) = true)
    (hl255 : labels255 (.mk l wo wi cs) = true)
    (hklen : krem.length ≤ 256)
    (hj : matchLen l krem < l.length)
    (hd : krem.drop (matchLen l krem) = b :: rest) :
    sortedNode (insertGo (.mk l wo wi cs) krem wildcard).1 = true ∧
    labels255 (insertGo (.mk l wo wi cs) krem wildcard).1 = true ∧
    (∀ x, x ∈ wordsAux [] (insertGo (.mk l wo wi cs) krem wildcard).1 ↔
      (x ∈ wordsAux [] (.mk l wo wi cs) ∨ x = krem)) ∧
    (∀ x, x ∈ wildsAux [] (insertGo (.mk l wo wi cs) krem wildcard).1 ↔
      (x ∈ wildsAux [] (.mk l wo wi cs) ∨ (wildcard = true ∧ x = krem))) ∧
    pathKey (insertGo (.mk l wo wi cs) krem wildcard).1
      (insertGo (.mk l wo wi cs) krem wildcard).2 = some krem ∧
    (nodeAt (insertGo (.mk l wo wi cs) krem wildcard).1
      (insertGo (.mk l wo wi cs) krem wildcard).2).word = true := by
  rw [insertGo_split_extend (n := .mk l wo wi cs) (by simpa using hj) (by simpa using hd)]
  simp only [Node.label_mk, Node.word_mk, Node.wild_mk, Node.children_mk]
  obtain ⟨j, hjeq⟩ : ∃ j, matchLen l krem = j := ⟨_, rfl⟩
  rw [hjeq] at hj hd ⊢
  obtain ⟨hlab, hlch⟩ := (labels255_iff _ _ _ _).mp hl255
  have hpw : List.Pairwise (· < ·) (cs.map Prod.fst) := by
    have := sortedNode_pairwise hs; simpa using this
  have hsch : ∀ bc ∈ cs, sortedNode bc.2 = true := by
    have := sortedNode_children hs; simpa using this
  have hjk : j < krem.length := by
    have h1 : (krem.drop j).length = krem.length - j := List.length_drop _ _
    rw [hd] at h1
    simp only [List.length_cons] at h1
    omega
  have htake : set_label (l.take j) = l.take j :=
    set_label_eq (by rw [List.length_take]; omega)
  have hdropl : set_label (l.drop (j + 1)) = l.drop (j + 1) :=
    set_label_eq (by rw [List.length_drop]; omega)
  have hrestlen : rest.length ≤ 255 := by
    have h1 : (krem.drop j).length = krem.length - j := List.length_drop _ _
    rw [hd] at h1
    simp only [List.length_cons] at h1
    omega
  have hrest : set_label rest = rest := set_label_eq hrestlen
  have hktake : krem.take j = l.take j := by
    rw [← hjeq]
    exact (matchLen_take l krem).symm
  have htklen : (l.take j).length = j := by
    rw [List.length_take]; omega
  have hkbr : krem = l.take j ++ b :: rest := by
    conv_lhs => rw [← List.take_append_drop j krem]
    rw [hd, hktake]
  have hbne : l.getD j 0 ≠ b := by
    have h1 := matchLen_ne (l := l) (k := krem) (by rw [hjeq]; omega) (by rw [hjeq]; omega)
    rw [hjeq] at h1
    have h2 : krem.getD j 0 = b := by
      rw [hkbr]
      exact getD_append_cons_of htklen
    rw [h2] at h1
    exact h1
  have hpre : (l.take j ++ [l.getD j 0]) ++ l.drop (j + 1) = [] ++ l := by
    rw [List.append_assoc, List.singleton_append, take_getD_drop hj]
    simp
  have hweq : wordsAux (l.take j ++ [l.getD j 0])
      (.mk (l.drop (j + 1)) wo wi cs) = wordsAux [] (.mk l wo wi cs) := by
    rw [wordsAux_label (l.take j ++ [l.getD j 0]) (l.drop (j + 1)) wo wi cs, hpre]
    rw [wordsAux_label [] l wo wi cs]
  have hwieq : wildsAux (l.take j ++ [l.getD j 0])
      (.mk (l.drop (j + 1)) wo wi cs) = wildsAux [] (.mk l wo wi cs) := by
    rw [wildsAux_label (l.take j ++ [l.getD j 0]) (l.drop (j + 1)) wo wi cs, hpre]
    rw [wildsAux_label [] l wo wi cs]
  have hsShort : sortedNode (.mk (l.drop (j + 1)) wo wi cs) = true :=
    (sortedNode_iff _ _ _ _).mpr ⟨hpw, hsch⟩
  have hlShort : labels255 (.mk (l.drop (j + 1)) wo wi cs) = true :=
    (labels255_iff _ _ _ _).mpr ⟨by rw [List.length_drop]; omega, hlch⟩
  have hsS : List.Pairwise (· < ·)
      (((Node.mk (l.take j) false false
        [(l.getD j 0, Node.mk (l.drop (j + 1)) wo wi cs)]) : Node).children.map Prod.fst) := by
    simp
  have hclS : child_lookup
      (.mk (l.take j) false false
        [(l.getD j 0, .mk (l.drop (j + 1)) wo wi cs)]) b = none := by
    apply child_lookup_eq_none_of
    intro bc hbc
    simp only [Node.children_mk, List.mem_singleton] at hbc
    subst hbc
    exact hbne
  rw [htake, hdropl, hrest]
  obtain ⟨hRl, hRw, hRwi, hRmem, hRpair, hRlen, hRgd⟩ :=
    insert_child_spec (.mk rest true wildcard []) hsS hclS
  simp only [Node.label_mk, Node.word_mk, Node.wild_mk, Node.children_mk]
    at hRl hRw hRwi hRmem hRpair hRlen hRgd
  refine ⟨?_, ?_, ?_, ?_, ?_, ?_⟩
  · apply (sortedNode_iff' _).mpr
    refine ⟨hRpair, ?_⟩
    intro bc hbc
    rcases (hRmem bc).mp hbc with rfl | hbc2
    · exact (sortedNode_iff' _).mpr ⟨by simp, by simp⟩
    · simp only [List.mem_singleton] at hbc2
      subst hbc2
      exact hsShort
  · apply (labels255_iff' _).mpr
    constructor
    · rw [hRl, List.length_take]
      omega
    · intro bc hbc
      rcases (hRmem bc).mp hbc with rfl | hbc2
      · exact (labels255_iff' _).mpr ⟨by simpa using hrestlen, by simp⟩
      · simp only [List.mem_singleton] at hbc2
        subst hbc2
        exact hlShort
  · intro x
    rw [mem_wordsAux']
    rw [hRw, hRl]
    simp only [Node.word_mk, Node.label_mk, List.nil_append]
    constructor
    · rintro (⟨hfalse, _⟩ | ⟨bc, hbc, hy⟩)
      · cases hfalse
      · rcases (hRmem bc).mp hbc with rfl | hbc2
        · simp only [Node.label_mk] at hy
          rw [mem_wordsAux] at hy
          rcases hy with ⟨_, rfl⟩ | ⟨bc2, hbc2, _⟩
          · right
            rw [hkbr]
            simp
          · simp at hbc2
        · simp only [List.mem_singleton] at hbc2
          subst hbc2
          simp only [Node.label_mk] at hy
          rw [hweq] at hy
          exact Or.inl hy
    · rintro (hx | rfl)
      · refine Or.inr ⟨(l.getD j 0, .mk (l.drop (j + 1)) wo wi cs), ?_, ?_⟩
        · exact (hRmem _).mpr (Or.inr (List.mem_singleton_self _))
        · simp only [Node.label_mk]
          rw [hweq]
          exact hx
      · refine Or.inr ⟨(b, .mk rest true wildcard []), ?_, ?_⟩
        · exact (hRmem _).mpr (Or.inl rfl)
        · simp only [Node.label_mk]
          rw [mem_wordsAux]
          left
          refine ⟨rfl, ?_⟩
          conv_lhs => rw [hkbr]
          simp
  · intro x
    rw [mem_wildsAux']
    rw [hRwi, hRl]
    simp only [Node.wild_mk, Node.label_mk, List.nil_append]
    constructor
    · rintro (⟨hfalse, _⟩ | ⟨bc, hbc, hy⟩)
      · cases hfalse
      · rcases (hRmem bc).mp hbc with rfl | hbc2
        · simp only [Node.label_mk] at hy
          rw [mem_wildsAux] at hy
          rcases hy with ⟨hwc, rfl⟩ | ⟨bc2, hbc2, _⟩
          · right
            refine ⟨hwc, ?_⟩
            rw [hkbr]
            simp
          · simp at hbc2
        · simp only [List.mem_singleton] at hbc2
          subst hbc2
          simp only [Node.label_mk] at hy
          rw [hwieq] at hy
          exact Or.inl hy
    · rintro (hx | ⟨hwc, rfl⟩)
      · refine Or.inr ⟨(l.getD j 0, .mk (l.drop (j + 1)) wo wi cs), ?_, ?_⟩
        · exact (hRmem _).mpr (Or.inr (List.mem_singleton_self _))
        · simp only [Node.label_mk]
          rw [hwieq]
          exact hx
      · refine Or.inr ⟨(b, .mk rest true wildcard []), ?_, ?_⟩
        · exact (hRmem _).mpr (Or.inl rfl)
        · simp only [Node.label_mk]
          rw [mem_wildsAux]
          left
          refine ⟨hwc, ?_⟩
          conv_lhs => rw [hkbr]
          simp
  · rw [pathKey_cons hRlen, hRgd]
    rw [pathKey]
    simp only [Node.label_mk, Option.map_some]
    rw [hRl, hkbr]
    simp
  · rw [nodeAt_cons, hRgd]
    rw [nodeAt]
    rfl

theorem insertGo_spec_flags {l : List Nat} {wo wi : Bool}
    {cs : List (Nat × Node)} {krem : List Nat} {wildcard : Bool}
    (hs : sortedNode (.mk l wo wi cs) = true)
    (hl255 : labels255 (.mk l wo wi cs) = true)
    (hj : ¬ matchLen l krem < l.length)
    (hd : krem.drop (matchLen l krem) = []) :
    sortedNode (insertGo (.mk l wo wi cs) krem wildcard).1 = true ∧
    labels255 (insertGo (.mk l wo wi cs) krem wildcard).1 = true ∧
    (∀ x, x ∈ wordsAux [] (insertGo (.mk l wo wi cs) krem wildcard).1 ↔
      (x ∈ wordsAux [] (.mk l wo wi cs) ∨ x = krem)) ∧
    (∀ x, x ∈ wildsAux [] (insertGo (.mk l wo wi cs) krem wildcard).1 ↔
      (x ∈ wildsAux [] (.mk l wo wi cs) ∨ (wildcard = true ∧ x = krem))) ∧
    pathKey (insertGo (.mk l wo wi cs) krem wildcard).1
      (insertGo (.mk l wo wi cs) krem wildcard).2 = some krem ∧
    (nodeAt (insertGo (.mk l wo wi cs) krem wildcard).1
      (insertGo (.mk l wo wi cs) krem wildcard).2).word = true := by
  have hml : matchLen l krem = l.length := by
    have := matchLen_le_left l krem; omega
  have hkeq : krem = l := by
    have h1 := @krem_eq_of_matchLen l krem (by simpa using hj)
    rw [← hml, hd, List.append_nil] at h1
    exact h1
  rw [insertGo_flags (n := .mk l wo wi cs) (by simpa using hj) (by simpa using hd)]
  simp only [Node.label_mk, Node.word_mk, Node.wild_mk, Node.children_mk]
  refine ⟨?_, ?_, ?_, ?_, ?_, ?_⟩
  · obtain ⟨h1, h2⟩ := (sortedNode_iff _ _ _ _).mp hs
    exact (sortedNode_iff _ _ _ _).mpr ⟨h1, h2⟩
  · obtain ⟨h1, h2⟩ := (labels255_iff _ _ _ _).mp hl255
    exact (labels255_iff _ _ _ _).mpr ⟨h1, h2⟩
  · intro x
    rw [mem_wordsAux, mem_wordsAux]
    constructor
    · rintro (⟨_, rfl⟩ | hch)
      · right; simpa using hkeq.symm
      · exact Or.inl (Or.inr hch)
    · rintro ((⟨_, hx⟩ | hch) | rfl)
      · exact Or.inl ⟨rfl, hx⟩
      · exact Or.inr hch
      · exact Or.inl ⟨rfl, by simpa using hkeq⟩
  · intro x
    rw [mem_wildsAux, mem_wildsAux]
    constructor
    · rintro (⟨hwj, rfl⟩ | hch)
      · rcases Bool.or_eq_true_iff.mp hwj with hwj | hwj
        · exact Or.inl (Or.inl ⟨hwj, rfl⟩)
        · right; exact ⟨hwj, by simpa using hkeq.symm⟩
      · exact Or.inl (Or.inr hch)
    · rintro ((⟨hwj, hx⟩ | hch) | ⟨hwc, rfl⟩)
      · exact Or.inl ⟨by rw [hwj]; simp, hx⟩
      · exact Or.inr hch
      · exact Or.inl ⟨by rw [hwc]; simp, by simpa using hkeq⟩
  · rw [pathKey, Node.label_mk]
    rw [hkeq]
  · rw [nodeAt]
    rfl

theorem insertGo_spec_extend {l : List Nat} {wo wi : Bool}
    {cs : List (Nat × Node)} {krem : List Nat} {wildcard : Bool}
    {b : Nat} {rest : List Nat}
    (hs : sortedNode (.mk l wo wi cs) = true)
    (hl255 : labels255 (.mk l wo wi cs) = true)
    (hklen : krem.length ≤ 256)
    (hj : ¬ matchLen l krem < l.length)
    (hd : krem.drop (matchLen l krem) = b :: rest)
    (hcl : child_lookup (.mk l wo wi cs) b = none) :
    sortedNode (insertGo (.mk l wo wi cs) krem wildcard).1 = true ∧
    labels255 (insertGo (.mk l wo wi cs) krem wildcard).1 = true ∧
    (∀ x, x ∈ wordsAux [] (insertGo (.mk l wo wi cs) krem wildcard).1 ↔
      (x ∈ wordsAux [] (.mk l wo wi cs) ∨ x = krem)) ∧
    (∀ x, x ∈ wildsAux [] (insertGo (.mk l wo wi cs) krem wildcard).1 ↔
      (x ∈ wildsAux [] (.mk l wo wi cs) ∨ (wildcard = true ∧ x = krem))) ∧
    pathKey (insertGo (.mk l wo wi cs) krem wildcard).1
      (insertGo (.mk l wo wi cs) krem wildcard).2 = some krem ∧
    (nodeAt (insertGo (.mk l wo wi cs) krem wildcard).1
      (insertGo (.mk l wo wi cs) krem wildcard).2).word = true := by
  have hml : matchLen l krem = l.length := by
    have := matchLen_le_left l krem; omega
  have hkbr : krem = l ++ b :: rest := by
    have h1 := @krem_eq_of_matchLen l krem (by simpa using hj)
    rw [← hml, hd] at h1
    exact h1
  have hrestlen : rest.length ≤ 255 := by
    have h2 := congrArg List.length hkbr
    simp only [List.length_append, List.length_cons] at h2
    omega
  have hrest : set_label rest = rest := set_label_eq hrestlen
  have hpw : List.Pairwise (· < ·) (cs.map Prod.fst) := by
    have := sortedNode_pairwise hs; simpa using this
  have hsch : ∀ bc ∈ cs, sortedNode bc.2 = true := by
    have := sortedNode_children hs; simpa using this
  obtain ⟨hlab, hlch⟩ := (labels255_iff _ _ _ _).mp hl255
  rw [insertGo_extend (n := .mk l wo wi cs) (by simpa using hj) (by simpa using hd) hcl]
  simp only [Node.label_mk, Node.word_mk, Node.wild_mk, Node.children_mk]
  rw [hrest]
  obtain ⟨hRl, hRw, hRwi, hRmem, hRpair, hRlen, hRgd⟩ :=
    insert_child_spec (n := .mk l wo wi cs) (.mk rest true wildcard []) (by simpa using hpw) hcl
  simp only [Node.label_mk, Node.word_mk, Node.wild_mk, Node.children_mk]
    at hRl hRw hRwi hRmem hRpair hRlen hRgd
  refine ⟨?_, ?_, ?_, ?_, ?_, ?_⟩
  · apply (sortedNode_iff' _).mpr
    refine ⟨hRpair, ?_⟩
    intro bc hbc
    rcases (hRmem bc).mp hbc with rfl | hbc2
    · exact (sortedNode_iff' _).mpr ⟨by simp, by simp⟩
    · exact hsch bc hbc2
  · apply (labels255_iff' _).mpr
    constructor
    · rw [hRl]; exact hlab
    · intro bc hbc
      rcases (hRmem bc).mp hbc with rfl | hbc2
      · exact (labels255_iff' _).mpr ⟨by simpa using hrestlen, by simp⟩
      · exact hlch bc hbc2
  · intro x
    rw [mem_wordsAux']
    rw [hRw, hRl]
    simp only [List.nil_append]
    constructor
    · rintro (⟨hwo, rfl⟩ | ⟨bc, hbc, hy⟩)
      · exact Or.inl (mem_wordsAux.mpr (Or.inl ⟨hwo, by simp⟩))
      · rcases (hRmem bc).mp hbc with rfl | hbc2
        · simp only [Node.label_mk] at hy
          rw [mem_wordsAux] at hy
          rcases hy with ⟨_, rfl⟩ | ⟨bc2, hbc2, _⟩
          · right
            rw [hkbr]
            simp
          · simp at hbc2
        · exact Or.inl (mem_wordsAux.mpr (Or.inr ⟨bc, hbc2, by simpa using hy⟩))
    · rintro (hx | rfl)
      · rcases mem_wordsAux.mp hx with ⟨hwo, rfl⟩ | ⟨bc, hbc, hy⟩
        · exact Or.inl ⟨hwo, by simp⟩
        · exact Or.inr ⟨bc, (hRmem bc).mpr (Or.inr hbc), by simpa using hy⟩
      · refine Or.inr ⟨(b, .mk rest true wildcard []), (hRmem _).mpr (Or.inl rfl), ?_⟩
        simp only [Node.label_mk]
        rw [mem_wordsAux]
        left
        refine ⟨rfl, ?_⟩
        conv_lhs => rw [hkbr]
        simp
  · intro x
    rw [mem_wildsAux']
    rw [hRwi, hRl]
    simp only [List.nil_append]
    constructor
    · rintro (⟨hwj, rfl⟩ | ⟨bc, hbc, hy⟩)
      · exact Or.inl (mem_wildsAux.mpr (Or.inl ⟨hwj, by simp⟩))
      · rcases (hRmem bc).mp hbc with rfl | hbc2
        · simp only [Node.label_mk] at hy
          rw [mem_wildsAux] at hy
          rcases hy with ⟨hwc, rfl⟩ | ⟨bc2, hbc2, _⟩
          · right
            refine ⟨hwc, ?_⟩
            rw [hkbr]
            simp
          · simp at hbc2
        · exact Or.inl (mem_wildsAux.mpr (Or.inr ⟨bc, hbc2, by simpa using hy⟩))
    · rintro (hx | ⟨hwc, rfl⟩)
      · rcases mem_wildsAux.mp hx with ⟨hwj, rfl⟩ | ⟨bc, hbc, hy⟩
        · exact Or.inl ⟨hwj, by simp⟩
        · exact Or.inr ⟨bc, (hRmem bc).mpr (Or.inr hbc), by simpa using hy⟩
      · refine Or.inr ⟨(b, .mk rest true wildcard []), (hRmem _).mpr (Or.inl rfl), ?_⟩
        simp only [Node.label_mk]
        rw [mem_wildsAux]
        left
        refine ⟨hwc, ?_⟩
        conv_lhs => rw [hkbr]
        simp
  · rw [pathKey_cons hRlen, hRgd]
    rw [pathKey]
    simp only [Node.label_mk, Option.map_some]
    rw [hRl, hkbr]
    simp
  · rw [nodeAt_cons, hRgd]
    rw [nodeAt]
    rfl

theorem insertGo_spec_descend {l : List Nat} {wo wi : Bool}
    {cs : List (Nat × Node)} {krem : List Nat} {wildcard : Bool}
    {b : Nat} {rest : List Nat} {i : Nat}
    (hs : sortedNode (.mk l wo wi cs) = true)
    (hl255 : labels255 (.mk l wo wi cs) = true)
    (hj : ¬ matchLen l krem < l.length)
    (hd : krem.drop (matchLen l krem) = b :: rest)
    (hcl : child_lookup (.mk l wo wi cs) b = some i)
    (ihS : sortedNode (insertGo (cs.getD i default).2 rest wildcard).1 = true)
    (ihL : labels255 (insertGo (cs.getD i default).2 rest wildcard).1 = true)
    (ihW : ∀ x, x ∈ wordsAux [] (insertGo (cs.getD i default).2 rest wildcard).1 ↔
      (x ∈ wordsAux [] (cs.getD i default).2 ∨ x = rest))
    (ihWi : ∀ x, x ∈ wildsAux [] (insertGo (cs.getD i default).2 rest wildcard).1 ↔
      (x ∈ wildsAux [] (cs.getD i default).2 ∨ (wildcard = true ∧ x = rest)))
    (ihP : pathKey (insertGo (cs.getD i default).2 rest wildcard).1
      (insertGo (cs.getD i default).2 rest wildcard).2 = some rest)
    (ihN : (nodeAt (insertGo (cs.getD i default).2 rest wildcard).1
      (insertGo (cs.getD i default).2 rest wildcard).2).word = true) :
    sortedNode (insertGo (.mk l wo wi cs) krem wildcard).1 = true ∧
    labels255 (insertGo (.mk l wo wi cs) krem wildcard).1 = true ∧
    (∀ x, x ∈ wordsAux [] (insertGo (.mk l wo wi cs) krem wildcard).1 ↔
      (x ∈ wordsAux [] (.mk l wo wi cs) ∨ x = krem)) ∧
    (∀ x, x ∈ wildsAux [] (insertGo (.mk l wo wi cs) krem wildcard).1 ↔
      (x ∈ wildsAux [] (.mk l wo wi cs) ∨ (wildcard = true ∧ x = krem))) ∧
    pathKey (insertGo (.mk l wo wi cs) krem wildcard).1
      (insertGo (.mk l wo wi cs) krem wildcard).2 = some krem ∧
    (nodeAt (insertGo (.mk l wo wi cs) krem wildcard).1
      (insertGo (.mk l wo wi cs) krem wildcard).2).word = true := by
  have hml : matchLen l krem = l.length := by
    have := matchLen_le_left l krem; omega
  have hkbr : krem = l ++ b :: rest := by
    have h1 := @krem_eq_of_matchLen l krem (by simpa using hj)
    rw [← hml, hd] at h1
    exact h1
  obtain ⟨hi, hib⟩ := child_lookup_some hcl
  simp only [Node.children_mk] at hi hib
  have hpw : List.Pairwise (· < ·) (cs.map Prod.fst) := by
    have := sortedNode_pairwise hs; simpa using this
  have hsch : ∀ bc ∈ cs, sortedNode bc.2 = true := by
    have := sortedNode_children hs; simpa using this
  obtain ⟨hlab, hlch⟩ := (labels255_iff _ _ _ _).mp hl255
  rw [insertGo_descend (n := .mk l wo wi cs) (by simpa using hj) (by simpa using hd) hcl]
  simp only [Node.label_mk, Node.word_mk, Node.wild_mk, Node.children_mk]
  have hset : cs.set i ((cs.getD i default).1, (insertGo (cs.getD i default).2 rest wildcard).1) =
      cs.take i ++ ((cs.getD i default).1, (insertGo (cs.getD i default).2 rest wildcard).1) ::
        cs.drop (i + 1) := set_decomp hi _
  have horig : cs = cs.take i ++ cs.getD i default :: cs.drop (i + 1) := list_decomp hi
  have hmemset : ∀ bc, bc ∈ cs.set i ((cs.getD i default).1,
      (insertGo (cs.getD i default).2 rest wildcard).1) ↔
      (bc ∈ cs.take i ∨ bc = ((cs.getD i default).1,
        (insertGo (cs.getD i default).2 rest wildcard).1) ∨ bc ∈ cs.drop (i + 1)) := by
    intro bc
    rw [hset]
    simp [or_assoc]
  have hmemcs : ∀ bc, bc ∈ cs ↔
      (bc ∈ cs.take i ∨ bc = cs.getD i default ∨ bc ∈ cs.drop (i + 1)) := by
    intro bc
    conv_lhs => rw [horig]
    simp [or_assoc]
  have hsubmem : ∀ bc, bc ∈ cs.take i ∨ bc ∈ cs.drop (i + 1) → bc ∈ cs := by
    intro bc hbc
    rcases hbc with hbc | hbc
    · exact List.mem_of_mem_take hbc
    · exact List.mem_of_mem_drop hbc
  -- the child's key-set change, lifted through the shared path accumulator
  have hW2 : ∀ x, x ∈ wordsAux (l ++ [b]) (insertGo (cs.getD i default).2 rest wildcard).1 ↔
      (x ∈ wordsAux (l ++ [b]) (cs.getD i default).2 ∨ x = krem) := by
    intro x
    rw [wordsAux_shift (insertGo (cs.getD i default).2 rest wildcard).1 (l ++ [b]),
      wordsAux_shift (cs.getD i default).2 (l ++ [b])]
    simp only [List.mem_map]
    constructor
    · rintro ⟨s, hsm, rfl⟩
      rcases (ihW s).mp hsm with hsm2 | rfl
      · exact Or.inl ⟨s, hsm2, rfl⟩
      · right
        rw [hkbr]
        simp
    · rintro (⟨s, hsm, rfl⟩ | rfl)
      · exact ⟨s, (ihW s).mpr (Or.inl hsm), rfl⟩
      · refine ⟨rest, (ihW rest).mpr (Or.inr rfl), ?_⟩
        rw [hkbr]
        simp
  have hWi2 : ∀ x, x ∈ wildsAux (l ++ [b]) (insertGo (cs.getD i default).2 rest wildcard).1 ↔
      (x ∈ wildsAux (l ++ [b]) (cs.getD i default).2 ∨ (wildcard = true ∧ x = krem)) := by
    intro x
    rw [wildsAux_shift (insertGo (cs.getD i default).2 rest wildcard).1 (l ++ [b]),
      wildsAux_shift (cs.getD i default).2 (l ++ [b])]
    simp only [List.mem_map]
    constructor
    · rintro ⟨s, hsm, rfl⟩
      rcases (ihWi s).mp hsm with hsm2 | ⟨hwc, rfl⟩
      · exact Or.inl ⟨s, hsm2, rfl⟩
      · right
        refine ⟨hwc, ?_⟩
        rw [hkbr]
        simp
    · rintro (⟨s, hsm, rfl⟩ | ⟨hwc, rfl⟩)
      · exact ⟨s, (ihWi s).mpr (Or.inl hsm), rfl⟩
      · refine ⟨rest, (ihWi rest).mpr (Or.inr ⟨hwc, rfl⟩), ?_⟩
        rw [hkbr]
        simp
  refine ⟨?_, ?_, ?_, ?_, ?_, ?_⟩
  · apply (sortedNode_iff' _).mpr
    constructor
    · simp only [Node.children_mk]
      rw [map_fst_set_self hi]
      exact hpw
    · simp only [Node.children_mk]
      intro bc hbc
      rcases (hmemset bc).mp hbc with hbc2 | rfl | hbc2
      · exact hsch bc (hsubmem bc (Or.inl hbc2))
      · exact ihS
      · exact hsch bc (hsubmem bc (Or.inr hbc2))
  · apply (labels255_iff' _).mpr
    constructor
    · simpa using hlab
    · simp only [Node.children_mk]
      intro bc hbc
      rcases (hmemset bc).mp hbc with hbc2 | rfl | hbc2
      · exact hlch bc (hsubmem bc (Or.inl hbc2))
      · exact ihL
      · exact hlch bc (hsubmem bc (Or.inr hbc2))
  · intro x
    rw [mem_wordsAux, mem_wordsAux]
    constructor
    · rintro (hself | ⟨bc, hbc, hy⟩)
      · exact Or.inl (Or.inl hself)
      · rcases (hmemset bc).mp hbc with hbc2 | rfl | hbc2
        · exact Or.inl (Or.inr ⟨bc, hsubmem bc (Or.inl hbc2), hy⟩)
        · simp only [List.nil_append] at hy
          rw [hib] at hy
          rcases (hW2 x).mp hy with hy2 | rfl
          · refine Or.inl (Or.inr ⟨cs.getD i default, getD_mem hi, ?_⟩)
            simp only [List.nil_append]
            rw [hib]
            exact hy2
          · exact Or.inr rfl
        · exact Or.inl (Or.inr ⟨bc, hsubmem bc (Or.inr hbc2), hy⟩)
    · rintro ((hself | ⟨bc, hbc, hy⟩) | rfl)
      · exact Or.inl hself
      · rcases (hmemcs bc).mp hbc with hbc2 | rfl | hbc2
        · exact Or.inr ⟨bc, (hmemset bc).mpr (Or.inl hbc2), hy⟩
        · refine Or.inr ⟨_, (hmemset _).mpr (Or.inr (Or.inl rfl)), ?_⟩
          simp only [List.nil_append] at hy ⊢
          rw [hib] at hy ⊢
          exact (hW2 x).mpr (Or.inl hy)
        · exact Or.inr ⟨bc, (hmemset bc).mpr (Or.inr (Or.inr hbc2)), hy⟩
      · refine Or.inr ⟨_, (hmemset _).mpr (Or.inr (Or.inl rfl)), ?_⟩
        simp only [List.nil_append]
        rw [hib]
        exact (hW2 _).mpr (Or.inr rfl)
  · intro x
    rw [mem_wildsAux, mem_wildsAux]
    constructor
    · rintro (hself | ⟨bc, hbc, hy⟩)
      · exact Or.inl (Or.inl hself)
      · rcases (hmemset bc).mp hbc with hbc2 | rfl | hbc2
        · exact Or.inl (Or.inr ⟨bc, hsubmem bc (Or.inl hbc2), hy⟩)
        · simp only [List.nil_append] at hy
          rw [hib] at hy
          rcases (hWi2 x).mp hy with hy2 | ⟨hwc, rfl⟩
          · refine Or.inl (Or.inr ⟨cs.getD i default, getD_mem hi, ?_⟩)
            simp only [List.nil_append]
            rw [hib]
            exact hy2
          · exact Or.inr ⟨hwc, rfl⟩
        · exact Or.inl (Or.inr ⟨bc, hsubmem bc (Or.inr hbc2), hy⟩)
    · rintro ((hself | ⟨bc, hbc, hy⟩) | ⟨hwc, rfl⟩)
      · exact Or.inl hself
      · rcases (hmemcs bc).mp hbc with hbc2 | rfl | hbc2
        · exact Or.inr ⟨bc, (hmemset bc).mpr (Or.inl hbc2), hy⟩
        · refine Or.inr ⟨_, (hmemset _).mpr (Or.inr (Or.inl rfl)), ?_⟩
          simp only [List.nil_append] at hy ⊢
          rw [hib] at hy ⊢
          exact (hWi2 x).mpr (Or.inl hy)
        · exact Or.inr ⟨bc, (hmemset bc).mpr (Or.inr (Or.inr hbc2)), hy⟩
      · refine Or.inr ⟨_, (hmemset _).mpr (Or.inr (Or.inl rfl)), ?_⟩
        simp only [List.nil_append]
        rw [hib]
        exact (hWi2 _).mpr (Or.inr ⟨hwc, rfl⟩)
  · have hilen : i < (cs.set i ((cs.getD i default).1,
        (insertGo (cs.getD i default).2 rest wildcard).1)).length := by
      rw [List.length_set]; exact hi
    rw [pathKey_cons (by simpa using hilen)]
    simp only [Node.children_mk, Node.label_mk]
    rw [getD_set_self hi, ihP]
    rw [hib, hkbr]
    simp
  · rw [nodeAt_cons]
    simp only [Node.children_mk]
    rw [getD_set_self hi]
    exact ihN

theorem insertGo_spec : ∀ (n : Node), sortedNode n = true → labels255 n = true →
    ∀ (krem : List Nat) (wildcard : Bool), krem.length ≤ 256 →
    sortedNode (insertGo n krem wildcard).1 = true ∧
    labels255 (insertGo n krem wildcard).1 = true ∧
    (∀ x, x ∈ wordsAux [] (insertGo n krem wildcard).1 ↔
      (x ∈ wordsAux [] n ∨ x = krem)) ∧
    (∀ x, x ∈ wildsAux [] (insertGo n krem wildcard).1 ↔
      (x ∈ wildsAux [] n ∨ (wildcard = true ∧ x = krem))) ∧
    pathKey (insertGo n krem wildcard).1 (insertGo n krem wildcard).2 = some krem ∧
    (nodeAt (insertGo n krem wildcard).1 (insertGo n krem wildcard).2).word = true := by
  intro n
  induction n using Node.indMem with
  | h l wo wi cs ih =>
    intro hs hl255 krem wildcard hklen
    by_cases hj : matchLen l krem < l.length
    · cases hd : krem.drop (matchLen l krem) with
      | nil => exact insertGo_spec_split_exact hs hl255 hj hd
      | cons b rest => exact insertGo_spec_split_extend hs hl255 hklen hj hd
    · cases hd : krem.drop (matchLen l krem) with
      | nil => exact insertGo_spec_flags hs hl255 hj hd
      | cons b rest =>
        cases hcl : child_lookup (.mk l wo wi cs) b with
        | none => exact insertGo_spec_extend hs hl255 hklen hj hd hcl
        | some i =>
          obtain ⟨hi, hib⟩ := child_lookup_some hcl
          simp only [Node.children_mk] at hi hib
          have hmem : cs.getD i default ∈ cs := getD_mem hi
          have hcs : sortedNode (cs.getD i default).2 = true :=
            sortedNode_children hs _ (by simpa using hmem)
          have hcl255 : labels255 (cs.getD i default).2 = true :=
            ((labels255_iff _ _ _ _).mp hl255).2 _ hmem
          have hrlen : rest.length ≤ 256 := by
            have h1 : (krem.drop (matchLen l krem)).length =
                krem.length - matchLen l krem := List.length_drop _ _
            rw [hd] at h1
            simp only [List.length_cons] at h1
            omega
          obtain ⟨ihS, ihL, ihW, ihWi, ihP, ihN⟩ :=
            ih (cs.getD i default) hmem hcs hcl255 rest wildcard hrlen
          exact insertGo_spec_descend hs hl255 hj hd hcl ihS ihL ihW ihWi ihP ihN

/- ### Path-accumulator lemmas for find3 -/

theorem find3Go_shift : ∀ (n : Node) (krem p0 p : List Nat) (w : Option (List Nat)),
    find3Go n krem (p0 ++ p) (w.map (fun q => p0 ++ q)) =
      (find3Go n krem p w).map (fun q => p0 ++ q) := by
  intro n
  induction n using Node.indMem with
  | h l wo wi cs ih =>
    intro krem p0 p w
    by_cases hj : matchLen (Node.mk l wo wi cs).label krem <
        (Node.mk l wo wi cs).label.length
    · rw [find3Go_mismatch hj, find3Go_mismatch hj]
    · cases hd : krem.drop (matchLen (Node.mk l wo wi cs).label krem) with
      | nil =>
        rw [find3Go_exact hj hd, find3Go_exact hj hd]
        by_cases hw : (Node.mk l wo wi cs).word = true
        · simp [hw]
        · simp [hw]
      | cons b rest =>
        cases hcl : child_lookup (Node.mk l wo wi cs) b with
        | none =>
          rw [find3Go_step_none hj hd hcl, find3Go_step_none hj hd hcl]
          by_cases hw : (Node.mk l wo wi cs).wild = true
          · simp [hw]
          · simp [hw]
        | some i =>
          rw [find3Go_step_some hj hd hcl, find3Go_step_some hj hd hcl]
          obtain ⟨hi, _⟩ := child_lookup_some hcl
          simp only [Node.children_mk] at hi
          have hmem : cs.getD i default ∈ cs := getD_mem hi
          have hacc : (if (Node.mk l wo wi cs).wild = true then some (p0 ++ p) else
              w.map (fun q => p0 ++ q)) =
              (if (Node.mk l wo wi cs).wild = true then some p else w).map
                (fun q => p0 ++ q) := by
            by_cases hw : (Node.mk l wo wi cs).wild = true
            · simp [hw]
            · simp [hw]
          rw [hacc, List.append_assoc p0 p [i]]
          exact ih (cs.getD i default) hmem rest p0 (p ++ [i]) _

theorem find3Go_acc : ∀ (n : Node) (krem p : List Nat) (π : List Nat),
    find3Go n krem p none = some π →
    ∀ (w : Option (List Nat)), find3Go n krem p w = some π := by
  intro n
  induction n using Node.indMem with
  | h l wo wi cs ih =>
    intro krem p π hnone w
    by_cases hj : matchLen (Node.mk l wo wi cs).label krem <
        (Node.mk l wo wi cs).label.length
    · rw [find3Go_mismatch hj] at hnone
      cases hnone
    · cases hd : krem.drop (matchLen (Node.mk l wo wi cs).label krem) with
      | nil =>
        rw [find3Go_exact hj hd] at hnone
        rw [find3Go_exact hj hd]
        by_cases hw : (Node.mk l wo wi cs).word = true
        · simp only [hw, if_true] at hnone ⊢
          exact hnone
        · simp only [hw, if_false] at hnone
          cases hnone
      | cons b rest =>
        cases hcl : child_lookup (Node.mk l wo wi cs) b with
        | none =>
          rw [find3Go_step_none hj hd hcl] at hnone
          rw [find3Go_step_none hj hd hcl]
          by_cases hw : (Node.mk l wo wi cs).wild = true
          · simp only [hw, if_true] at hnone ⊢
            exact hnone
          · simp only [hw, if_false] at hnone
            cases hnone
        | some i =>
          rw [find3Go_step_some hj hd hcl] at hnone
          rw [find3Go_step_some hj hd hcl]
          obtain ⟨hi, _⟩ := child_lookup_some hcl
          simp only [Node.children_mk] at hi
          have hmem : cs.getD i default ∈ cs := getD_mem hi
          by_cases hw : (Node.mk l wo wi cs).wild = true
          · simp only [hw, if_true] at hnone ⊢
            exact hnone
          · simp only [hw, if_false] at hnone ⊢
            exact ih (cs.getD i default) hmem rest (p ++ [i]) π hnone w

theorem find3Go_start {n : Node} {krem : List Nat} {π : List Nat}
    (h : find3Go n krem [] none = some π) (p : List Nat) (w : Option (List Nat)) :
    find3Go n krem p w = some (p ++ π) := by
  have h1 := find3Go_shift n krem p [] none
  rw [List.append_nil, h] at h1
  simp at h1
  exact find3Go_acc n krem p (p ++ π) h1 w

/-- On sorted children, looking up the discriminator stored at index `i`
returns `i`. -/
theorem child_lookup_getD {n : Node} {i : Nat}
    (hs : List.Pairwise (· < ·) (n.children.map Prod.fst))
    (hi : i < n.children.length) :
    child_lookup n (n.children.getD i default).1 = some i := by
  have hmem : n.children.getD i default ∈ n.children := getD_mem hi
  have hmem2 : ((n.children.getD i default).1, (n.children.getD i default).2) ∈
      n.children := by simpa using hmem
  obtain ⟨i', hl', hg'⟩ := child_lookup_mem hs hmem2
  have hi' : i' < n.children.length := (child_lookup_some hl').1
  have hnd : (n.children.map Prod.fst).Nodup := hs.nodup
  have hb4 : i' < (n.children.map Prod.fst).length := by simpa using hi'
  have hb5 : i < (n.children.map Prod.fst).length := by simpa using hi
  have h1 : (n.children.map Prod.fst)[i'] =
      (n.children.map Prod.fst)[i] := by
    simp only [List.getElem_map]
    rw [← List.getD_eq_getElem n.children default hi',
      ← List.getD_eq_getElem n.children default hi]
    rw [hg']
  have heq : i' = i := (List.Nodup.getElem_inj_iff hnd).mp h1
  subst heq
  exact hl'

/-- `find3` follows a valid path to a word node exactly. -/
theorem findPath : ∀ (π : List Nat) (n : Node) (k : List Nat),
    sortedNode n = true → pathKey n π = some k → (nodeAt n π).word = true →
    find3Go n k [] none = some π := by
  intro π
  induction π with
  | nil =>
    intro n k hs hp hw
    rw [pathKey] at hp
    obtain rfl : n.label = k := by
      injection hp
    rw [nodeAt] at hw
    have hml : matchLen n.label n.label = n.label.length :=
      matchLen_of_stem (stem_refl _)
    have hj : ¬ matchLen n.label n.label < n.label.length := by omega
    rw [find3Go_exact hj (by rw [hml]; exact List.drop_length _) [] none]
    rw [hw]
    simp
  | cons i π' ih =>
    intro n k hs hp hw
    rw [pathKey] at hp
    split at hp
    · next hi =>
      obtain ⟨s, hps, hks⟩ := Option.map_eq_some'.mp hp
      subst hks
      have hcsort : sortedNode (n.children.getD i default).2 = true :=
        ((sortedNode_iff' n).mp hs).2 _ (getD_mem hi)
      have hw' : (nodeAt (n.children.getD i default).2 π').word = true := by
        rw [nodeAt_cons] at hw
        exact hw
      have ih' := ih (n.children.getD i default).2 s hcsort hps hw'
      have hcl := child_lookup_getD ((sortedNode_iff' n).mp hs).1 hi
      have hml : matchLen n.label (n.label ++ (n.children.getD i default).1 :: s) =
          n.label.length := matchLen_of_stem ⟨_, rfl⟩
      have hj : ¬ matchLen n.label (n.label ++ (n.children.getD i default).1 :: s) <
          n.label.length := by omega
      have hdd : (n.label ++ (n.children.getD i default).1 :: s).drop
          (matchLen n.label (n.label ++ (n.children.getD i default).1 :: s)) =
          (n.children.getD i default).1 :: s := by
        rw [hml]
        exact List.drop_left _ _
      rw [find3Go_step_some hj hdd hcl [] none]
      have := find3Go_start ih' ([] ++ [i]) (if n.wild = true then some [] else none)
      simpa using this
    · cases hp

/-- Every registered word key has a valid path to its word node. -/
theorem memPath : ∀ (n : Node) (k : List Nat), sortedNode n = true →
    k ∈ wordsAux [] n →
    ∃ π, pathKey n π = some k ∧ (nodeAt n π).word = true := by
  intro n
  induction n using Node.indMem with
  | h l wo wi cs ih =>
    intro k hs hk
    rcases mem_wordsAux.mp hk with ⟨hwo, rfl⟩ | ⟨bc, hbc, hy⟩
    · refine ⟨[], ?_, ?_⟩
      · rw [pathKey]
        simp
      · rw [nodeAt]
        simpa using hwo
    · obtain ⟨i, hi, hgi⟩ := List.getElem_of_mem hbc
      have hgd : cs.getD i default = bc := by
        rw [List.getD_eq_getElem _ _ hi, hgi]
      rw [wordsAux_shift] at hy
      obtain ⟨s, hsm, rfl⟩ := List.mem_map.mp hy
      have hcsort : sortedNode bc.2 = true := by
        have := sortedNode_children hs
        exact this bc (by simpa using hbc)
      obtain ⟨π', hp', hw'⟩ := ih bc hbc s hcsort hsm
      refine ⟨i :: π', ?_, ?_⟩
      · rw [pathKey_cons (by simpa using hi)]
        simp only [Node.children_mk, Node.label_mk]
        rw [hgd, hp']
        simp
      · rw [nodeAt_cons]
        simp only [Node.children_mk]
        rw [hgd]
        exact hw'

theorem insert_child_length {n : Node} {b : Nat} (c : Node)
    (hs : List.Pairwise (· < ·) (n.children.map Prod.fst)) :
    (insert_child n b c).1.children.length = n.children.length + 1 := by
  have hlen : (n.children.map Prod.fst).length = n.children.length := by simp
  obtain ⟨⟨_, hb2⟩, _, _⟩ := bsearch_spec (n.children.map Prod.fst) b hs
    n.children.length 0 n.children.length (by omega) (by omega) (by omega)
  have hidx : find_child_idx n b ≤ n.children.length := by
    have hfci : find_child_idx n b =
        bsearch (n.children.map Prod.fst) b 0 n.children.length := rfl
    omega
  show (n.children.insertIdx (find_child_idx n b) (b, c)).length = _
  rw [List.length_insertIdx _ _ hidx]

/-- Structural preservation by `insertGo`: sortedness is always
preserved; compaction and wild-implies-word are preserved as well. -/
theorem insertGo_aux : ∀ (n : Node), sortedNode n = true →
    ∀ (krem : List Nat) (wc : Bool),
    sortedNode (insertGo n krem wc).1 = true ∧
    (compactNode n = true → compactNode (insertGo n krem wc).1 = true) ∧
    (wildWordNode n = true → wildWordNode (insertGo n krem wc).1 = true) := by
  intro n
  induction n using Node.indMem with
  | h l wo wi cs ih =>
    intro hs krem wc
    have hpw : List.Pairwise (· < ·) (cs.map Prod.fst) := by
      have := sortedNode_pairwise hs; simpa using this
    have hsch : ∀ bc ∈ cs, sortedNode bc.2 = true := by
      have := sortedNode_children hs; simpa using this
    by_cases hj : matchLen l krem < l.length
    · cases hd : krem.drop (matchLen l krem) with
      | nil =>
        rw [insertGo_split_exact (n := .mk l wo wi cs) (by simpa using hj)
          (by simpa using hd)]
        simp only [Node.label_mk, Node.word_mk, Node.wild_mk, Node.children_mk]
        refine ⟨?_, ?_, ?_⟩
        · apply (sortedNode_iff _ _ _ _).mpr
          refine ⟨by simp, ?_⟩
          intro bc hbc
          simp only [List.mem_singleton] at hbc
          subst hbc
          exact (sortedNode_iff _ _ _ _).mpr ⟨hpw, hsch⟩
        · intro hcp
          obtain ⟨hc1, hc2⟩ := (compactNode_iff _ _ _ _).mp hcp
          apply (compactNode_iff _ _ _ _).mpr
          refine ⟨Or.inr rfl, ?_⟩
          intro bc hbc
          simp only [List.mem_singleton] at hbc
          subst hbc
          exact (compactNode_iff _ _ _ _).mpr ⟨by simpa using hc1, hc2⟩
        · intro hww
          obtain ⟨hw1, hw2⟩ := (wildWordNode_iff _ _ _ _).mp hww
          apply (wildWordNode_iff _ _ _ _).mpr
          refine ⟨fun _ => rfl, ?_⟩
          intro bc hbc
          simp only [List.mem_singleton] at hbc
          subst hbc
          exact (wildWordNode_iff _ _ _ _).mpr ⟨hw1, hw2⟩
      | cons b rest =>
        have hjk : matchLen l krem < krem.length := by
          have h1 : (krem.drop (matchLen l krem)).length =
              krem.length - matchLen l krem := List.length_drop _ _
          rw [hd] at h1
          simp only [List.length_cons] at h1
          omega
        have hbne : l.getD (matchLen l krem) 0 ≠ b := by
          have h1 := matchLen_ne (l := l) (k := krem) hj hjk
          have h2 : krem.getD (matchLen l krem) 0 = b := by
            obtain ⟨j, hjeq⟩ : ∃ j, matchLen l krem = j := ⟨_, rfl⟩
            rw [hjeq] at hd ⊢
            have hjlen : j ≤ krem.length := by omega
            have hkbr : krem = krem.take j ++ b :: rest := by
              conv_lhs => rw [← List.take_append_drop j krem]
              rw [hd]
            rw [hkbr]
            exact getD_append_cons_of (by rw [List.length_take]; omega)
          rw [h2] at h1
          exact h1
        have hsS : List.Pairwise (· < ·)
            (((Node.mk (set_label (l.take (matchLen l krem))) false false
              [(l.getD (matchLen l krem) 0,
                Node.mk (set_label (l.drop (matchLen l krem + 1))) wo wi cs)]) :
                Node).children.map Prod.fst) := by
          simp
        have hclS : child_lookup
            (.mk (set_label (l.take (matchLen l krem))) false false
              [(l.getD (matchLen l krem) 0,
                .mk (set_label (l.drop (matchLen l krem + 1))) wo wi cs)]) b = none := by
          apply child_lookup_eq_none_of
          intro bc hbc
          simp only [Node.children_mk, List.mem_singleton] at hbc
          subst hbc
          exact hbne
        rw [insertGo_split_extend (n := .mk l wo wi cs) (by simpa using hj)
          (by simpa using hd)]
        simp only [Node.label_mk, Node.word_mk, Node.wild_mk, Node.children_mk]
        obtain ⟨hRl, hRw, hRwi, hRmem, hRpair, hRlen, hRgd⟩ :=
          insert_child_spec (.mk (set_label rest) true wc []) hsS hclS
        have hRcnt := insert_child_length (b := b)
          (n := .mk (set_label (l.take (matchLen l krem)))
          false false [(l.getD (matchLen l krem) 0,
            .mk (set_label (l.drop (matchLen l krem + 1))) wo wi cs)])
          (.mk (set_label rest) true wc []) hsS
        refine ⟨?_, ?_, ?_⟩
        · apply (sortedNode_iff' _).mpr
          refine ⟨hRpair, ?_⟩
          intro bc hbc
          rcases (hRmem bc).mp hbc with rfl | hbc2
          · exact (sortedNode_iff' _).mpr ⟨by simp, by simp⟩
          · simp only [Node.children_mk, List.mem_singleton] at hbc2
            subst hbc2
            exact (sortedNode_iff' _).mpr ⟨by simpa using hpw, by simpa using hsch⟩
        · intro hcp
          obtain ⟨hc1, hc2⟩ := (compactNode_iff _ _ _ _).mp hcp
          apply (compactNode_iff' _).mpr
          constructor
          · left
            simp only [Node.children_mk] at hRcnt
            rw [hRcnt]
            simp
          · intro bc hbc
            rcases (hRmem bc).mp hbc with rfl | hbc2
            · exact (compactNode_iff' _).mpr ⟨Or.inr rfl, by simp⟩
            · simp only [Node.children_mk, List.mem_singleton] at hbc2
              subst hbc2
              exact (compactNode_iff' _).mpr ⟨by simpa using hc1, by simpa using hc2⟩
        · intro hww
          obtain ⟨hw1, hw2⟩ := (wildWordNode_iff _ _ _ _).mp hww
          apply (wildWordNode_iff' _).mpr
          constructor
          · rw [hRwi, hRw]
            simp only [Node.wild_mk, Node.word_mk]
            intro h
            cases h
          · intro bc hbc
            rcases (hRmem bc).mp hbc with rfl | hbc2
            · exact (wildWordNode_iff' _).mpr ⟨fun _ => rfl, by simp⟩
            · simp only [Node.children_mk, List.mem_singleton] at hbc2
              subst hbc2
              exact (wildWordNode_iff' _).mpr ⟨by simpa using hw1, by simpa using hw2⟩
    · cases hd : krem.drop (matchLen l krem) with
      | nil =>
        rw [insertGo_flags (n := .mk l wo wi cs) (by simpa using hj) (by simpa using hd)]
        simp only [Node.label_mk, Node.word_mk, Node.wild_mk, Node.children_mk]
        refine ⟨?_, ?_, ?_⟩
        · exact (sortedNode_iff _ _ _ _).mpr ⟨hpw, hsch⟩
        · intro hcp
          obtain ⟨_, hc2⟩ := (compactNode_iff _ _ _ _).mp hcp
          exact (compactNode_iff _ _ _ _).mpr ⟨Or.inr rfl, hc2⟩
        · intro hww
          obtain ⟨_, hw2⟩ := (wildWordNode_iff _ _ _ _).mp hww
          exact (wildWordNode_iff _ _ _ _).mpr ⟨fun _ => rfl, hw2⟩
      | cons b rest =>
        cases hcl : child_lookup (.mk l wo wi cs) b with
        | none =>
          rw [insertGo_extend (n := .mk l wo wi cs) (by simpa using hj)
            (by simpa using hd) hcl]
          obtain ⟨hRl, hRw, hRwi, hRmem, hRpair, hRlen, hRgd⟩ :=
            insert_child_spec (n := .mk l wo wi cs)
              (.mk (set_label rest) true wc []) (by simpa using hpw) hcl
          have hRcnt := insert_child_length (b := b) (n := .mk l wo wi cs)
            (.mk (set_label rest) true wc []) (by simpa using hpw)
          refine ⟨?_, ?_, ?_⟩
          · apply (sortedNode_iff' _).mpr
            refine ⟨hRpair, ?_⟩
            intro bc hbc
            rcases (hRmem bc).mp hbc with rfl | hbc2
            · exact (sortedNode_iff' _).mpr ⟨by simp, by simp⟩
            · exact hsch bc (by simpa using hbc2)
          · intro hcp
            obtain ⟨hc1, hc2⟩ := (compactNode_iff _ _ _ _).mp hcp
            apply (compactNode_iff' _).mpr
            constructor
            · rcases hc1 with hc1 | hc1
              · left
                rw [hRcnt]
                simp only [Node.children_mk]
                omega
              · right
                rw [hRw]
                simpa using hc1
            · intro bc hbc
              rcases (hRmem bc).mp hbc with rfl | hbc2
              · exact (compactNode_iff' _).mpr ⟨Or.inr rfl, by simp⟩
              · exact hc2 bc (by simpa using hbc2)
          · intro hww
            obtain ⟨hw1, hw2⟩ := (wildWordNode_iff _ _ _ _).mp hww
            apply (wildWordNode_iff' _).mpr
            constructor
            · rw [hRwi, hRw]
              simp only [Node.wild_mk, Node.word_mk]
              intro h
              exact hw1 (by simpa using h)
            · intro bc hbc
              rcases (hRmem bc).mp hbc with rfl | hbc2
              · exact (wildWordNode_iff' _).mpr ⟨fun _ => rfl, by simp⟩
              · exact hw2 bc (by simpa using hbc2)
        | some i =>
          obtain ⟨hi, hib⟩ := child_lookup_some hcl
          simp only [Node.children_mk] at hi hib
          have hmem : cs.getD i default ∈ cs := getD_mem hi
          obtain ⟨ihS, ihCp, ihWW⟩ := ih (cs.getD i default) hmem
            (hsch _ hmem) rest wc
          rw [insertGo_descend (n := .mk l wo wi cs) (by simpa using hj)
            (by simpa using hd) hcl]
          simp only [Node.label_mk, Node.word_mk, Node.wild_mk, Node.children_mk]
          have hset : cs.set i ((cs.getD i default).1,
              (insertGo (cs.getD i default).2 rest wc).1) =
              cs.take i ++ ((cs.getD i default).1,
                (insertGo (cs.getD i default).2 rest wc).1) :: cs.drop (i + 1) :=
            set_decomp hi _
          have hmemset : ∀ bc, bc ∈ cs.set i ((cs.getD i default).1,
              (insertGo (cs.getD i default).2 rest wc).1) →
              (bc = ((cs.getD i default).1,
                (insertGo (cs.getD i default).2 rest wc).1) ∨ bc ∈ cs) := by
            intro bc hbc
            rw [hset] at hbc
            rcases List.mem_append.mp hbc with hbc | hbc
            · exact Or.inr (List.mem_of_mem_take hbc)
            · rcases List.mem_cons.mp hbc with rfl | hbc
              · exact Or.inl rfl
              · exact Or.inr (List.mem_of_mem_drop hbc)
          refine ⟨?_, ?_, ?_⟩
          · apply (sortedNode_iff _ _ _ _).mpr
            constructor
            · rw [map_fst_set_self hi]
              exact hpw
            · intro bc hbc
              rcases hmemset bc hbc with rfl | hbc2
              · exact ihS
              · exact hsch bc hbc2
          · intro hcp
            obtain ⟨hc1, hc2⟩ := (compactNode_iff _ _ _ _).mp hcp
            apply (compactNode_iff _ _ _ _).mpr
            constructor
            · rcases hc1 with hc1 | hc1
              · left
                rw [List.length_set]
                exact hc1
              · exact Or.inr hc1
            · intro bc hbc
              rcases hmemset bc hbc with rfl | hbc2
              · exact ihCp (hc2 _ hmem)
              · exact hc2 bc hbc2
          · intro hww
            obtain ⟨hw1, hw2⟩ := (wildWordNode_iff _ _ _ _).mp hww
            apply (wildWordNode_iff _ _ _ _).mpr
            constructor
            · exact hw1
            · intro bc hbc
              rcases hmemset bc hbc with rfl | hbc2
              · exact ihWW (hw2 _ hmem)
              · exact hw2 bc hbc2

/- ### Child-surgery lemmas for the removal analysis -/

theorem setChild_children_mem {x : Node} {i : Nat} (hi : i < x.children.length)
    (c' : Node) (bc : Nat × Node) :
    bc ∈ (x.setChild i c').children ↔
      (bc ∈ x.children.take i ∨ bc = ((x.children.getD i default).1, c') ∨
       bc ∈ x.children.drop (i + 1)) := by
  show bc ∈ x.children.set i _ ↔ _
  rw [set_decomp hi]
  simp [or_assoc]

theorem children_mem_decomp {x : Node} {i : Nat} (hi : i < x.children.length)
    (bc : Nat × Node) :
    bc ∈ x.children ↔
      (bc ∈ x.children.take i ∨ bc = x.children.getD i default ∨
       bc ∈ x.children.drop (i + 1)) := by
  conv_lhs => rw [list_decomp hi]
  simp [or_assoc]

theorem setChild_label (x : Node) (i : Nat) (c' : Node) :
    (x.setChild i c').label = x.label := rfl

theorem setChild_word (x : Node) (i : Nat) (c' : Node) :
    (x.setChild i c').word = x.word := rfl

theorem setChild_wild (x : Node) (i : Nat) (c' : Node) :
    (x.setChild i c').wild = x.wild := rfl

theorem setChild_sorted {x : Node} {i : Nat} (hi : i < x.children.length)
    {c' : Node} (hs : sortedNode x = true) (hc : sortedNode c' = true) :
    sortedNode (x.setChild i c') = true := by
  apply (sortedNode_iff' _).mpr
  constructor
  · show List.Pairwise _ ((x.children.set i _).map Prod.fst)
    rw [map_fst_set_self hi]
    exact ((sortedNode_iff' x).mp hs).1
  · intro bc hbc
    rcases (setChild_children_mem hi c' bc).mp hbc with h | rfl | h
    · exact ((sortedNode_iff' x).mp hs).2 bc (List.mem_of_mem_take h)
    · exact hc
    · exact ((sortedNode_iff' x).mp hs).2 bc (List.mem_of_mem_drop h)

theorem setChild_labels255 {x : Node} {i : Nat} (hi : i < x.children.length)
    {c' : Node} (hs : labels255 x = true) (hc : labels255 c' = true) :
    labels255 (x.setChild i c') = true := by
  apply (labels255_iff' _).mpr
  constructor
  · exact ((labels255_iff' x).mp hs).1
  · intro bc hbc
    rcases (setChild_children_mem hi c' bc).mp hbc with h | rfl | h
    · exact ((labels255_iff' x).mp hs).2 bc (List.mem_of_mem_take h)
    · exact hc
    · exact ((labels255_iff' x).mp hs).2 bc (List.mem_of_mem_drop h)

theorem setChild_wildWord {x : Node} {i : Nat} (hi : i < x.children.length)
    {c' : Node} (hs : wildWordNode x = true) (hc : wildWordNode c' = true) :
    wildWordNode (x.setChild i c') = true := by
  apply (wildWordNode_iff' _).mpr
  constructor
  · exact ((wildWordNode_iff' x).mp hs).1
  · intro bc hbc
    rcases (setChild_children_mem hi c' bc).mp hbc with h | rfl | h
    · exact ((wildWordNode_iff' x).mp hs).2 bc (List.mem_of_mem_take h)
    · exact hc
    · exact ((wildWordNode_iff' x).mp hs).2 bc (List.mem_of_mem_drop h)

theorem setChild_strBounded {x : Node} {i : Nat} {base : Nat}
    (hi : i < x.children.length) {c' : Node}
    (hs : strBounded base x = true)
    (hc : strBounded (base + x.label.length + 1) c' = true) :
    strBounded base (x.setChild i c') = true := by
  apply (strBounded_iff' _ _).mpr
  constructor
  · exact ((strBounded_iff' base x).mp hs).1
  · intro bc hbc
    rcases (setChild_children_mem hi c' bc).mp hbc with h | rfl | h
    · exact ((strBounded_iff' base x).mp hs).2 bc (List.mem_of_mem_take h)
    · exact hc
    · exact ((strBounded_iff' base x).mp hs).2 bc (List.mem_of_mem_drop h)

theorem removeChild_children_mem {x : Node} {i : Nat} (hi : i < x.children.length)
    (bc : Nat × Node) :
    bc ∈ (x.removeChild i).children ↔
      (bc ∈ x.children.take i ∨ bc ∈ x.children.drop (i + 1)) := by
  show bc ∈ x.children.eraseIdx i ↔ _
  rw [List.eraseIdx_eq_take_drop_succ]
  simp

theorem removeChild_sorted {x : Node} {i : Nat}
    (hs : sortedNode x = true) : sortedNode (x.removeChild i) = true := by
  apply (sortedNode_iff' _).mpr
  constructor
  · show List.Pairwise _ ((x.children.eraseIdx i).map Prod.fst)
    rw [map_eraseIdx]
    exact (((sortedNode_iff' x).mp hs).1).sublist (List.eraseIdx_sublist _ i)
  · intro bc hbc
    exact ((sortedNode_iff' x).mp hs).2 bc
      (List.mem_of_mem_eraseIdx (by simpa using hbc))

theorem removeChild_labels255 {x : Node} {i : Nat}
    (hs : labels255 x = true) : labels255 (x.removeChild i) = true := by
  apply (labels255_iff' _).mpr
  refine ⟨((labels255_iff' x).mp hs).1, ?_⟩
  intro bc hbc
  exact ((labels255_iff' x).mp hs).2 bc
    (List.mem_of_mem_eraseIdx (by simpa using hbc))

theorem removeChild_wildWord {x : Node} {i : Nat}
    (hs : wildWordNode x = true) : wildWordNode (x.removeChild i) = true := by
  apply (wildWordNode_iff' _).mpr
  refine ⟨((wildWordNode_iff' x).mp hs).1, ?_⟩
  intro bc hbc
  exact ((wildWordNode_iff' x).mp hs).2 bc
    (List.mem_of_mem_eraseIdx (by simpa using hbc))

theorem removeChild_strBounded {x : Node} {i : Nat} {base : Nat}
    (hs : strBounded base x = true) : strBounded base (x.removeChild i) = true := by
  apply (strBounded_iff' _ _).mpr
  refine ⟨((strBounded_iff' base x).mp hs).1, ?_⟩
  intro bc hbc
  exact ((strBounded_iff' base x).mp hs).2 bc
    (List.mem_of_mem_eraseIdx (by simpa using hbc))

theorem fst_lt_of_take {cs : List (Nat × Node)}
    (hp : List.Pairwise (· < ·) (cs.map Prod.fst)) {i : Nat} (hi : i < cs.length)
    {bc : Nat × Node} (h : bc ∈ cs.take i) : bc.1 < (cs.getD i default).1 := by
  obtain ⟨j, hj, hjeq⟩ := List.mem_iff_getElem.mp h
  have hj2 : j < i := by simp at hj; omega
  have hj3 : j < cs.length := by omega
  rw [List.getElem_take _] at hjeq
  have := (List.pairwise_iff_getElem.mp hp) j i (by simpa using hj3) (by simpa using hi)
    hj2
  simp only [List.getElem_map] at this
  rw [hjeq] at this
  rw [List.getD_eq_getElem cs default hi]
  exact this

theorem fst_gt_of_drop {cs : List (Nat × Node)}
    (hp : List.Pairwise (· < ·) (cs.map Prod.fst)) {i : Nat} (hi : i < cs.length)
    {bc : Nat × Node} (h : bc ∈ cs.drop (i + 1)) : (cs.getD i default).1 < bc.1 := by
  obtain ⟨j, hj, hjeq⟩ := List.mem_iff_getElem.mp h
  have hj3 : i + 1 + j < cs.length := by simp at hj; omega
  rw [List.getElem_drop _] at hjeq
  have := (List.pairwise_iff_getElem.mp hp) i (i + 1 + j) (by simpa using hi)
    (by simpa using hj3) (by omega)
  simp only [List.getElem_map] at this
  rw [hjeq] at this
  rw [List.getD_eq_getElem cs default hi]
  exact this

/-- Replacing child `i` by a node whose word set is the old one minus the
key `k` removes exactly `k` from the parent's word set, provided `k` runs
through child `i` (so no other part of the node can register it). -/
theorem setChild_words_minus {l : List Nat} {wo wi : Bool}
    {cs : List (Nat × Node)} {i : Nat} (hi : i < cs.length) {c' : Node}
    {k : List Nat}
    (hs : List.Pairwise (· < ·) (cs.map Prod.fst))
    (hk : ∃ r, k = l ++ (cs.getD i default).1 :: r)
    (hw : ∀ y, y ∈ wordsAux (l ++ [(cs.getD i default).1]) c' ↔
      (y ∈ wordsAux (l ++ [(cs.getD i default).1]) (cs.getD i default).2 ∧ y ≠ k)) :
    ∀ y, y ∈ wordsAux [] ((Node.mk l wo wi cs).setChild i c') ↔
      (y ∈ wordsAux [] (.mk l wo wi cs) ∧ y ≠ k) := by
  obtain ⟨r, rfl⟩ := hk
  intro y
  have hcs' : ((Node.mk l wo wi cs).setChild i c').children =
      cs.take i ++ ((cs.getD i default).1, c') :: cs.drop (i + 1) := by
    simp only [Node.setChild, Node.children_mk]
    rw [set_decomp hi]
  have hlbl : ((Node.mk l wo wi cs).setChild i c').label = l := rfl
  have hwo : ((Node.mk l wo wi cs).setChild i c').word = wo := rfl
  have hother : ∀ bc ∈ cs, bc.1 ≠ (cs.getD i default).1 →
      y ∈ wordsAux ([] ++ l ++ [bc.1]) bc.2 →
      y ≠ l ++ (cs.getD i default).1 :: r := by
    intro bc _ hne hy heq
    have hst := stem_of_mem_wordsAux bc.2 ([] ++ l ++ [bc.1]) y hy
    have hst2 : stem (l ++ [bc.1]) y := by
      refine stem_trans ?_ hst
      exact ⟨bc.2.label, by simp⟩
    rw [heq] at hst2
    exact hne (stem_append_cons hst2)
  constructor
  · intro hy
    rcases mem_wordsAux'.mp hy with ⟨hw1, hy1⟩ | ⟨bc, hbc, hyc⟩
    · rw [hlbl] at hy1
      rw [hwo] at hw1
      refine ⟨mem_wordsAux'.mpr (Or.inl ⟨hw1, hy1⟩), ?_⟩
      rw [hy1]; simp
    · rw [hcs'] at hbc
      rw [hlbl] at hyc
      rcases List.mem_append.mp hbc with htk | hrest
    

      · have hne : bc.1 ≠ (cs.getD i default).1 :=
          Nat.ne_of_lt (fst_lt_of_take hs hi htk)
        have hbc2 : bc ∈ cs := List.mem_of_mem_take htk
        exact ⟨mem_wordsAux'.mpr (Or.inr ⟨bc, hbc2, by simpa using hyc⟩),
          hother bc hbc2 hne (by simpa using hyc)⟩
      · rcases List.mem_cons.mp hrest with rfl | hdp
        · simp only at hyc
          have := (hw y).mp (by simpa using hyc)
          refine ⟨mem_wordsAux'.mpr (Or.inr ⟨cs.getD i default, getD_mem hi, ?_⟩),
            this.2⟩
          simpa using this.1
        · have hne : bc.1 ≠ (cs.getD i default).1 :=
            (Nat.ne_of_lt (fst_gt_of_drop hs hi hdp)).symm
          have hbc2 : bc ∈ cs := List.mem_of_mem_drop hdp
          exact ⟨mem_wordsAux'.mpr (Or.inr ⟨bc, hbc2, by simpa using hyc⟩),
            hother bc hbc2 hne (by simpa using hyc)⟩
  · rintro ⟨hy, hne⟩
    rcases mem_wordsAux'.mp hy with ⟨hw1, hy1⟩ | ⟨bc, hbc, hyc⟩
    · exact mem_wordsAux'.mpr (Or.inl ⟨by rw [hwo]; exact hw1, by rw [hlbl]; exact hy1⟩)
    · rcases (children_mem_decomp (x := .mk l wo wi cs) (by simpa using hi) bc).mp
        (by simpa using hbc) with htk | heq | hdp
      · refine mem_wordsAux'.mpr (Or.inr ⟨bc, ?_, ?_⟩)
        · rw [hcs']
          exact List.mem_append.mpr (Or.inl htk)
        · rw [hlbl]; simpa using hyc
      · refine mem_wordsAux'.mpr (Or.inr ⟨((cs.getD i default).1, c'), ?_, ?_⟩)
        · rw [hcs']
          exact List.mem_append.mpr (Or.inr (List.mem_cons_self _ _))
        · have hbceq : bc = cs.getD i default := by simpa using heq
          rw [hbceq] at hyc
          have h1 : y ∈ wordsAux (l ++ [(cs.getD i default).1]) c' :=
            (hw y).mpr ⟨by simpa using hyc, hne⟩
          rw [hlbl]
          simpa using h1
      · refine mem_wordsAux'.mpr (Or.inr ⟨bc, ?_, ?_⟩)
        · rw [hcs']
          exact List.mem_append.mpr (Or.inr (List.mem_cons_of_mem _ hdp))
        · rw [hlbl]; simpa using hyc

/-- Replacing child `i` by a node with the same wild set leaves the
parent's wild set unchanged (as a set). -/
theorem setChild_wilds_eq {l : List Nat} {wo wi : Bool}
    {cs : List (Nat × Node)} {i : Nat} (hi : i < cs.length) {c' : Node}
    (hw : ∀ y, y ∈ wildsAux (l ++ [(cs.getD i default).1]) c' ↔
      y ∈ wildsAux (l ++ [(cs.getD i default).1]) (cs.getD i default).2) :
    ∀ y, y ∈ wildsAux [] ((Node.mk l wo wi cs).setChild i c') ↔
      y ∈ wildsAux [] (.mk l wo wi cs) := by
  intro y
  have hcs' : ((Node.mk l wo wi cs).setChild i c').children =
      cs.take i ++ ((cs.getD i default).1, c') :: cs.drop (i + 1) := by
    simp only [Node.setChild, Node.children_mk]
    rw [set_decomp hi]
  have hlbl : ((Node.mk l wo wi cs).setChild i c').label = l := rfl
  have hwi : ((Node.mk l wo wi cs).setChild i c').wild = wi := rfl
  constructor
  · intro hy
    rcases mem_wildsAux'.mp hy with ⟨hw1, hy1⟩ | ⟨bc, hbc, hyc⟩
    · exact mem_wildsAux'.mpr (Or.inl ⟨by rw [← hwi]; exact hw1, by rw [← hlbl]; exact hy1⟩)
    · rw [hcs'] at hbc
      rw [hlbl] at hyc
      rcases List.mem_append.mp hbc with htk | hrest
      · exact mem_wildsAux'.mpr (Or.inr ⟨bc, List.mem_of_mem_take htk, by simpa using hyc⟩)
      · rcases List.mem_cons.mp hrest with rfl | hdp
        · refine mem_wildsAux'.mpr (Or.inr ⟨cs.getD i default, getD_mem hi, ?_⟩)
          have := (hw y).mp (by simpa using hyc)
          simpa using this
        · exact mem_wildsAux'.mpr (Or.inr ⟨bc, List.mem_of_mem_drop hdp, by simpa using hyc⟩)
  · intro hy
    rcases mem_wildsAux'.mp hy with ⟨hw1, hy1⟩ | ⟨bc, hbc, hyc⟩
    · exact mem_wildsAux'.mpr (Or.inl ⟨by rw [hwi]; exact hw1, by rw [hlbl]; exact hy1⟩)
    · rcases (children_mem_decomp (x := .mk l wo wi cs) (by simpa using hi) bc).mp
        (by simpa using hbc) with htk | heq | hdp
      · refine mem_wildsAux'.mpr (Or.inr ⟨bc, ?_, by rw [hlbl]; simpa using hyc⟩)
        rw [hcs']
        exact List.mem_append.mpr (Or.inl htk)
      · refine mem_wildsAux'.mpr (Or.inr ⟨((cs.getD i default).1, c'), ?_, ?_⟩)
        · rw [hcs']
          exact List.mem_append.mpr (Or.inr (List.mem_cons_self _ _))
        · have hbceq : bc = cs.getD i default := by simpa using heq
          rw [hbceq] at hyc
          have h1 : y ∈ wildsAux (l ++ [(cs.getD i default).1]) c' :=
            (hw y).mpr (by simpa using hyc)
          rw [hlbl]
          simpa using h1
      · refine mem_wildsAux'.mpr (Or.inr ⟨bc, ?_, by rw [hlbl]; simpa using hyc⟩)
        rw [hcs']
        exact List.mem_append.mpr (Or.inr (List.mem_cons_of_mem _ hdp))

/- ### The `cut` merge on an unword single-child node -/

theorem cut_eq {nl : List Nat} {w nwi : Bool} {b2 : Nat} {c : Node}
    (hlen : nl.length + 1 + c.label.length ≤ 255) :
    cut (.mk nl w nwi [(b2, c)]) =
      .mk (nl ++ b2 :: c.label) c.word c.wild c.children := by
  show Node.mk (set_label _) _ _ _ = _
  rw [set_label_eq (by simp; omega)]
  simp

theorem wordsAux_leaf (pre ll : List Nat) (lwi : Bool) :
    wordsAux pre (.mk ll true lwi []) = [pre ++ ll] := by
  rw [wordsAux]
  simp

theorem wildsAux_leaf (pre ll : List Nat) (lw : Bool) :
    wildsAux pre (.mk ll lw true []) = [pre ++ ll] := by
  rw [wildsAux]
  simp

theorem wildsAux_leaf_false (pre ll : List Nat) (lw : Bool) :
    wildsAux pre (.mk ll lw false []) = [] := by
  rw [wildsAux]
  simp

theorem wordsAux_single (pre nl : List Nat) (nwi : Bool) (b2 : Nat) (c : Node) :
    wordsAux pre (.mk nl false nwi [(b2, c)]) = wordsAux (pre ++ nl ++ [b2]) c := by
  rw [wordsAux]
  simp

theorem wildsAux_single (pre nl : List Nat) (nw : Bool) (b2 : Nat) (c : Node) :
    wildsAux pre (.mk nl nw false [(b2, c)]) = wildsAux (pre ++ nl ++ [b2]) c := by
  rw [wildsAux]
  simp

theorem cut_words {nl : List Nat} {w nwi : Bool} {b2 : Nat} {c : Node}
    (hlen : nl.length + 1 + c.label.length ≤ 255) (hw : w = false) (pre : List Nat) :
    wordsAux pre (cut (.mk nl w nwi [(b2, c)])) =
      wordsAux pre (.mk nl w nwi [(b2, c)]) := by
  subst hw
  rw [cut_eq hlen, wordsAux_single, wordsAux_label' pre]
  rw [wordsAux_label' (pre ++ nl ++ [b2]) c]
  simp only [Node.label_mk, Node.word_mk, Node.wild_mk, Node.children_mk]
  congr 1
  simp

theorem cut_wilds {nl : List Nat} {w nwi : Bool} {b2 : Nat} {c : Node}
    (hlen : nl.length + 1 + c.label.length ≤ 255) (hwi : nwi = false) (pre : List Nat) :
    wildsAux pre (cut (.mk nl w nwi [(b2, c)])) =
      wildsAux pre (.mk nl w nwi [(b2, c)]) := by
  subst hwi
  rw [cut_eq hlen, wildsAux_single]
  have h1 : wildsAux pre (Node.mk (nl ++ b2 :: c.label) c.word c.wild c.children) =
      wildsAux (pre ++ (nl ++ b2 :: c.label)) (.mk [] c.word c.wild c.children) :=
    wildsAux_label _ _ _ _ _
  have h2 : wildsAux (pre ++ nl ++ [b2]) c =
      wildsAux (pre ++ nl ++ [b2] ++ c.label) (.mk [] c.word c.wild c.children) := by
    cases c
    exact wildsAux_label _ _ _ _ _
  rw [h1, h2]
  congr 1
  simp

/-- Unlinking a leaf word child removes exactly its key from the word set
and leaves the wild set unchanged, provided the leaf is not wild. -/
theorem removeChild_words_minus {l : List Nat} {wo wi : Bool}
    {cs : List (Nat × Node)} {i : Nat} (hi : i < cs.length)
    (hs : List.Pairwise (· < ·) (cs.map Prod.fst))
    (hch : (cs.getD i default).2.children = [])
    (hwd : (cs.getD i default).2.word = true)
    (hwl : (cs.getD i default).2.wild = false) :
    (∀ y, y ∈ wordsAux [] ((Node.mk l wo wi cs).removeChild i) ↔
      (y ∈ wordsAux [] (.mk l wo wi cs) ∧
       y ≠ l ++ (cs.getD i default).1 :: (cs.getD i default).2.label)) ∧
    (∀ y, y ∈ wildsAux [] ((Node.mk l wo wi cs).removeChild i) ↔
      y ∈ wildsAux [] (.mk l wo wi cs)) := by
  have hcs' : ((Node.mk l wo wi cs).removeChild i).children =
      cs.take i ++ cs.drop (i + 1) := by
    simp only [Node.removeChild, Node.children_mk]
    rw [List.eraseIdx_eq_take_drop_succ]
  have hlbl : ((Node.mk l wo wi cs).removeChild i).label = l := rfl
  have hwo2 : ((Node.mk l wo wi cs).removeChild i).word = wo := rfl
  have hwi2 : ((Node.mk l wo wi cs).removeChild i).wild = wi := rfl
  have hleafw : ∀ y, y ∈ wordsAux (l ++ [(cs.getD i default).1]) (cs.getD i default).2 ↔
      y = l ++ (cs.getD i default).1 :: (cs.getD i default).2.label := by
    intro y
    rw [mem_wordsAux']
    rw [hch, hwd]
    simp
  have hleafwl : ∀ y, y ∈ wildsAux (l ++ [(cs.getD i default).1]) (cs.getD i default).2 →
      False := by
    intro y hy
    rcases mem_wildsAux'.mp hy with ⟨h1, _⟩ | ⟨bc, hbc, _⟩
    · rw [hwl] at h1; exact Bool.false_ne_true h1
    · rw [hch] at hbc; exact List.not_mem_nil bc hbc
  have hother : ∀ (y : List Nat) (bc : Nat × Node), bc ∈ cs →
      bc.1 ≠ (cs.getD i default).1 →
      y ∈ wordsAux ([] ++ l ++ [bc.1]) bc.2 →
      y ≠ l ++ (cs.getD i default).1 :: (cs.getD i default).2.label := by
    intro y bc _ hne hy heq
    have hst := stem_of_mem_wordsAux bc.2 ([] ++ l ++ [bc.1]) y hy
    have hst2 : stem (l ++ [bc.1]) y := by
      refine stem_trans ?_ hst
      exact ⟨bc.2.label, by simp⟩
    rw [heq] at hst2
    exact hne (stem_append_cons hst2)
  constructor
  · intro y
    constructor
    · intro hy
      rcases mem_wordsAux'.mp hy with ⟨hw1, hy1⟩ | ⟨bc, hbc, hyc⟩
      · rw [hlbl] at hy1
        rw [hwo2] at hw1
        refine ⟨mem_wordsAux'.mpr (Or.inl ⟨hw1, hy1⟩), ?_⟩
        rw [hy1]; simp
      · rw [hcs'] at hbc
        rw [hlbl] at hyc
        rcases List.mem_append.mp hbc with htk | hdp
        · have hne : bc.1 ≠ (cs.getD i default).1 :=
            Nat.ne_of_lt (fst_lt_of_take hs hi htk)
          have hbc2 : bc ∈ cs := List.mem_of_mem_take htk
          exact ⟨mem_wordsAux'.mpr (Or.inr ⟨bc, hbc2, by simpa using hyc⟩),
            hother y bc hbc2 hne (by simpa using hyc)⟩
        · have hne : bc.1 ≠ (cs.getD i default).1 :=
            (Nat.ne_of_lt (fst_gt_of_drop hs hi hdp)).symm
          have hbc2 : bc ∈ cs := List.mem_of_mem_drop hdp
          exact ⟨mem_wordsAux'.mpr (Or.inr ⟨bc, hbc2, by simpa using hyc⟩),
            hother y bc hbc2 hne (by simpa using hyc)⟩
    · rintro ⟨hy, hne⟩
      rcases mem_wordsAux'.mp hy with ⟨hw1, hy1⟩ | ⟨bc, hbc, hyc⟩
      · exact mem_wordsAux'.mpr (Or.inl ⟨by rw [hwo2]; exact hw1, by rw [hlbl]; exact hy1⟩)
      · rcases (children_mem_decomp (x := .mk l wo wi cs) (by simpa using hi) bc).mp
          (by simpa using hbc) with htk | heq | hdp
        · refine mem_wordsAux'.mpr (Or.inr ⟨bc, ?_, by rw [hlbl]; simpa using hyc⟩)
          rw [hcs']
          exact List.mem_append.mpr (Or.inl htk)
        · exfalso
          have hbceq : bc = cs.getD i default := by simpa using heq
          rw [hbceq] at hyc
          exact hne ((hleafw y).mp (by simpa using hyc))
        · refine mem_wordsAux'.mpr (Or.inr ⟨bc, ?_, by rw [hlbl]; simpa using hyc⟩)
          rw [hcs']
          exact List.mem_append.mpr (Or.inr hdp)
  · intro y
    constructor
    · intro hy
      rcases mem_wildsAux'.mp hy with ⟨hw1, hy1⟩ | ⟨bc, hbc, hyc⟩
      · exact mem_wildsAux'.mpr (Or.inl ⟨by rw [← hwi2]; exact hw1, by rw [← hlbl]; exact hy1⟩)
      · rw [hcs'] at hbc
        rw [hlbl] at hyc
        rcases List.mem_append.mp hbc with htk | hdp
        · exact mem_wildsAux'.mpr (Or.inr ⟨bc, List.mem_of_mem_take htk, by simpa using hyc⟩)
        · exact mem_wildsAux'.mpr (Or.inr ⟨bc, List.mem_of_mem_drop hdp, by simpa using hyc⟩)
    · intro hy
      rcases mem_wildsAux'.mp hy with ⟨hw1, hy1⟩ | ⟨bc, hbc, hyc⟩
      · exact mem_wildsAux'.mpr (Or.inl ⟨by rw [hwi2]; exact hw1, by rw [hlbl]; exact hy1⟩)
      · rcases (children_mem_decomp (x := .mk l wo wi cs) (by simpa using hi) bc).mp
          (by simpa using hbc) with htk | heq | hdp
        · refine mem_wildsAux'.mpr (Or.inr ⟨bc, ?_, by rw [hlbl]; simpa using hyc⟩)
          rw [hcs']
          exact List.mem_append.mpr (Or.inl htk)
        · exfalso
          have hbceq : bc = cs.getD i default := by simpa using heq
          rw [hbceq] at hyc
          exact hleafwl y (by simpa using hyc)
        · refine mem_wildsAux'.mpr (Or.inr ⟨bc, ?_, by rw [hlbl]; simpa using hyc⟩)
          rw [hcs']
          exact List.mem_append.mpr (Or.inr hdp)

/- ### Helpers for the removal induction -/

theorem wildsAux_word_irrel (pre a : List Nat) (w1 w2 wi : Bool)
    (cs : List (Nat × Node)) :
    wildsAux pre (.mk a w1 wi cs) = wildsAux pre (.mk a w2 wi cs) := by
  rw [wildsAux, wildsAux]

theorem removeAt_fields : ∀ (π : List Nat) (x : Node),
    (removeAt x π).label = x.label ∧ (removeAt x π).word = x.word ∧
    (removeAt x π).wild = x.wild := by
  intro π x
  match π with
  | [] =>
    simp [removeAt]
  | [i1] =>
    simp only [removeAt]
    split
    · exact ⟨rfl, rfl, rfl⟩
    · split
      · exact ⟨rfl, rfl, rfl⟩
      · exact ⟨rfl, rfl, rfl⟩
  | [i1, i2] =>
    simp only [removeAt]
    split
    · split
      · exact ⟨rfl, rfl, rfl⟩
      · exact ⟨rfl, rfl, rfl⟩
    · exact ⟨rfl, rfl, rfl⟩
  | i :: i2 :: i3 :: rest =>
    simp [removeAt, Node.setChild]

/-- Clearing the word flag of a word node removes exactly its own key
from its word set. -/
theorem wordsAux_unword {n : Node} (hwd : n.word = true) :
    ∀ y, y ∈ wordsAux [] (.mk n.label false n.wild n.children) ↔
      (y ∈ wordsAux [] n ∧ y ≠ n.label) := by
  intro y
  have hlong : ∀ bc ∈ n.children, y ∈ wordsAux ([] ++ n.label ++ [bc.1]) bc.2 →
      y ≠ n.label := by
    intro bc _ hy heq
    have hst := stem_of_mem_wordsAux bc.2 ([] ++ n.label ++ [bc.1]) y hy
    have hlen := stem_length hst
    rw [heq] at hlen
    simp at hlen
  constructor
  · intro hy
    rcases mem_wordsAux'.mp hy with ⟨hw1, _⟩ | ⟨bc, hbc, hyc⟩
    · simp at hw1
    · refine ⟨mem_wordsAux'.mpr (Or.inr ⟨bc, by simpa using hbc, by simpa using hyc⟩), ?_⟩
      exact hlong bc (by simpa using hbc) (by simpa using hyc)
  · rintro ⟨hy, hne⟩
    rcases mem_wordsAux'.mp hy with ⟨_, hy1⟩ | ⟨bc, hbc, hyc⟩
    · exact absurd (by simpa using hy1) hne
    · exact mem_wordsAux'.mpr (Or.inr ⟨bc, by simpa using hbc, by simpa using hyc⟩)

/-- Transfer a words-minus characterization along a prefix shift. -/
theorem shift_minus {c' c : Node} {krel : List Nat}
    (h : ∀ y, y ∈ wordsAux [] c' ↔ (y ∈ wordsAux [] c ∧ y ≠ krel)) :
    ∀ (pre y : List Nat), y ∈ wordsAux pre c' ↔
      (y ∈ wordsAux pre c ∧ y ≠ pre ++ krel) := by
  intro pre y
  rw [wordsAux_shift c' pre, wordsAux_shift c pre]
  simp only [List.mem_map]
  constructor
  · rintro ⟨s, hs, rfl⟩
    obtain ⟨h1, h2⟩ := (h s).mp hs
    exact ⟨⟨s, h1, rfl⟩, fun he => h2 (List.append_cancel_left he)⟩
  · rintro ⟨⟨s, hs, rfl⟩, hne⟩
    exact ⟨s, (h s).mpr ⟨hs, fun he => hne (by rw [he])⟩, rfl⟩

/-- Transfer a wilds-equality characterization along a prefix shift. -/
theorem shift_eq {c' c : Node}
    (h : ∀ y, y ∈ wildsAux [] c' ↔ y ∈ wildsAux [] c) :
    ∀ (pre y : List Nat), y ∈ wildsAux pre c' ↔ y ∈ wildsAux pre c := by
  intro pre y
  rw [wildsAux_shift c' pre, wildsAux_shift c pre]
  simp only [List.mem_map]
  constructor
  · rintro ⟨s, hs, rfl⟩
    exact ⟨s, (h s).mp hs, rfl⟩
  · rintro ⟨s, hs, rfl⟩
    exact ⟨s, (h s).mpr hs, rfl⟩

/-- Lift a removal-effect bundle for a replacement of child `i` through
the parent node. -/
theorem remove_lift {l : List Nat} {wo wi : Bool} {cs : List (Nat × Node)}
    {i : Nat} (hi : i < cs.length) {c' : Node} {krel : List Nat} {base : Nat}
    (hs : sortedNode (.mk l wo wi cs) = true)
    (hww : wildWordNode (.mk l wo wi cs) = true)
    (hsb : strBounded base (.mk l wo wi cs) = true)
    (hl255 : labels255 (.mk l wo wi cs) = true)
    (hcs : sortedNode c' = true)
    (hcww : wildWordNode c' = true)
    (hcsb : strBounded (base + l.length + 1) c' = true)
    (hcl : labels255 c' = true)
    (hcw : ∀ y, y ∈ wordsAux [] c' ↔
      (y ∈ wordsAux [] (cs.getD i default).2 ∧ y ≠ krel))
    (hcwl : ∀ y, y ∈ wildsAux [] c' ↔ y ∈ wildsAux [] (cs.getD i default).2) :
    sortedNode ((Node.mk l wo wi cs).setChild i c') = true ∧
    wildWordNode ((Node.mk l wo wi cs).setChild i c') = true ∧
    strBounded base ((Node.mk l wo wi cs).setChild i c') = true ∧
    labels255 ((Node.mk l wo wi cs).setChild i c') = true ∧
    (∀ y, y ∈ wordsAux [] ((Node.mk l wo wi cs).setChild i c') ↔
      (y ∈ wordsAux [] (.mk l wo wi cs) ∧
       y ≠ l ++ (cs.getD i default).1 :: krel)) ∧
    (∀ y, y ∈ wildsAux [] ((Node.mk l wo wi cs).setChild i c') ↔
      y ∈ wildsAux [] (.mk l wo wi cs)) := by
  have hi' : i < (Node.mk l wo wi cs).children.length := by simpa using hi
  have hkey : (l ++ [(cs.getD i default).1]) ++ krel =
      l ++ (cs.getD i default).1 :: krel := by simp
  refine ⟨setChild_sorted hi' hs hcs, setChild_wildWord hi' hww hcww,
    setChild_strBounded hi' hsb (by simpa using hcsb),
    setChild_labels255 hi' hl255 hcl, ?_, ?_⟩
  · apply setChild_words_minus hi ((sortedNode_iff' _).mp hs).1 ⟨krel, rfl⟩
    intro y
    rw [shift_minus hcw (l ++ [(cs.getD i default).1]) y, hkey]
  · apply setChild_wilds_eq hi
    intro y
    exact shift_eq hcwl (l ++ [(cs.getD i default).1]) y

/-- Effect of `removeAt` on a one-step path: the resolved node is the
child `i`; its word flag is cleared, and it is merged or unlinked as its
child count dictates. -/
theorem removeAt_one_spec {l : List Nat} {wo wi : Bool}
    {cs : List (Nat × Node)} {i : Nat} {base : Nat}
    (hs : sortedNode (.mk l wo wi cs) = true)
    (hww : wildWordNode (.mk l wo wi cs) = true)
    (hsb : strBounded base (.mk l wo wi cs) = true)
    (hl255 : labels255 (.mk l wo wi cs) = true)
    (hi : i < cs.length)
    (hword : (cs.getD i default).2.word = true)
    (hwild : (cs.getD i default).2.wild = false) :
    sortedNode (removeAt (.mk l wo wi cs) [i]) = true ∧
    wildWordNode (removeAt (.mk l wo wi cs) [i]) = true ∧
    strBounded base (removeAt (.mk l wo wi cs) [i]) = true ∧
    labels255 (removeAt (.mk l wo wi cs) [i]) = true ∧
    (∀ y, y ∈ wordsAux [] (removeAt (.mk l wo wi cs) [i]) ↔
      (y ∈ wordsAux [] (.mk l wo wi cs) ∧
       y ≠ l ++ (cs.getD i default).1 :: (cs.getD i default).2.label)) ∧
    (∀ y, y ∈ wildsAux [] (removeAt (.mk l wo wi cs) [i]) ↔
      y ∈ wildsAux [] (.mk l wo wi cs)) := by
  have hpw : List.Pairwise (· < ·) (cs.map Prod.fst) := by
    simpa using ((sortedNode_iff' _).mp hs).1
  have hmem : cs.getD i default ∈ cs := getD_mem hi
  have hcsort : sortedNode (cs.getD i default).2 = true :=
    ((sortedNode_iff' _).mp hs).2 _ (by simpa using hmem)
  have hcww : wildWordNode (cs.getD i default).2 = true :=
    ((wildWordNode_iff' _).mp hww).2 _ (by simpa using hmem)
  have hcsb : strBounded (base + l.length + 1) (cs.getD i default).2 = true := by
    have := ((strBounded_iff' _ _).mp hsb).2 _ (by simpa using hmem)
    simpa using this
  have hcl : labels255 (cs.getD i default).2 = true :=
    ((labels255_iff' _).mp hl255).2 _ (by simpa using hmem)
  by_cases h1 : (cs.getD i default).2.children.length > 1
  · have hre : removeAt (.mk l wo wi cs) [i] = (Node.mk l wo wi cs).setChild i
        (.mk (cs.getD i default).2.label false (cs.getD i default).2.wild
          (cs.getD i default).2.children) := by
      simp only [removeAt, Node.children_mk]
      rw [if_pos h1]
    rw [hre]
    apply remove_lift hi hs hww hsb hl255
    · exact (sortedNode_iff' _).mpr ⟨by simpa using ((sortedNode_iff' _).mp hcsort).1,
        by simpa using ((sortedNode_iff' _).mp hcsort).2⟩
    · refine (wildWordNode_iff' _).mpr ⟨?_, by simpa using ((wildWordNode_iff' _).mp hcww).2⟩
      intro h
      rw [Node.wild_mk, hwild] at h
      simp at h
    · exact (strBounded_iff' _ _).mpr ⟨by simpa using ((strBounded_iff' _ _).mp hcsb).1,
        by simpa using ((strBounded_iff' _ _).mp hcsb).2⟩
    · exact (labels255_iff' _).mpr ⟨by simpa using ((labels255_iff' _).mp hcl).1,
        by simpa using ((labels255_iff' _).mp hcl).2⟩
    · exact wordsAux_unword hword
    · intro y
      rw [wildsAux_word_irrel [] (cs.getD i default).2.label false
        (cs.getD i default).2.word (cs.getD i default).2.wild
        (cs.getD i default).2.children, Node.eta]
  · by_cases h2 : (cs.getD i default).2.children.length = 1
    · obtain ⟨⟨b2, c2⟩, hxc⟩ := List.length_eq_one.mp h2
      have hmem2 : (b2, c2) ∈ (cs.getD i default).2.children := by
        rw [hxc]; exact List.mem_singleton.mpr rfl
      have hc2sort : sortedNode c2 = true :=
        ((sortedNode_iff' _).mp hcsort).2 _ hmem2
      have hc2ww : wildWordNode c2 = true :=
        ((wildWordNode_iff' _).mp hcww).2 _ hmem2
      have hc2sb : strBounded (base + l.length + 1 +
          (cs.getD i default).2.label.length + 1) c2 = true :=
        ((strBounded_iff' _ _).mp hcsb).2 _ hmem2
      have hc2l : labels255 c2 = true :=
        ((labels255_iff' _).mp hcl).2 _ hmem2
      have hlen : (cs.getD i default).2.label.length + 1 + c2.label.length ≤ 255 := by
        have := ((strBounded_iff' _ _).mp hc2sb).1
        omega
      have hre : removeAt (.mk l wo wi cs) [i] = (Node.mk l wo wi cs).setChild i
          (cut (.mk (cs.getD i default).2.label false (cs.getD i default).2.wild
            (cs.getD i default).2.children)) := by
        simp only [removeAt, Node.children_mk]
        rw [if_neg h1, if_pos h2]
      have hcut : cut (.mk (cs.getD i default).2.label false
          (cs.getD i default).2.wild (cs.getD i default).2.children) =
          .mk ((cs.getD i default).2.label ++ b2 :: c2.label) c2.word c2.wild
            c2.children := by
        rw [hxc]
        exact cut_eq hlen
      rw [hre]
      apply remove_lift hi hs hww hsb hl255
      · rw [hcut]
        exact (sortedNode_iff' _).mpr ⟨by simpa using ((sortedNode_iff' _).mp hc2sort).1,
          by simpa using ((sortedNode_iff' _).mp hc2sort).2⟩
      · rw [hcut]
        refine (wildWordNode_iff' _).mpr ⟨?_,
          by simpa using ((wildWordNode_iff' _).mp hc2ww).2⟩
        intro h
        simpa using ((wildWordNode_iff' _).mp hc2ww).1 (by simpa using h)
      · rw [hcut]
        refine (strBounded_iff' _ _).mpr ⟨?_, ?_⟩
        · have := ((strBounded_iff' _ _).mp hc2sb).1
          simp only [Node.label_mk, List.length_append, List.length_cons]
          omega
        · intro bc hbc
          have hb := ((strBounded_iff' _ _).mp hc2sb).2 bc (by simpa using hbc)
          have harith : base + l.length + 1 + (cs.getD i default).2.label.length + 1 +
              c2.label.length + 1 = base + l.length + 1 +
              (Node.mk ((cs.getD i default).2.label ++ b2 :: c2.label) c2.word c2.wild
                c2.children).label.length + 1 := by
            simp only [Node.label_mk, List.length_append, List.length_cons]
            omega
          exact harith ▸ hb
      · rw [hcut]
        refine (labels255_iff' _).mpr ⟨?_, by simpa using ((labels255_iff' _).mp hc2l).2⟩
        simp only [Node.label_mk, List.length_append, List.length_cons]
        omega
      · intro y
        rw [show cut (.mk (cs.getD i default).2.label false
            (cs.getD i default).2.wild (cs.getD i default).2.children) =
            cut (.mk (cs.getD i default).2.label false
            (cs.getD i default).2.wild [(b2, c2)]) from by rw [hxc]]
        rw [cut_words hlen rfl []]
        rw [show (Node.mk (cs.getD i default).2.label false
            (cs.getD i default).2.wild [(b2, c2)]) =
            (Node.mk (cs.getD i default).2.label false
            (cs.getD i default).2.wild (cs.getD i default).2.children) from by rw [hxc]]
        exact wordsAux_unword hword y
      · intro y
        rw [show cut (.mk (cs.getD i default).2.label false
            (cs.getD i default).2.wild (cs.getD i default).2.children) =
            cut (.mk (cs.getD i default).2.label false
            (cs.getD i default).2.wild [(b2, c2)]) from by rw [hxc]]
        rw [cut_wilds hlen hwild []]
        rw [show (Node.mk (cs.getD i default).2.label false
            (cs.getD i default).2.wild [(b2, c2)]) =
            (Node.mk (cs.getD i default).2.label false
            (cs.getD i default).2.wild (cs.getD i default).2.children) from by rw [hxc]]
        rw [wildsAux_word_irrel [] (cs.getD i default).2.label false
          (cs.getD i default).2.word (cs.getD i default).2.wild
          (cs.getD i default).2.children, Node.eta]
    · have h0 : (cs.getD i default).2.children = [] := by
        rw [← List.length_eq_zero]
        omega
      have hre : removeAt (.mk l wo wi cs) [i] =
          (Node.mk l wo wi cs).removeChild i := by
        simp only [removeAt, Node.children_mk]
        rw [if_neg h1, if_neg h2]
      obtain ⟨hwres, hwlres⟩ := removeChild_words_minus hi hpw h0 hword hwild
      rw [hre]
      exact ⟨removeChild_sorted hs, removeChild_wildWord hww,
        removeChild_strBounded hsb, removeChild_labels255 hl255, hwres, hwlres⟩

/-- Effect of `removeAt` on a two-step path to a leaf: the leaf is
unlinked from its parent, and the parent is merged into its only
remaining child when it ceases to be a word node (the cascading cut). -/
theorem removeAt_two_leaf_spec {l : List Nat} {wo wi : Bool}
    {cs : List (Nat × Node)} {i i2 : Nat} {base : Nat}
    (hs : sortedNode (.mk l wo wi cs) = true)
    (hww : wildWordNode (.mk l wo wi cs) = true)
    (hsb : strBounded base (.mk l wo wi cs) = true)
    (hl255 : labels255 (.mk l wo wi cs) = true)
    (hi : i < cs.length)
    (hi2 : i2 < (cs.getD i default).2.children.length)
    (hn0 : ((cs.getD i default).2.children.getD i2 default).2.children = [])
    (hword : ((cs.getD i default).2.children.getD i2 default).2.word = true)
    (hwild : ((cs.getD i default).2.children.getD i2 default).2.wild = false) :
    sortedNode (removeAt (.mk l wo wi cs) [i, i2]) = true ∧
    wildWordNode (removeAt (.mk l wo wi cs) [i, i2]) = true ∧
    strBounded base (removeAt (.mk l wo wi cs) [i, i2]) = true ∧
    labels255 (removeAt (.mk l wo wi cs) [i, i2]) = true ∧
    (∀ y, y ∈ wordsAux [] (removeAt (.mk l wo wi cs) [i, i2]) ↔
      (y ∈ wordsAux [] (.mk l wo wi cs) ∧
       y ≠ l ++ (cs.getD i default).1 ::
         ((cs.getD i default).2.label ++
          ((cs.getD i default).2.children.getD i2 default).1 ::
          ((cs.getD i default).2.children.getD i2 default).2.label))) ∧
    (∀ y, y ∈ wildsAux [] (removeAt (.mk l wo wi cs) [i, i2]) ↔
      y ∈ wildsAux [] (.mk l wo wi cs)) := by
  have hmem : cs.getD i default ∈ cs := getD_mem hi
  have hpsort : sortedNode (cs.getD i default).2 = true :=
    ((sortedNode_iff' _).mp hs).2 _ (by simpa using hmem)
  have hpww : wildWordNode (cs.getD i default).2 = true :=
    ((wildWordNode_iff' _).mp hww).2 _ (by simpa using hmem)
  have hpsb : strBounded (base + l.length + 1) (cs.getD i default).2 = true := by
    have := ((strBounded_iff' _ _).mp hsb).2 _ (by simpa using hmem)
    simpa using this
  have hpl : labels255 (cs.getD i default).2 = true :=
    ((labels255_iff' _).mp hl255).2 _ (by simpa using hmem)
  have hppw : List.Pairwise (· < ·) ((cs.getD i default).2.children.map Prod.fst) :=
    ((sortedNode_iff' _).mp hpsort).1
  have hrm := @removeChild_words_minus (cs.getD i default).2.label
    (cs.getD i default).2.word (cs.getD i default).2.wild
    (cs.getD i default).2.children i2 hi2 hppw hn0 hword hwild
  rw [Node.eta] at hrm
  obtain ⟨hp'w, hp'wl⟩ := hrm
  have hp'sort : sortedNode ((cs.getD i default).2.removeChild i2) = true :=
    removeChild_sorted hpsort
  have hp'ww : wildWordNode ((cs.getD i default).2.removeChild i2) = true :=
    removeChild_wildWord hpww
  have hp'sb : strBounded (base + l.length + 1)
      ((cs.getD i default).2.removeChild i2) = true :=
    removeChild_strBounded hpsb
  have hp'l : labels255 ((cs.getD i default).2.removeChild i2) = true :=
    removeChild_labels255 hpl
  have hre0 : removeAt (.mk l wo wi cs) [i, i2] =
      (if (decide (((cs.getD i default).2.removeChild i2).children.length = 1) &&
           !((cs.getD i default).2.removeChild i2).word) = true then
        (Node.mk l wo wi cs).setChild i (cut ((cs.getD i default).2.removeChild i2))
      else
        (Node.mk l wo wi cs).setChild i ((cs.getD i default).2.removeChild i2)) := by
    simp only [removeAt, Node.children_mk]
    rw [if_pos (show ((cs.getD i default).2.children.getD i2 default).2.children.length
      = 0 from by rw [hn0]; rfl)]
  rw [hre0]
  split
  · next hca =>
    simp only [Bool.and_eq_true, decide_eq_true_eq, Bool.not_eq_eq_eq_not,
      Bool.not_true] at hca
    obtain ⟨hca1, hca2⟩ := hca
    have hw0 : ((cs.getD i default).2.removeChild i2).word = false := hca2
    have hwl0 : ((cs.getD i default).2.removeChild i2).wild = false := by
      have h1 : ((cs.getD i default).2.removeChild i2).wild =
          (cs.getD i default).2.wild := rfl
      have h2 : ((cs.getD i default).2.removeChild i2).word =
          (cs.getD i default).2.word := rfl
      rw [h1]
      rcases Bool.eq_false_or_eq_true ((cs.getD i default).2.wild) with h | h
      · exfalso
        have := ((wildWordNode_iff' _).mp hpww).1 h
        rw [h2] at hw0
        rw [this] at hw0
        simp at hw0
      · exact h
    obtain ⟨⟨b3, c3⟩, hch3⟩ := List.length_eq_one.mp hca1
    have hmem3 : (b3, c3) ∈ (cs.getD i default).2.children := by
      apply List.mem_of_mem_eraseIdx (i := i2)
      show (b3, c3) ∈ ((cs.getD i default).2.removeChild i2).children
      rw [hch3]
      exact List.mem_singleton.mpr rfl
    have hc3sort : sortedNode c3 = true := ((sortedNode_iff' _).mp hpsort).2 _ hmem3
    have hc3ww : wildWordNode c3 = true := ((wildWordNode_iff' _).mp hpww).2 _ hmem3
    have hc3sb : strBounded (base + l.length + 1 +
        (cs.getD i default).2.label.length + 1) c3 = true :=
      ((strBounded_iff' _ _).mp hpsb).2 _ hmem3
    have hc3l : labels255 c3 = true := ((labels255_iff' _).mp hpl).2 _ hmem3
    have hlen3 : (cs.getD i default).2.label.length + 1 + c3.label.length ≤ 255 := by
      have := ((strBounded_iff' _ _).mp hc3sb).1
      omega
    have hlbl0 : ((cs.getD i default).2.removeChild i2).label =
        (cs.getD i default).2.label := rfl
    have heta := Node.eta ((cs.getD i default).2.removeChild i2)
    rw [hw0, hwl0, hch3, hlbl0] at heta
    have hcut : cut ((cs.getD i default).2.removeChild i2) =
        .mk ((cs.getD i default).2.label ++ b3 :: c3.label) c3.word c3.wild
          c3.children := by
      rw [← heta]
      exact cut_eq hlen3
    apply remove_lift hi hs hww hsb hl255
    · rw [hcut]
      exact (sortedNode_iff' _).mpr ⟨by simpa using ((sortedNode_iff' _).mp hc3sort).1,
        by simpa using ((sortedNode_iff' _).mp hc3sort).2⟩
    · rw [hcut]
      refine (wildWordNode_iff' _).mpr ⟨?_,
        by simpa using ((wildWordNode_iff' _).mp hc3ww).2⟩
      intro h
      simpa using ((wildWordNode_iff' _).mp hc3ww).1 (by simpa using h)
    · rw [hcut]
      refine (strBounded_iff' _ _).mpr ⟨?_, ?_⟩
      · have := ((strBounded_iff' _ _).mp hc3sb).1
        simp only [Node.label_mk, List.length_append, List.length_cons]
        omega
      · intro bc hbc
        have hb := ((strBounded_iff' _ _).mp hc3sb).2 bc (by simpa using hbc)
        have harith : base + l.length + 1 + (cs.getD i default).2.label.length + 1 +
            c3.label.length + 1 = base + l.length + 1 +
            (Node.mk ((cs.getD i default).2.label ++ b3 :: c3.label) c3.word c3.wild
              c3.children).label.length + 1 := by
          simp only [Node.label_mk, List.length_append, List.length_cons]
          omega
        exact harith ▸ hb
    · rw [hcut]
      refine (labels255_iff' _).mpr ⟨?_, by simpa using ((labels255_iff' _).mp hc3l).2⟩
      simp only [Node.label_mk, List.length_append, List.length_cons]
      omega
    · intro y
      rw [show cut ((cs.getD i default).2.removeChild i2) =
          cut (.mk (cs.getD i default).2.label false false [(b3, c3)]) from by
        rw [heta]]
      rw [cut_words hlen3 rfl []]
      rw [show (Node.mk (cs.getD i default).2.label false false [(b3, c3)]) =
          (cs.getD i default).2.removeChild i2 from heta]
      exact hp'w y
    · intro y
      rw [show cut ((cs.getD i default).2.removeChild i2) =
          cut (.mk (cs.getD i default).2.label false false [(b3, c3)]) from by
        rw [heta]]
      rw [cut_wilds hlen3 rfl []]
      rw [show (Node.mk (cs.getD i default).2.label false false [(b3, c3)]) =
          (cs.getD i default).2.removeChild i2 from heta]
      exact hp'wl y
  · next hca =>
    exact remove_lift hi hs hww hsb hl255 hp'sort hp'ww hp'sb hp'l hp'w hp'wl

/-- Effect of `ctrie_remove`'s surgery along a resolved path: under the
structural invariants, when the path leads to a non-wild word node, the
surgery removes exactly that key from the word set, keeps the wild set,
and preserves the invariants. -/
theorem removeAt_spec : ∀ (π : List Nat) (x : Node) (k : List Nat) (base : Nat),
    sortedNode x = true → wildWordNode x = true → strBounded base x = true →
    labels255 x = true → π ≠ [] → pathKey x π = some k →
    (nodeAt x π).word = true → (nodeAt x π).wild = false →
    sortedNode (removeAt x π) = true ∧
    wildWordNode (removeAt x π) = true ∧
    strBounded base (removeAt x π) = true ∧
    labels255 (removeAt x π) = true ∧
    (∀ y, y ∈ wordsAux [] (removeAt x π) ↔ (y ∈ wordsAux [] x ∧ y ≠ k)) ∧
    (∀ y, y ∈ wildsAux [] (removeAt x π) ↔ y ∈ wildsAux [] x) := by
  intro π
  induction π with
  | nil => intro x k base _ _ _ _ hne _ _ _; exact absurd rfl hne
  | cons i rest ih =>
    intro x k base hs hww hsb hl255 _ hpk hword hwild
    obtain ⟨l, wo, wi, cs⟩ := x
    simp only [pathKey] at hpk
    by_cases hi : i < (Node.mk l wo wi cs).children.length
    case neg =>
      rw [if_neg hi] at hpk
      exact absurd hpk (by simp)
    rw [if_pos hi] at hpk
    obtain ⟨s, hps, hks⟩ := Option.map_eq_some'.mp hpk
    simp only [Node.children_mk, Node.label_mk] at hps hks
    simp only [nodeAt, Node.children_mk] at hword hwild
    have hi' : i < cs.length := by simpa using hi
    have hmem : cs.getD i default ∈ cs := getD_mem hi'
    have hcsort : sortedNode (cs.getD i default).2 = true :=
      ((sortedNode_iff' _).mp hs).2 _ (by simpa using hmem)
    have hcww : wildWordNode (cs.getD i default).2 = true :=
      ((wildWordNode_iff' _).mp hww).2 _ (by simpa using hmem)
    have hcsb : strBounded (base + l.length + 1) (cs.getD i default).2 = true := by
      have := ((strBounded_iff' _ _).mp hsb).2 _ (by simpa using hmem)
      simpa using this
    have hcl : labels255 (cs.getD i default).2 = true :=
      ((labels255_iff' _).mp hl255).2 _ (by simpa using hmem)
    match rest, hps, hword, hwild, ih with
    | [], hps, hword, hwild, _ =>
      simp only [pathKey, Option.some_inj] at hps
      simp only [nodeAt] at hword hwild
      subst hps
      rw [← hks]
      exact removeAt_one_spec hs hww hsb hl255 hi' hword hwild
    | [i2], hps, hword, hwild, ih =>
      simp only [pathKey] at hps
      by_cases hi2 : i2 < (cs.getD i default).2.children.length
      case neg =>
        rw [if_neg hi2] at hps
        exact absurd hps (by simp)
      rw [if_pos hi2] at hps
      obtain ⟨s2, hps2, hks2⟩ := Option.map_eq_some'.mp hps
      simp only [pathKey, Option.some_inj] at hps2
      subst hps2
      simp only [nodeAt] at hword hwild
      by_cases hn0 : ((cs.getD i default).2.children.getD i2 default).2.children = []
      · rw [← hks, ← hks2]
        exact removeAt_two_leaf_spec hs hww hsb hl255 hi' hi2 hn0 hword hwild
      · have hre : removeAt (.mk l wo wi cs) [i, i2] =
            (Node.mk l wo wi cs).setChild i (removeAt (cs.getD i default).2 [i2]) := by
          simp only [removeAt, Node.children_mk]
          rw [if_neg (by simpa using fun h => hn0 (List.length_eq_zero.mp h))]
        have hbundle := ih (cs.getD i default).2 s (base + l.length + 1)
          hcsort hcww hcsb hcl (by simp)
          (by
            simp only [pathKey]
            rw [if_pos hi2]
            simpa using hks2)
          (by simpa [nodeAt] using hword)
          (by simpa [nodeAt] using hwild)
        obtain ⟨hb1, hb2, hb3, hb4, hb5, hb6⟩ := hbundle
        rw [hre, ← hks]
        exact remove_lift hi' hs hww hsb hl255 hb1 hb2 hb3 hb4 hb5 hb6
    | i2 :: i3 :: rest3, hps, hword, hwild, ih =>
      have hre : removeAt (.mk l wo wi cs) (i :: i2 :: i3 :: rest3) =
          (Node.mk l wo wi cs).setChild i
            (removeAt (cs.getD i default).2 (i2 :: i3 :: rest3)) := by
        simp only [removeAt, Node.children_mk]
      have hbundle := ih (cs.getD i default).2 s (base + l.length + 1)
        hcsort hcww hcsb hcl (by simp) hps hword hwild
      obtain ⟨hb1, hb2, hb3, hb4, hb5, hb6⟩ := hbundle
      rw [hre, ← hks]
      exact remove_lift hi' hs hww hsb hl255 hb1 hb2 hb3 hb4 hb5 hb6

/-- A path to a wild-flagged node witnesses wild-set membership. -/
theorem pathMemWild : ∀ (π : List Nat) (n : Node) (k : List Nat),
    pathKey n π = some k → (nodeAt n π).wild = true → k ∈ wildsAux [] n := by
  intro π
  induction π with
  | nil =>
    intro n k hp hw
    simp only [pathKey, Option.some_inj] at hp
    simp only [nodeAt] at hw
    exact mem_wildsAux'.mpr (Or.inl ⟨hw, by rw [← hp]; simp⟩)
  | cons i rest ih =>
    intro n k hp hw
    simp only [pathKey] at hp
    by_cases hi : i < n.children.length
    case neg =>
      rw [if_neg hi] at hp
      exact absurd hp (by simp)
    rw [if_pos hi] at hp
    obtain ⟨s, hps, hks⟩ := Option.map_eq_some'.mp hp
    simp only [nodeAt] at hw
    have hmem := ih (n.children.getD i default).2 s hps hw
    refine mem_wildsAux'.mpr (Or.inr ⟨n.children.getD i default, getD_mem hi, ?_⟩)
    rw [wildsAux_shift _ ([] ++ n.label ++ [(n.children.getD i default).1])]
    refine List.mem_map.mpr ⟨s, hmem, ?_⟩
    rw [← hks]
    simp

/-- The top-level surgery of `ctrie_remove` factors through the real
root: the fake root's only child is replaced by the recursive result,
provided the root is a word node (so the cascading cut never fires on
the fake root's child). -/
theorem Trie.root_eq (t : Trie) : (t.fake_root.children.getD 0 default).2 = t.root :=
  rfl

theorem remove_root_eq (t : Trie) (hrw : t.root.word = true) :
    ∀ (π : List Nat), π ≠ [] →
    removeAt t.fake_root (0 :: π) = t.fake_root.setChild 0 (removeAt t.root π) := by
  intro π hne
  match π with
  | [i2] =>
    by_cases hn0 : ((t.root.children.getD i2 default).2.children).length = 0
    · have hl : removeAt t.fake_root [0, i2] =
          t.fake_root.setChild 0 (t.root.removeChild i2) := by
        simp only [removeAt]
        rw [Trie.root_eq]
        rw [if_pos hn0]
        rw [if_neg (by
          intro h
          have h2 : (t.root.removeChild i2).word = true := hrw
          simp [h2] at h)]
      have hr : removeAt t.root [i2] = t.root.removeChild i2 := by
        simp only [removeAt]
        rw [if_neg (by omega), if_neg (by omega)]
      rw [hl, hr]
    · have hl : removeAt t.fake_root [0, i2] =
          t.fake_root.setChild 0 (removeAt t.root [i2]) := by
        simp only [removeAt]
        rw [Trie.root_eq]
        rw [if_neg hn0]
      exact hl
  | i2 :: i3 :: rest3 =>
    simp only [removeAt]
    rw [Trie.root_eq]

/-- Full effect of `ctrie_remove` on a registered, non-wild, nonempty
key: returns 0, removes exactly that key from the word set, keeps the
wild set, and preserves the trie-level invariants. -/
theorem ctrie_remove_spec {t : Trie} {k : List Nat}
    (hfr : t.fake_root.children.length = 1)
    (hrl : t.root.label = []) (hrw : t.root.word = true)
    (hs : sortedNode t.root = true) (hww : wildWordNode t.root = true)
    (hsb : strBounded 0 t.root = true) (hl255 : labels255 t.root = true)
    (hk : k ∈ wordsOf t) (hkne : k ≠ []) (hkwild : k ∉ wildsOf t) :
    (ctrie_remove t k).1 = 0 ∧
    (ctrie_remove t k).2.fake_root.children.length = 1 ∧
    (ctrie_remove t k).2.root.label = [] ∧
    (ctrie_remove t k).2.root.word = true ∧
    (ctrie_remove t k).2.root.wild = t.root.wild ∧
    sortedNode (ctrie_remove t k).2.root = true ∧
    wildWordNode (ctrie_remove t k).2.root = true ∧
    strBounded 0 (ctrie_remove t k).2.root = true ∧
    labels255 (ctrie_remove t k).2.root = true ∧
    (∀ y, y ∈ wordsOf (ctrie_remove t k).2 ↔ (y ∈ wordsOf t ∧ y ≠ k)) ∧
    (∀ y, y ∈ wildsOf (ctrie_remove t k).2 ↔ y ∈ wildsOf t) := by
  obtain ⟨π₀, hpk, hwd⟩ := memPath t.root k hs hk
  have hwild0 : (nodeAt t.root π₀).wild = false := by
    rcases Bool.eq_false_or_eq_true ((nodeAt t.root π₀).wild) with h | h
    · exact absurd (pathMemWild π₀ t.root k hpk h) hkwild
    · exact h
  have hπ₀ne : π₀ ≠ [] := by
    intro h
    rw [h] at hpk
    simp only [pathKey, Option.some_inj] at hpk
    rw [hrl] at hpk
    exact hkne hpk.symm
  have hfind : find3Go t.root k [] none = some π₀ := findPath π₀ t.root k hs hpk hwd
  have hres : resolve t k = some (0 :: π₀) := by
    show find3Go t.root k [0] none = _
    rw [find3Go_start hfind [0] none]
    rfl
  have hrem : ctrie_remove t k = (0, ⟨removeAt t.fake_root (0 :: π₀)⟩) := by
    unfold ctrie_remove
    rw [hres]
  obtain ⟨hb1, hb2, hb3, hb4, hb5, hb6⟩ :=
    removeAt_spec π₀ t.root k 0 hs hww hsb hl255 hπ₀ne hpk hwd hwild0
  have hroot' : (Trie.mk (removeAt t.fake_root (0 :: π₀))).root = removeAt t.root π₀ := by
    show ((removeAt t.fake_root (0 :: π₀)).children.getD 0 default).2 = _
    rw [remove_root_eq t hrw π₀ hπ₀ne]
    show (((t.fake_root.children.set 0 _)).getD 0 default).2 = _
    rw [getD_set_self (by omega)]
  have hfr' : (Trie.mk (removeAt t.fake_root (0 :: π₀))).fake_root.children.length = 1 := by
    show (removeAt t.fake_root (0 :: π₀)).children.length = 1
    rw [remove_root_eq t hrw π₀ hπ₀ne]
    show (t.fake_root.children.set 0 _).length = 1
    rw [List.length_set]
    exact hfr
  obtain ⟨hf1, hf2, hf3⟩ := removeAt_fields π₀ t.root
  rw [hrem]
  refine ⟨rfl, hfr', ?_, ?_, ?_, ?_, ?_, ?_, ?_, ?_, ?_⟩
  · show (Trie.mk (removeAt t.fake_root (0 :: π₀))).root.label = []
    rw [hroot', hf1, hrl]
  · show (Trie.mk (removeAt t.fake_root (0 :: π₀))).root.word = true
    rw [hroot', hf2, hrw]
  · show (Trie.mk (removeAt t.fake_root (0 :: π₀))).root.wild = t.root.wild
    rw [hroot', hf3]
  · show sortedNode (Trie.mk (removeAt t.fake_root (0 :: π₀))).root = true
    rw [hroot']
    exact hb1
  · show wildWordNode (Trie.mk (removeAt t.fake_root (0 :: π₀))).root = true
    rw [hroot']
    exact hb2
  · show strBounded 0 (Trie.mk (removeAt t.fake_root (0 :: π₀))).root = true
    rw [hroot']
    exact hb3
  · show labels255 (Trie.mk (removeAt t.fake_root (0 :: π₀))).root = true
    rw [hroot']
    exact hb4
  · intro y
    show y ∈ wordsAux [] (Trie.mk (removeAt t.fake_root (0 :: π₀))).root ↔ _
    rw [hroot']
    exact hb5 y
  · intro y
    show y ∈ wildsAux [] (Trie.mk (removeAt t.fake_root (0 :: π₀))).root ↔ _
    rw [hroot']
    exact hb6 y

/- ### Insert: root shape, trie-level reduction, and length bounds -/

theorem set_label_length (l : List Nat) : (set_label l).length ≤ l.length := by
  unfold set_label
  rw [List.length_take]
  exact Nat.min_le_right _ _

/-- `insertGo` keeps the root's empty label and its word flag. -/
theorem insertGo_root_shape {n : Node} (hl : n.label = []) (hw : n.word = true)
    (krem : List Nat) (wc : Bool) :
    (insertGo n krem wc).1.label = [] ∧ (insertGo n krem wc).1.word = true := by
  have hj : ¬ matchLen n.label krem < n.label.length := by
    rw [hl]
    simp
  cases hd : krem.drop (matchLen n.label krem) with
  | nil =>
    rw [insertGo_flags hj hd]
    exact ⟨hl, rfl⟩
  | cons b rest =>
    cases hcl : child_lookup n b with
    | some i =>
      rw [insertGo_descend hj hd hcl]
      exact ⟨hl, hw⟩
    | none =>
      rw [insertGo_extend hj hd hcl]
      exact ⟨hl, hw⟩

/-- `ctrie_insert` works inside the fake root's only child. -/
theorem ctrie_insert_root {t : Trie} (hfr : t.fake_root.children.length = 1)
    (k : List Nat) (wc : Bool) :
    (ctrie_insert t k wc).1.root = (insertGo t.root k wc).1 ∧
    (ctrie_insert t k wc).1.fake_root.children.length = 1 ∧
    (ctrie_insert t k wc).2 = 0 :: (insertGo t.root k wc).2 := by
  refine ⟨?_, ?_, rfl⟩
  · show ((t.fake_root.children.set 0
      ((t.fake_root.children.getD 0 default).1, (insertGo t.root k wc).1)).getD 0
        default).2 = _
    rw [getD_set_self (by omega)]
  · show (t.fake_root.children.set 0 _).length = 1
    rw [List.length_set]
    exact hfr

/-- `insertGo` preserves the key-length bound when the inserted key fits
into the remaining budget. -/
theorem insertGo_strB : ∀ (n : Node), sortedNode n = true →
    ∀ (base : Nat) (krem : List Nat) (wc : Bool),
    strBounded base n = true → base + krem.length ≤ 256 →
    strBounded base (insertGo n krem wc).1 = true := by
  intro n
  induction n using Node.indMem with
  | h l wo wi cs ih =>
    intro hs base krem wc hsb hbk
    have hpw : List.Pairwise (· < ·) (cs.map Prod.fst) := by
      have := sortedNode_pairwise hs; simpa using this
    have hl256 : base + l.length ≤ 256 := by
      simpa using ((strBounded_iff' _ _).mp hsb).1
    have hsb2 : ∀ bc ∈ cs, strBounded (base + l.length + 1) bc.2 = true := by
      have := ((strBounded_iff' _ _).mp hsb).2
      simpa using this
    by_cases hj : matchLen l krem < l.length
    · have htk : (set_label (l.take (matchLen l krem))).length = matchLen l krem := by
        rw [set_label_eq (by rw [List.length_take]; omega)]
        rw [List.length_take]
        omega
      have htl : (set_label (l.drop (matchLen l krem + 1))).length =
          l.length - matchLen l krem - 1 := by
        rw [set_label_eq (by rw [List.length_drop]; omega)]
        rw [List.length_drop]
        omega
      have hsubB : strBounded (base + matchLen l krem + 1)
          (.mk (set_label (l.drop (matchLen l krem + 1))) wo wi cs) = true := by
        apply (strBounded_iff' _ _).mpr
        constructor
        · simp only [Node.label_mk]
          rw [htl]
          omega
        · intro bc hbc
          have hb := hsb2 bc (by simpa using hbc)
          have harith : base + l.length + 1 = base + matchLen l krem + 1 +
              (Node.mk (set_label (l.drop (matchLen l krem + 1))) wo wi cs).label.length
              + 1 := by
            simp only [Node.label_mk]
            rw [htl]
            omega
          exact harith ▸ hb
      cases hd : krem.drop (matchLen l krem) with
      | nil =>
        rw [insertGo_split_exact (n := .mk l wo wi cs) (by simpa using hj)
          (by simpa using hd)]
        simp only [Node.label_mk, Node.word_mk, Node.wild_mk, Node.children_mk]
        apply (strBounded_iff' _ _).mpr
        constructor
        · simp only [Node.label_mk]
          rw [htk]
          omega
        · intro bc hbc
          simp only [Node.children_mk, List.mem_singleton] at hbc
          subst hbc
          have harith : base + matchLen l krem + 1 =
              base + (Node.mk (set_label (l.take (matchLen l krem))) true wc
                [(l.getD (matchLen l krem) 0,
                  Node.mk (set_label (l.drop (matchLen l krem + 1))) wo wi cs)]
                ).label.length + 1 := by
            simp only [Node.label_mk]
            rw [htk]
          exact harith ▸ hsubB
      | cons b rest =>
        have hjk : matchLen l krem < krem.length := by
          have h1 : (krem.drop (matchLen l krem)).length =
              krem.length - matchLen l krem := List.length_drop _ _
          rw [hd] at h1
          simp only [List.length_cons] at h1
          omega
        have hrlen : rest.length = krem.length - matchLen l krem - 1 := by
          have h1 : (krem.drop (matchLen l krem)).length =
              krem.length - matchLen l krem := List.length_drop _ _
          rw [hd] at h1
          simp only [List.length_cons] at h1
          omega
        have hbne : l.getD (matchLen l krem) 0 ≠ b := by
          have h1 := matchLen_ne (l := l) (k := krem) hj hjk
          have h2 : krem.getD (matchLen l krem) 0 = b := by
            obtain ⟨j, hjeq⟩ : ∃ j, matchLen l krem = j := ⟨_, rfl⟩
            rw [hjeq] at hd ⊢
            have hjlen : j ≤ krem.length := by omega
            have hkbr : krem = krem.take j ++ b :: rest := by
              conv_lhs => rw [← List.take_append_drop j krem]
              rw [hd]
            rw [hkbr]
            exact getD_append_cons_of (by rw [List.length_take]; omega)
          rw [h2] at h1
          exact h1
        have hsS : List.Pairwise (· < ·)
            (((Node.mk (set_label (l.take (matchLen l krem))) false false
              [(l.getD (matchLen l krem) 0,
                Node.mk (set_label (l.drop (matchLen l krem + 1))) wo wi cs)]) :
                Node).children.map Prod.fst) := by
          simp
        have hclS : child_lookup
            (.mk (set_label (l.take (matchLen l krem))) false false
              [(l.getD (matchLen l krem) 0,
                .mk (set_label (l.drop (matchLen l krem + 1))) wo wi cs)]) b = none := by
          apply child_lookup_eq_none_of
          intro bc hbc
          simp only [Node.children_mk, List.mem_singleton] at hbc
          subst hbc
          exact hbne
        rw [insertGo_split_extend (n := .mk l wo wi cs) (by simpa using hj)
          (by simpa using hd)]
        simp only [Node.label_mk, Node.word_mk, Node.wild_mk, Node.children_mk]
        obtain ⟨hRl, hRw, hRwi, hRmem, hRpair, hRlen, hRgd⟩ :=
          insert_child_spec (.mk (set_label rest) true wc []) hsS hclS
        apply (strBounded_iff' _ _).mpr
        constructor
        · rw [hRl]
          simp only [Node.label_mk]
          rw [htk]
          omega
        · intro bc hbc
          rw [hRl]
          simp only [Node.label_mk]
          rcases (hRmem bc).mp hbc with rfl | hbc2
          · apply (strBounded_iff' _ _).mpr
            constructor
            · simp only [Node.label_mk]
              have := set_label_length rest
              rw [htk]
              omega
            · intro bc2 hbc2
              simp only [Node.children_mk] at hbc2
              exact absurd hbc2 (List.not_mem_nil _)
          · simp only [Node.children_mk, List.mem_singleton] at hbc2
            subst hbc2
            have harith : base + matchLen l krem + 1 =
                base + (set_label (l.take (matchLen l krem))).length + 1 := by
              rw [htk]
            exact harith ▸ hsubB
    · have hjl : matchLen l krem = l.length :=
        Nat.le_antisymm (matchLen_le_left _ _) (Nat.le_of_not_lt hj)
      cases hd : krem.drop (matchLen l krem) with
      | nil =>
        rw [insertGo_flags (n := .mk l wo wi cs) (by simpa using hj)
          (by simpa using hd)]
        apply (strBounded_iff' _ _).mpr
        refine ⟨by simpa using hl256, ?_⟩
        intro bc hbc
        simp only [Node.children_mk] at hbc
        have := hsb2 bc hbc
        simpa using this
      | cons b rest =>
        have hjk : matchLen l krem < krem.length := by
          have h1 : (krem.drop (matchLen l krem)).length =
              krem.length - matchLen l krem := List.length_drop _ _
          rw [hd] at h1
          simp only [List.length_cons] at h1
          omega
        have hrlen : rest.length = krem.length - l.length - 1 := by
          have h1 : (krem.drop (matchLen l krem)).length =
              krem.length - matchLen l krem := List.length_drop _ _
          rw [hd] at h1
          simp only [List.length_cons] at h1
          omega
        cases hcl : child_lookup (.mk l wo wi cs : Node) b with
        | some i =>
          obtain ⟨hilt, _⟩ := child_lookup_some hcl
          have hilt' : i < cs.length := by simpa using hilt
          rw [insertGo_descend (n := .mk l wo wi cs) (by simpa using hj)
            (by simpa using hd) hcl]
          apply (strBounded_iff' _ _).mpr
          refine ⟨by simpa using hl256, ?_⟩
          intro bc hbc
          simp only [Node.label_mk, Node.children_mk] at hbc ⊢
          rw [set_decomp hilt'] at hbc
          rcases List.mem_append.mp hbc with htk2 | hrest2
          · exact hsb2 bc (List.mem_of_mem_take htk2)
          · rcases List.mem_cons.mp hrest2 with rfl | hdp2
            · simp only
              apply ih _ (by simpa using getD_mem hilt')
                (((sortedNode_iff' _).mp hs).2 _ (by simpa using getD_mem hilt'))
              · have := hsb2 _ (getD_mem hilt')
                simpa using this
              · omega
            · exact hsb2 bc (List.mem_of_mem_drop hdp2)
        | none =>
          rw [insertGo_extend (n := .mk l wo wi cs) (by simpa using hj)
            (by simpa using hd) hcl]
          obtain ⟨hRl, hRw, hRwi, hRmem, hRpair, hRlen, hRgd⟩ :=
            insert_child_spec (.mk (set_label rest) true wc [])
              (by simpa using hpw) hcl
          apply (strBounded_iff' _ _).mpr
          constructor
          · rw [hRl]
            simpa using hl256
          · intro bc hbc
            rw [hRl]
            simp only [Node.label_mk]
            rcases (hRmem bc).mp hbc with rfl | hbc2
            · apply (strBounded_iff' _ _).mpr
              constructor
              · simp only [Node.label_mk]
                have := set_label_length rest
                omega
              · intro bc2 hbc2
                simp only [Node.children_mk] at hbc2
                exact absurd hbc2 (List.not_mem_nil _)
            · simp only [Node.children_mk] at hbc2
              exact hsb2 bc hbc2

/- ### The exactness invariant (C1 machinery) -/

/-- `ctrie_contains` characterized by the word and wildcard key sets. -/
theorem contains_iff {t : Trie} (hs : sortedNode t.root = true) (k : List Nat) :
    ctrie_contains t k = true ↔
      (k ∈ wordsOf t ∨ ∃ x ∈ wildsOf t, stem x k ∧ x ≠ k) := by
  show (find3Go t.root k [0] none).isSome = true ↔ _
  rw [find3Go_isSome t.root hs k [0] none]
  simp [wordsOf, wildsOf]

/-- The initial trie satisfies the invariant with the initial abstract
state: the root carries the empty word. -/
theorem invC1_init : invC1 ctrie_init spec0 := by
  have hwords : wordsOf ctrie_init = [[]] := by
    simp [wordsOf, wordsAux, ctrie_init, Trie.root]
  have hwilds : wildsOf ctrie_init = [] := by
    simp [wildsOf, wildsAux, ctrie_init, Trie.root]
  refine ⟨rfl, rfl, rfl, ?_, ?_, ?_, ?_, ?_, ?_, ?_⟩
  · simp [sortedNode, ctrie_init, Trie.root, chainLt]
  · simp [wildWordNode, ctrie_init, Trie.root]
  · simp [strBounded, ctrie_init, Trie.root]
  · simp [labels255, ctrie_init, Trie.root]
  · exact List.nodup_singleton _
  · intro y
    rw [hwords]
    exact Iff.rfl
  · intro y
    rw [hwilds]
    exact Iff.rfl

/-- One legal operation preserves the invariant. -/
theorem invC1_step {t : Trie} {st : List (List Nat) × List (List Nat)} {op : Op}
    (hinv : invC1 t st)
    (hok : match op with
      | .ins k _ => k.length ≤ 256
      | .rem k => k ≠ [] ∧ k ∈ st.1 ∧ k ∉ st.2) :
    invC1 (execOp t op) (specStep st op) := by
  obtain ⟨h1, h2, h3, h4, h5, h6, h7, h8, h9, h10⟩ := hinv
  cases op with
  | ins k w =>
    obtain ⟨hroot, hfr', _⟩ := ctrie_insert_root h1 k w
    obtain ⟨hs', hl', hwords, hwilds, _, _⟩ := insertGo_spec t.root h4 h7 k w hok
    obtain ⟨_, _, hwwp⟩ := insertGo_aux t.root h4 k w
    have hsb' := insertGo_strB t.root h4 0 k w h6 (by simpa using hok)
    obtain ⟨hrl', hrw'⟩ := insertGo_root_shape h2 h3 k w
    have hexec : execOp t (.ins k w) = (ctrie_insert t k w).1 := rfl
    rw [hexec]
    refine ⟨hfr', ?_, ?_, ?_, ?_, ?_, ?_, ?_, ?_, ?_⟩
    · rw [hroot]; exact hrl'
    · rw [hroot]; exact hrw'
    · rw [hroot]; exact hs'
    · rw [hroot]; exact hwwp h5
    · rw [hroot]; exact hsb'
    · rw [hroot]; exact hl'
    · show (st.1.insert k).Nodup
      by_cases hk : k ∈ st.1
      · rw [List.insert_of_mem hk]
        exact h8
      · rw [List.insert_of_not_mem hk]
        exact List.nodup_cons.mpr ⟨hk, h8⟩
    · intro y
      have h9x : ∀ z, z ∈ wordsAux [] t.root ↔ z ∈ st.1 := h9
      show y ∈ wordsAux [] (ctrie_insert t k w).1.root ↔ y ∈ st.1.insert k
      rw [hroot, hwords y, List.mem_insert_iff, h9x y]
      tauto
    · intro y
      have h10x : ∀ z, z ∈ wildsAux [] t.root ↔ z ∈ st.2 := h10
      show y ∈ wildsAux [] (ctrie_insert t k w).1.root ↔
        y ∈ (if w then st.2.insert k else st.2)
      rw [hroot, hwilds y, h10x y]
      cases w with
      | true =>
        rw [if_pos rfl, List.mem_insert_iff]
        simp
        tauto
      | false =>
        rw [if_neg (by simp)]
        simp
  | rem k =>
    obtain ⟨hne, hmem, hnwild⟩ := hok
    obtain ⟨hb1, hb2, hb3, hb4, hb5, hb6, hb7, hb8, hb9, hb10, hb11⟩ :=
      ctrie_remove_spec h1 h2 h3 h4 h5 h6 h7 ((h9 k).mpr hmem) hne
        (fun hk => hnwild ((h10 k).mp hk))
    have hexec : execOp t (.rem k) = (ctrie_remove t k).2 := rfl
    rw [hexec]
    refine ⟨hb2, hb3, hb4, hb6, hb7, hb8, hb9, ?_, ?_, ?_⟩
    · show (st.1.erase k).Nodup
      exact h8.erase _
    · intro y
      show y ∈ wordsOf (ctrie_remove t k).2 ↔ y ∈ st.1.erase k
      rw [hb10 y, h9 y, h8.mem_erase_iff]
      tauto
    · intro y
      show y ∈ wildsOf (ctrie_remove t k).2 ↔ y ∈ st.2
      rw [hb11 y, h10 y]

/-- Any legal run preserves the invariant. -/
theorem invC1_run : ∀ (ops : List Op) (t : Trie)
    (st : List (List Nat) × List (List Nat)), invC1 t st →
    legalC1 st ops → invC1 (execOps t ops) (specRun st ops) := by
  intro ops
  induction ops with
  | nil => intro t st h _; exact h
  | cons op ops ih =>
    intro t st h hleg
    obtain ⟨hop, hrest⟩ := hleg
    exact ih _ _ (invC1_step h hop) hrest

/- ### Unconditional structural preservation of removeAt (for C3) -/

theorem sortedNode_default : sortedNode defaultNode = true := by
  simp [defaultNode, sortedNode, chainLt]

theorem setChild_oob {x : Node} {i : Nat} (hi : ¬ i < x.children.length)
    (c' : Node) : x.setChild i c' = x := by
  show Node.mk _ _ _ (x.children.set i _) = x
  rw [List.set_eq_of_length_le (Nat.le_of_not_lt hi)]
  exact Node.eta x

theorem setChild_sorted_any {x : Node} (i : Nat) {c' : Node}
    (hs : sortedNode x = true) (hc : sortedNode c' = true) :
    sortedNode (x.setChild i c') = true := by
  by_cases hi : i < x.children.length
  · exact setChild_sorted hi hs hc
  · rw [setChild_oob hi]
    exact hs

theorem setChild_compact_any {x : Node} (i : Nat) {c' : Node}
    (hx : compactNode x = true) (hc : compactNode c' = true) :
    compactNode (x.setChild i c') = true := by
  by_cases hi : i < x.children.length
  · apply (compactNode_iff' _).mpr
    constructor
    · rcases ((compactNode_iff' x).mp hx).1 with h | h
      · left
        show (x.children.set i _).length ≥ 2
        rw [List.length_set]
        exact h
      · right
        rw [setChild_word]
        exact h
    · intro bc hbc
      rcases (setChild_children_mem hi c' bc).mp hbc with h | rfl | h
      · exact ((compactNode_iff' x).mp hx).2 bc (List.mem_of_mem_take h)
      · exact hc
      · exact ((compactNode_iff' x).mp hx).2 bc (List.mem_of_mem_drop h)
  · rw [setChild_oob hi]
    exact hx

theorem removeAt_sorted : ∀ (π : List Nat) (x : Node), sortedNode x = true →
    sortedNode (removeAt x π) = true := by
  intro π
  induction π with
  | nil =>
    intro x hs
    simp only [removeAt]
    exact hs
  | cons i rest ih =>
    intro x hs
    obtain ⟨l, wo, wi, cs⟩ := x
    have hcsort : sortedNode (cs.getD i default).2 = true := by
      by_cases hi : i < cs.length
      · exact ((sortedNode_iff' _).mp hs).2 _ (by simpa using getD_mem hi)
      · rw [List.getD_eq_default _ _ (Nat.le_of_not_lt hi)]
        exact sortedNode_default
    match rest, ih with
    | [], _ =>
      by_cases h1 : ((cs.getD i default).2.children).length > 1
      · rw [show removeAt (.mk l wo wi cs) [i] = (Node.mk l wo wi cs).setChild i
            (.mk (cs.getD i default).2.label false (cs.getD i default).2.wild
              (cs.getD i default).2.children) from by
          simp only [removeAt, Node.children_mk]
          rw [if_pos h1]]
        exact setChild_sorted_any i hs
          ((sortedNode_iff' _).mpr ⟨by simpa using ((sortedNode_iff' _).mp hcsort).1,
            by simpa using ((sortedNode_iff' _).mp hcsort).2⟩)
      · by_cases h2 : ((cs.getD i default).2.children).length = 1
        · obtain ⟨⟨b2, c2⟩, hxc⟩ := List.length_eq_one.mp h2
          have hc2 : sortedNode c2 = true :=
            ((sortedNode_iff' _).mp hcsort).2 _
              (by rw [hxc]; exact List.mem_singleton.mpr rfl)
          rw [show removeAt (.mk l wo wi cs) [i] = (Node.mk l wo wi cs).setChild i
              (cut (.mk (cs.getD i default).2.label false (cs.getD i default).2.wild
                (cs.getD i default).2.children)) from by
            simp only [removeAt, Node.children_mk]
            rw [if_neg h1, if_pos h2]]
          apply setChild_sorted_any i hs
          rw [show cut (.mk (cs.getD i default).2.label false
              (cs.getD i default).2.wild (cs.getD i default).2.children) =
              Node.mk (set_label ((cs.getD i default).2.label ++ b2 :: c2.label))
                c2.word c2.wild c2.children from by rw [hxc]; simp [cut]]
          exact (sortedNode_iff' _).mpr ⟨by simpa using ((sortedNode_iff' _).mp hc2).1,
            by simpa using ((sortedNode_iff' _).mp hc2).2⟩
        · rw [show removeAt (.mk l wo wi cs) [i] =
              (Node.mk l wo wi cs).removeChild i from by
            simp only [removeAt, Node.children_mk]
            rw [if_neg h1, if_neg h2]]
          exact removeChild_sorted hs
    | [i2], ih =>
      by_cases hn0 : (((cs.getD i default).2.children.getD i2 default).2.children).length
          = 0
      · have hp'sort : sortedNode ((cs.getD i default).2.removeChild i2) = true :=
          removeChild_sorted hcsort
        rw [show removeAt (.mk l wo wi cs) [i, i2] =
            (if (decide ((((cs.getD i default).2.removeChild i2).children).length = 1) &&
                 !((cs.getD i default).2.removeChild i2).word) = true then
              (Node.mk l wo wi cs).setChild i
                (cut ((cs.getD i default).2.removeChild i2))
            else
              (Node.mk l wo wi cs).setChild i
                ((cs.getD i default).2.removeChild i2)) from by
          simp only [removeAt, Node.children_mk]
          rw [if_pos hn0]]
        split
        · next hca =>
          simp only [Bool.and_eq_true, decide_eq_true_eq] at hca
          obtain ⟨hca1, _⟩ := hca
          obtain ⟨⟨b3, c3⟩, hch3⟩ := List.length_eq_one.mp hca1
          have hc3sort : sortedNode c3 = true :=
            ((sortedNode_iff' _).mp hp'sort).2 _
              (by rw [hch3]; exact List.mem_singleton.mpr rfl)
          apply setChild_sorted_any i hs
          have heta := Node.eta ((cs.getD i default).2.removeChild i2)
          rw [hch3] at heta
          rw [show cut ((cs.getD i default).2.removeChild i2) =
              cut (Node.mk ((cs.getD i default).2.removeChild i2).label
                ((cs.getD i default).2.removeChild i2).word
                ((cs.getD i default).2.removeChild i2).wild [(b3, c3)]) from by
            rw [heta]]
          rw [show cut (Node.mk ((cs.getD i default).2.removeChild i2).label
              ((cs.getD i default).2.removeChild i2).word
              ((cs.getD i default).2.removeChild i2).wild [(b3, c3)]) =
              Node.mk (set_label (((cs.getD i default).2.removeChild i2).label ++
                b3 :: c3.label)) c3.word c3.wild c3.children from by simp [cut]]
          exact (sortedNode_iff' _).mpr ⟨by simpa using ((sortedNode_iff' _).mp hc3sort).1,
            by simpa using ((sortedNode_iff' _).mp hc3sort).2⟩
        · exact setChild_sorted_any i hs hp'sort
      · rw [show removeAt (.mk l wo wi cs) [i, i2] = (Node.mk l wo wi cs).setChild i
            (removeAt (cs.getD i default).2 [i2]) from by
          simp only [removeAt, Node.children_mk]
          rw [if_neg hn0]]
        exact setChild_sorted_any i hs (ih _ hcsort)
    | i2 :: i3 :: rest3, ih =>
      rw [show removeAt (.mk l wo wi cs) (i :: i2 :: i3 :: rest3) =
          (Node.mk l wo wi cs).setChild i
            (removeAt (cs.getD i default).2 (i2 :: i3 :: rest3)) from by
        simp only [removeAt, Node.children_mk]]
      exact setChild_sorted_any i hs (ih _ hcsort)

/-- `removeAt` preserves compaction, provided a one-step path targets a
node that is either below a word node or not a leaf (as is the case for
the paths `ctrie_remove` produces from the word-marked root). -/
theorem removeAt_compact : ∀ (π : List Nat) (x : Node), compactNode x = true →
    (∀ i, π = [i] → (x.word = true ∨ (nodeAt x π).children ≠ [])) →
    compactNode (removeAt x π) = true := by
  intro π
  induction π with
  | nil =>
    intro x hx _
    simp only [removeAt]
    exact hx
  | cons i rest ih =>
    intro x hx h1cond
    obtain ⟨l, wo, wi, cs⟩ := x
    match rest, ih with
    | [], _ =>
      by_cases h1 : ((cs.getD i default).2.children).length > 1
      · have hi : i < cs.length := by
          by_contra hi
          rw [List.getD_eq_default _ _ (Nat.le_of_not_lt hi)] at h1
          have hdd : ((default : Nat × Node)).2.children = [] := rfl
          rw [hdd] at h1
          simp at h1
        have hccp : compactNode (cs.getD i default).2 = true :=
          ((compactNode_iff' _).mp hx).2 _ (by simpa using getD_mem hi)
        rw [show removeAt (.mk l wo wi cs) [i] = (Node.mk l wo wi cs).setChild i
            (.mk (cs.getD i default).2.label false (cs.getD i default).2.wild
              (cs.getD i default).2.children) from by
          simp only [removeAt, Node.children_mk]
          rw [if_pos h1]]
        apply setChild_compact_any i hx
        apply (compactNode_iff' _).mpr
        refine ⟨by left; simpa using h1, ?_⟩
        intro bc hbc
        exact ((compactNode_iff' _).mp hccp).2 bc (by simpa using hbc)
      · by_cases h2 : ((cs.getD i default).2.children).length = 1
        · have hi : i < cs.length := by
            by_contra hi
            rw [List.getD_eq_default _ _ (Nat.le_of_not_lt hi)] at h2
            have hdd : ((default : Nat × Node)).2.children = [] := rfl
            rw [hdd] at h2
            simp at h2
          have hccp : compactNode (cs.getD i default).2 = true :=
            ((compactNode_iff' _).mp hx).2 _ (by simpa using getD_mem hi)
          obtain ⟨⟨b2, c2⟩, hxc⟩ := List.length_eq_one.mp h2
          have hc2 : compactNode c2 = true :=
            ((compactNode_iff' _).mp hccp).2 _
              (by rw [hxc]; exact List.mem_singleton.mpr rfl)
          rw [show removeAt (.mk l wo wi cs) [i] = (Node.mk l wo wi cs).setChild i
              (cut (.mk (cs.getD i default).2.label false (cs.getD i default).2.wild
                (cs.getD i default).2.children)) from by
            simp only [removeAt, Node.children_mk]
            rw [if_neg h1, if_pos h2]]
          apply setChild_compact_any i hx
          rw [show cut (.mk (cs.getD i default).2.label false
              (cs.getD i default).2.wild (cs.getD i default).2.children) =
              Node.mk (set_label ((cs.getD i default).2.label ++ b2 :: c2.label))
                c2.word c2.wild c2.children from by rw [hxc]; simp [cut]]
          apply (compactNode_iff' _).mpr
          refine ⟨by simpa using ((compactNode_iff' _).mp hc2).1, ?_⟩
          intro bc hbc
          exact ((compactNode_iff' _).mp hc2).2 bc (by simpa using hbc)
        · have hch0 : (nodeAt (.mk l wo wi cs) [i]).children = [] := by
            show ((cs.getD i default).2).children = []
            rw [← List.length_eq_zero]
            omega
          have hword : (Node.mk l wo wi cs).word = true := by
            rcases h1cond i rfl with h | h
            · exact h
            · exact absurd hch0 h
          rw [show removeAt (.mk l wo wi cs) [i] =
              (Node.mk l wo wi cs).removeChild i from by
            simp only [removeAt, Node.children_mk]
            rw [if_neg h1, if_neg h2]]
          apply (compactNode_iff' _).mpr
          constructor
          · right
            show (Node.mk l wo wi cs).word = true
            exact hword
          · intro bc hbc
            exact ((compactNode_iff' _).mp hx).2 bc
              (List.mem_of_mem_eraseIdx (by simpa using hbc))
    | [i2], ih =>
      by_cases hn0 : (((cs.getD i default).2.children.getD i2 default).2.children).length
          = 0
      · by_cases hi : i < cs.length
        case neg =>
          rw [show removeAt (.mk l wo wi cs) [i, i2] =
              (if (decide ((((cs.getD i default).2.removeChild i2).children).length = 1) &&
                   !((cs.getD i default).2.removeChild i2).word) = true then
                (Node.mk l wo wi cs).setChild i
                  (cut ((cs.getD i default).2.removeChild i2))
              else
                (Node.mk l wo wi cs).setChild i
                  ((cs.getD i default).2.removeChild i2)) from by
            simp only [removeAt, Node.children_mk]
            rw [if_pos hn0]]
          have hioob : ¬ i < (Node.mk l wo wi cs).children.length := by simpa using hi
          split
          · rw [setChild_oob hioob]
            exact hx
          · rw [setChild_oob hioob]
            exact hx
        have hccp : compactNode (cs.getD i default).2 = true :=
          ((compactNode_iff' _).mp hx).2 _ (by simpa using getD_mem hi)
        have hp'len : (((cs.getD i default).2.removeChild i2).children).length =
            if i2 < ((cs.getD i default).2.children).length then
              ((cs.getD i default).2.children).length - 1
            else ((cs.getD i default).2.children).length := by
          show ((cs.getD i default).2.children.eraseIdx i2).length = _
          rw [List.length_eraseIdx]
        have hp'ch : ∀ bc ∈ ((cs.getD i default).2.removeChild i2).children,
            compactNode bc.2 = true := by
          intro bc hbc
          exact ((compactNode_iff' _).mp hccp).2 bc
            (List.mem_of_mem_eraseIdx (by simpa using hbc))
        rw [show removeAt (.mk l wo wi cs) [i, i2] =
            (if (decide ((((cs.getD i default).2.removeChild i2).children).length = 1) &&
                 !((cs.getD i default).2.removeChild i2).word) = true then
              (Node.mk l wo wi cs).setChild i
                (cut ((cs.getD i default).2.removeChild i2))
            else
              (Node.mk l wo wi cs).setChild i
                ((cs.getD i default).2.removeChild i2)) from by
          simp only [removeAt, Node.children_mk]
          rw [if_pos hn0]]
        split
        · next hca =>
          simp only [Bool.and_eq_true, decide_eq_true_eq] at hca
          obtain ⟨hca1, _⟩ := hca
          obtain ⟨⟨b3, c3⟩, hch3⟩ := List.length_eq_one.mp hca1
          have hc3 : compactNode c3 = true := by
            apply hp'ch (b3, c3)
            rw [hch3]
            exact List.mem_singleton.mpr rfl
          apply setChild_compact_any i hx
          have heta := Node.eta ((cs.getD i default).2.removeChild i2)
          rw [hch3] at heta
          rw [show cut ((cs.getD i default).2.removeChild i2) =
              cut (Node.mk ((cs.getD i default).2.removeChild i2).label
                ((cs.getD i default).2.removeChild i2).word
                ((cs.getD i default).2.removeChild i2).wild [(b3, c3)]) from by
            rw [heta]]
          rw [show cut (Node.mk ((cs.getD i default).2.removeChild i2).label
              ((cs.getD i default).2.removeChild i2).word
              ((cs.getD i default).2.removeChild i2).wild [(b3, c3)]) =
              Node.mk (set_label (((cs.getD i default).2.removeChild i2).label ++
                b3 :: c3.label)) c3.word c3.wild c3.children from by simp [cut]]
          apply (compactNode_iff' _).mpr
          refine ⟨by simpa using ((compactNode_iff' _).mp hc3).1, ?_⟩
          intro bc hbc
          exact ((compactNode_iff' _).mp hc3).2 bc (by simpa using hbc)
        · next hca =>
          apply setChild_compact_any i hx
          apply (compactNode_iff' _).mpr
          refine ⟨?_, hp'ch⟩
          by_cases hlen2 : (((cs.getD i default).2.removeChild i2).children).length ≥ 2
          · exact Or.inl hlen2
          · right
            show ((cs.getD i default).2).word = true
            rcases Nat.lt_or_ge (((cs.getD i default).2.removeChild i2).children).length
              2 with hlt | hge
            · rcases Nat.lt_or_ge (((cs.getD i default).2.removeChild i2).children).length
                1 with hlt0 | hge1
              · have hplen0 : (((cs.getD i default).2.removeChild i2).children).length
                    = 0 := by omega
                rcases ((compactNode_iff' _).mp hccp).1 with h | h
                · exfalso
                  rw [hp'len] at hplen0
                  split at hplen0 <;> omega
                · exact h
              · have hplen1 : (((cs.getD i default).2.removeChild i2).children).length
                    = 1 := by omega
                have hpw : ((cs.getD i default).2.removeChild i2).word = true := by
                  rcases Bool.eq_false_or_eq_true
                    (((cs.getD i default).2.removeChild i2).word) with h | h
                  · exact h
                  · exfalso
                    apply hca
                    rw [hplen1, h]
                    simp
                exact hpw
            · exact absurd hge (by omega)
      · have hq : compactNode (removeAt (cs.getD i default).2 [i2]) = true := by
          by_cases hi : i < cs.length
          · apply ih
            · exact ((compactNode_iff' _).mp hx).2 _ (by simpa using getD_mem hi)
            · intro j hj
              right
              injection hj with hj1 _
              subst hj1
              show (((cs.getD i default).2.children.getD i2 default).2).children ≠ []
              intro hnil
              rw [hnil] at hn0
              simp at hn0
          · exfalso
            rw [List.getD_eq_default _ _ (Nat.le_of_not_lt hi)] at hn0
            have hdd : ((default : Nat × Node)).2.children = [] := rfl
            rw [hdd] at hn0
            have hdd2 : ((([] : List (Nat × Node)).getD i2 default)).2.children = [] := rfl
            rw [hdd2] at hn0
            simp at hn0
        rw [show removeAt (.mk l wo wi cs) [i, i2] = (Node.mk l wo wi cs).setChild i
            (removeAt (cs.getD i default).2 [i2]) from by
          simp only [removeAt, Node.children_mk]
          rw [if_neg hn0]]
        exact setChild_compact_any i hx hq
    | i2 :: i3 :: rest3, ih =>
      rw [show removeAt (.mk l wo wi cs) (i :: i2 :: i3 :: rest3) =
          (Node.mk l wo wi cs).setChild i
            (removeAt (cs.getD i default).2 (i2 :: i3 :: rest3)) from by
        simp only [removeAt, Node.children_mk]]
      by_cases hi : i < cs.length
      · apply setChild_compact_any i hx
        apply ih
        · exact ((compactNode_iff' _).mp hx).2 _ (by simpa using getD_mem hi)
        · intro j hj
          exact absurd hj (by simp)
      · rw [setChild_oob (by simpa using hi)]
        exact hx

/-- On an empty-labelled non-wild root, a successful find for a nonempty
key never returns the root path itself. -/
theorem find3Go_ne_nil {n : Node} (hrl : n.label = []) (hrw : n.wild = false)
    {k : List Nat} (hk : k ≠ []) {π : List Nat}
    (h : find3Go n k [] none = some π) : π ≠ [] := by
  have hml : matchLen n.label k = 0 := by
    rw [hrl]
    cases k <;> simp [matchLen]
  have hj : ¬ matchLen n.label k < n.label.length := by
    rw [hrl]
    simp
  cases hd : k.drop (matchLen n.label k) with
  | nil =>
    exfalso
    rw [hml] at hd
    simp at hd
    exact hk hd
  | cons b rest =>
    cases hcl : child_lookup n b with
    | none =>
      rw [find3Go_step_none hj hd hcl [] none] at h
      rw [if_neg (by simp [hrw])] at h
      exact absurd h (by simp)
    | some i =>
      rw [find3Go_step_some hj hd hcl [] none] at h
      rw [if_neg (by simp [hrw])] at h
      rw [List.nil_append] at h
      have hshift := find3Go_shift (n.children.getD i default).2 rest [i] [] none
      rw [List.append_nil] at hshift
      rw [show (Option.map (fun q => [i] ++ q) (none : Option (List Nat))) = none from
        rfl] at hshift
      rw [hshift] at h
      obtain ⟨q, _, hq⟩ := Option.map_eq_some'.mp h
      rw [← hq]
      simp

/-- One `opOk3` operation preserves the compaction invariant bundle. -/
theorem invC3_step {t : Trie} {op : Op} (hinv : invC3 t) (hok : opOk3 op) :
    invC3 (execOp t op) := by
  obtain ⟨h1, h2, h3, h4, h5, h6⟩ := hinv
  cases op with
  | ins k w =>
    obtain ⟨hroot, hfr', _⟩ := ctrie_insert_root h1 k w
    obtain ⟨hs', hcp', _⟩ := insertGo_aux t.root h5 k w
    obtain ⟨hrl', hrw'⟩ := insertGo_root_shape h2 h3 k w
    have hexec : execOp t (.ins k w) = (ctrie_insert t k w).1 := rfl
    rw [hexec]
    have hwild' : (insertGo t.root k w).1.wild = false := by
      have hj : ¬ matchLen t.root.label k < t.root.label.length := by
        rw [h2]
        simp
      cases hd : k.drop (matchLen t.root.label k) with
      | nil =>
        have hknil : k = [] := by
          have hml : matchLen t.root.label k = 0 := by
            rw [h2]
            cases k <;> simp [matchLen]
          rw [hml] at hd
          simpa using hd
        have hwf : w = false := by
          rcases Bool.eq_false_or_eq_true w with hw | hw
          · exact absurd hknil (hok hw)
          · exact hw
        rw [insertGo_flags hj hd]
        show (t.root.wild || w) = false
        rw [h4, hwf]
        rfl
      | cons b rest =>
        cases hcl : child_lookup t.root b with
        | some i =>
          rw [insertGo_descend hj hd hcl]
          show t.root.wild = false
          exact h4
        | none =>
          rw [insertGo_extend hj hd hcl]
          show t.root.wild = false
          exact h4
    exact ⟨hfr', by rw [hroot]; exact hrl', by rw [hroot]; exact hrw',
      by rw [hroot]; exact hwild', by rw [hroot]; exact hs',
      by rw [hroot]; exact hcp' h6⟩
  | rem k =>
    have hkne : k ≠ [] := hok
    have hexec : execOp t (.rem k) = (ctrie_remove t k).2 := rfl
    rw [hexec]
    cases hres : resolve t k with
    | none =>
      have : (ctrie_remove t k).2 = t := by
        unfold ctrie_remove
        rw [hres]
      rw [this]
      exact ⟨h1, h2, h3, h4, h5, h6⟩
    | some p =>
      have hres2 : find3Go t.root k [0] none = some p := hres
      have hshift := find3Go_shift t.root k [0] [] none
      rw [List.append_nil] at hshift
      rw [show (Option.map (fun q => [0] ++ q) (none : Option (List Nat))) = none from
        rfl] at hshift
      rw [hshift] at hres2
      obtain ⟨π₀, hfind, hp⟩ := Option.map_eq_some'.mp hres2
      have hπ₀ne : π₀ ≠ [] := find3Go_ne_nil h2 h4 hkne hfind
      have hrem2 : (ctrie_remove t k).2 = ⟨removeAt t.fake_root (0 :: π₀)⟩ := by
        unfold ctrie_remove
        rw [hres, ← hp]
        rfl
      rw [hrem2]
      have hroot' : (Trie.mk (removeAt t.fake_root (0 :: π₀))).root =
          removeAt t.root π₀ := by
        show ((removeAt t.fake_root (0 :: π₀)).children.getD 0 default).2 = _
        rw [remove_root_eq t h3 π₀ hπ₀ne]
        show (((t.fake_root.children.set 0 _)).getD 0 default).2 = _
        rw [getD_set_self (by omega)]
      have hfr' : (Trie.mk (removeAt t.fake_root (0 :: π₀))).fake_root.children.length
          = 1 := by
        show (removeAt t.fake_root (0 :: π₀)).children.length = 1
        rw [remove_root_eq t h3 π₀ hπ₀ne]
        show (t.fake_root.children.set 0 _).length = 1
        rw [List.length_set]
        exact h1
      obtain ⟨hf1, hf2, hf3⟩ := removeAt_fields π₀ t.root
      refine ⟨hfr', ?_, ?_, ?_, ?_, ?_⟩
      · rw [hroot', hf1, h2]
      · rw [hroot', hf2, h3]
      · rw [hroot', hf3, h4]
      · rw [hroot']
        exact removeAt_sorted π₀ t.root h5
      · rw [hroot']
        apply removeAt_compact π₀ t.root h6
        intro i _
        exact Or.inl h3

/-- Any `opOk3` run preserves the compaction invariant bundle. -/
theorem invC3_run : ∀ (ops : List Op) (t : Trie), invC3 t →
    (∀ op ∈ ops, opOk3 op) → invC3 (execOps t ops) := by
  intro ops
  induction ops with
  | nil => intro t h _; exact h
  | cons op ops ih =>
    intro t h hall
    exact ih _ (invC3_step h (hall op (List.mem_cons_self _ _)))
      (fun o ho => hall o (List.mem_cons_of_mem _ ho))

/-- The initial trie satisfies the compaction invariant bundle. -/
theorem invC3_init : invC3 ctrie_init := by
  refine ⟨rfl, rfl, rfl, rfl, ?_, ?_⟩
  · simp [sortedNode, ctrie_init, Trie.root, chainLt]
  · simp [compactNode, ctrie_init, Trie.root]

/- ### Idempotent insert (C5 machinery) -/

theorem sum_map_set {cs : List (Nat × Node)} {i : Nat} (hi : i < cs.length)
    (y : Nat × Node) (f : Nat × Node → Nat) (hf : f y = f (cs.getD i default)) :
    ((cs.set i y).map f).sum = (cs.map f).sum := by
  rw [set_decomp hi]
  conv_rhs => rw [list_decomp hi]
  simp [hf]

/-- Inserting a key that is already a registered word allocates no node
and returns the path of the existing word node. -/
theorem insertGo_present : ∀ (n : Node), sortedNode n = true →
    ∀ (krem : List Nat) (wc : Bool), krem ∈ wordsAux [] n →
    nodeCount (insertGo n krem wc).1 = nodeCount n ∧
    pathKey n (insertGo n krem wc).2 = some krem ∧
    (nodeAt n (insertGo n krem wc).2).word = true ∧
    pathKey (insertGo n krem wc).1 (insertGo n krem wc).2 = some krem ∧
    (nodeAt (insertGo n krem wc).1 (insertGo n krem wc).2).word = true := by
  intro n
  induction n using Node.indMem with
  | h l wo wi cs ih =>
    intro hs krem wc hk
    have hpw : List.Pairwise (· < ·) (cs.map Prod.fst) := by
      have := sortedNode_pairwise hs
      simpa using this
    have hstem : stem l krem := by
      have := stem_of_mem_wordsAux (.mk l wo wi cs) [] krem hk
      simpa using this
    have hml : matchLen l krem = l.length := matchLen_of_stem hstem
    have hj : ¬ matchLen (Node.mk l wo wi cs).label krem <
        (Node.mk l wo wi cs).label.length := by
      simp only [Node.label_mk]
      omega
    obtain ⟨r, hr⟩ := hstem
    have hdrop : krem.drop (matchLen (Node.mk l wo wi cs).label krem) = r := by
      simp only [Node.label_mk]
      rw [hml, ← hr]
      simp
    cases r with
    | nil =>
      have hkl : krem = l := by rw [← hr]; simp
      have hwo : wo = true := by
        rcases mem_wordsAux'.mp hk with ⟨hw1, _⟩ | ⟨bc, hbc, hyc⟩
        · simpa using hw1
        · exfalso
          have hst := stem_of_mem_wordsAux bc.2 _ krem hyc
          have hlen := stem_length hst
          simp only [Node.label_mk, Node.children_mk] at hlen
          rw [hkl] at hlen
          simp at hlen
      rw [insertGo_flags hj hdrop]
      refine ⟨?_, ?_, ?_, ?_, ?_⟩
      · rw [nodeCount_eq', nodeCount_eq']
        simp only [Node.children_mk]
      · simp only [pathKey, Node.label_mk, Option.some_inj]
        exact hkl.symm
      · simp only [nodeAt, Node.word_mk]
        exact hwo.symm ▸ rfl
      · simp only [pathKey, Node.label_mk, Option.some_inj]
        exact hkl.symm
      · simp only [nodeAt, Node.word_mk]
    | cons b rest =>
      have hklr : krem = l ++ b :: rest := hr.symm
      obtain ⟨bc, hbc, hyc⟩ : ∃ bc ∈ cs, krem ∈ wordsAux ([] ++ l ++ [bc.1]) bc.2 := by
        rcases mem_wordsAux'.mp hk with ⟨_, hkeq⟩ | ⟨bc, hbc, hyc⟩
        · exfalso
          simp only [Node.label_mk] at hkeq
          rw [hklr] at hkeq
          simp at hkeq
        · exact ⟨bc, by simpa using hbc, by simpa using hyc⟩
      have hbcb : bc.1 = b := by
        have hst := stem_of_mem_wordsAux bc.2 _ krem hyc
        have hst2 : stem (l ++ [bc.1]) krem := by
          refine stem_trans ?_ hst
          exact ⟨bc.2.label, by simp⟩
        rw [hklr] at hst2
        exact stem_append_cons (by simpa using hst2)
      have hbc2 : (b, bc.2) ∈ (Node.mk l wo wi cs).children := by
        have hpe : (b, bc.2) = bc := by
          rw [← hbcb]
        rw [hpe]
        simpa using hbc
      obtain ⟨i, hcl, hgd⟩ := child_lookup_mem (n := .mk l wo wi cs)
        (by simpa using hpw) hbc2
      have hgd2 : (cs.getD i default) = (b, bc.2) := by simpa using hgd
      obtain ⟨hilt, _⟩ := child_lookup_some hcl
      have hilt2 : i < cs.length := by simpa using hilt
      have hrmem : rest ∈ wordsAux [] bc.2 := by
        rw [wordsAux_shift bc.2 ([] ++ l ++ [bc.1])] at hyc
        obtain ⟨s, hsmem, hseq⟩ := List.mem_map.mp hyc
        have hre : rest = s := by
          rw [hbcb] at hseq
          rw [hklr] at hseq
          have h2 : (l ++ [b]) ++ s = (l ++ [b]) ++ rest := by
            simpa [List.append_assoc] using hseq
          exact (List.append_cancel_left h2).symm
        rw [hre]
        exact hsmem
      have hsch : ∀ bc ∈ cs, sortedNode bc.2 = true := by
        have := sortedNode_children hs
        simpa using this
      obtain ⟨ihc, ihp, ihw, ihp2, ihw2⟩ := ih bc hbc (hsch bc hbc) rest wc hrmem
      rw [insertGo_descend hj hdrop hcl wc]
      simp only [Node.children_mk, Node.label_mk]
      have hset : (cs.set i ((cs.getD i default).1,
          (insertGo (cs.getD i default).2 rest wc).1)).getD i default =
          ((cs.getD i default).1, (insertGo (cs.getD i default).2 rest wc).1) :=
        getD_set_self hilt2 _
      refine ⟨?_, ?_, ?_, ?_, ?_⟩
      · rw [nodeCount_eq', nodeCount_eq']
        simp only [Node.children_mk]
        congr 1
        apply sum_map_set hilt2
        rw [hgd2]
        show nodeCount (insertGo bc.2 rest wc).1 = nodeCount bc.2
        exact ihc
      · simp only [pathKey, Node.children_mk, Node.label_mk]
        rw [if_pos hilt2, hgd2]
        show Option.map (fun s => l ++ b :: s) (pathKey bc.2 (insertGo bc.2 rest wc).2)
          = some krem
        rw [ihp]
        simp only [Option.map_some']
        rw [hklr]
      · simp only [nodeAt, Node.children_mk]
        rw [hgd2]
        show (nodeAt bc.2 (insertGo bc.2 rest wc).2).word = true
        exact ihw
      · simp only [pathKey, Node.children_mk, Node.label_mk]
        rw [if_pos (by rw [List.length_set]; exact hilt2), hset]
        rw [hgd2]
        show Option.map (fun s => l ++ b :: s)
          (pathKey (insertGo bc.2 rest wc).1 (insertGo bc.2 rest wc).2) = some krem
        rw [ihp2]
        simp only [Option.map_some']
        rw [hklr]
      · simp only [nodeAt, Node.children_mk]
        rw [hset, hgd2]
        show (nodeAt (insertGo bc.2 rest wc).1 (insertGo bc.2 rest wc).2).word = true
        exact ihw2

/- ### Byte-validity and the child-count bound (C8 machinery) -/

theorem bytesOkNode_iff (l : List Nat) (w wi : Bool) (cs : List (Nat × Node)) :
    bytesOkNode (.mk l w wi cs) = true ↔
      (∀ b ∈ l, b < 256) ∧
      ∀ bc ∈ cs, bc.1 < 256 ∧ bytesOkNode bc.2 = true := by
  rw [bytesOkNode]
  simp only [Bool.and_eq_true, List.all_eq_true, List.mem_attach, true_implies,
    Subtype.forall, decide_eq_true_eq]

theorem bytesOkNode_iff' (n : Node) :
    bytesOkNode n = true ↔
      (∀ b ∈ n.label, b < 256) ∧
      ∀ bc ∈ n.children, bc.1 < 256 ∧ bytesOkNode bc.2 = true := by
  cases n
  exact bytesOkNode_iff _ _ _ _

theorem childrenBounded_iff (l : List Nat) (w wi : Bool) (cs : List (Nat × Node)) :
    childrenBounded (.mk l w wi cs) = true ↔
      cs.length ≤ 256 ∧ ∀ bc ∈ cs, childrenBounded bc.2 = true := by
  rw [childrenBounded]
  simp only [Bool.and_eq_true, List.all_eq_true, List.mem_attach, true_implies,
    Subtype.forall, decide_eq_true_eq]

theorem childrenBounded_iff' (n : Node) :
    childrenBounded n = true ↔
      n.children.length ≤ 256 ∧ ∀ bc ∈ n.children, childrenBounded bc.2 = true := by
  cases n
  exact childrenBounded_iff _ _ _ _

/-- Distinct discriminator bytes, all below 256, bound the child count by
256 at every node. -/
theorem childBound_of_sorted_bytes : ∀ (n : Node), sortedNode n = true →
    bytesOkNode n = true → childrenBounded n = true := by
  intro n
  induction n using Node.indMem with
  | h l wo wi cs ih =>
    intro hs hb
    apply (childrenBounded_iff _ _ _ _).mpr
    constructor
    · have hpw : List.Pairwise (· < ·) (cs.map Prod.fst) := by
        have := sortedNode_pairwise hs
        simpa using this
      have hnd : (cs.map Prod.fst).Nodup := hpw.imp Nat.ne_of_lt
      have hsub : (cs.map Prod.fst).toFinset ⊆ Finset.range 256 := by
        intro x hx
        rw [List.mem_toFinset] at hx
        obtain ⟨bc, hbc, hfst⟩ := List.mem_map.mp hx
        have := (((bytesOkNode_iff' _).mp hb).2 bc (by simpa using hbc)).1
        rw [← hfst]
        exact Finset.mem_range.mpr this
      have hcard := Finset.card_le_card hsub
      rw [List.toFinset_card_of_nodup hnd, Finset.card_range] at hcard
      simpa using hcard
    · intro bc hbc
      have hsch : sortedNode bc.2 = true := by
        have h := sortedNode_children hs
        have h2 : ∀ x ∈ cs, sortedNode x.2 = true := by simpa using h
        exact h2 bc hbc
      have hbch : bytesOkNode bc.2 = true :=
        (((bytesOkNode_iff' (.mk l wo wi cs)).mp hb).2 bc (by simpa using hbc)).2
      exact ih bc hbc hsch hbch

theorem mem_set_label {b : Nat} {l : List Nat} (h : b ∈ set_label l) : b ∈ l :=
  List.mem_of_mem_take h

/-- `insertGo` preserves byte-validity when the inserted key is made of
bytes. -/
theorem insertGo_bytesOk : ∀ (n : Node), sortedNode n = true →
    ∀ (krem : List Nat) (wc : Bool), bytesOkNode n = true →
    (∀ b ∈ krem, b < 256) → bytesOkNode (insertGo n krem wc).1 = true := by
  intro n
  induction n using Node.indMem with
  | h l wo wi cs ih =>
    intro hs krem wc hb hkb
    have hpw : List.Pairwise (· < ·) (cs.map Prod.fst) := by
      have := sortedNode_pairwise hs
      simpa using this
    have hlb : ∀ b ∈ l, b < 256 := ((bytesOkNode_iff' _).mp hb).1
    have hcb : ∀ bc ∈ cs, bc.1 < 256 ∧ bytesOkNode bc.2 = true := by
      have := ((bytesOkNode_iff' _).mp hb).2
      simpa using this
    by_cases hj : matchLen l krem < l.length
    · have hgd : l.getD (matchLen l krem) 0 < 256 := by
        apply hlb
        exact getD_mem hj
      have hsubB : bytesOkNode
          (.mk (set_label (l.drop (matchLen l krem + 1))) wo wi cs) = true := by
        apply (bytesOkNode_iff' _).mpr
        constructor
        · intro b hbm
          exact hlb b (List.mem_of_mem_drop (mem_set_label (by simpa using hbm)))
        · intro bc hbc
          exact hcb bc (by simpa using hbc)
      cases hd : krem.drop (matchLen l krem) with
      | nil =>
        rw [insertGo_split_exact (n := .mk l wo wi cs) (by simpa using hj)
          (by simpa using hd)]
        apply (bytesOkNode_iff' _).mpr
        constructor
        · intro b hbm
          exact hlb b (List.mem_of_mem_take (mem_set_label (by simpa using hbm)))
        · intro bc hbc
          simp only [Node.children_mk, List.mem_singleton] at hbc
          subst hbc
          exact ⟨hgd, hsubB⟩
      | cons b rest =>
        have hbk : b < 256 := by
          apply hkb
          apply List.mem_of_mem_drop (n := matchLen l krem)
          rw [hd]
          exact List.mem_cons_self _ _
        have hjk : matchLen l krem < krem.length := by
          have h1 : (krem.drop (matchLen l krem)).length =
              krem.length - matchLen l krem := List.length_drop _ _
          rw [hd] at h1
          simp only [List.length_cons] at h1
          omega
        have hbne : l.getD (matchLen l krem) 0 ≠ b := by
          have h1 := matchLen_ne (l := l) (k := krem) hj hjk
          have h2 : krem.getD (matchLen l krem) 0 = b := by
            obtain ⟨j, hjeq⟩ : ∃ j, matchLen l krem = j := ⟨_, rfl⟩
            rw [hjeq] at hd ⊢
            have hjlen : j ≤ krem.length := by omega
            have hkbr : krem = krem.take j ++ b :: rest := by
              conv_lhs => rw [← List.take_append_drop j krem]
              rw [hd]
            rw [hkbr]
            exact getD_append_cons_of (by rw [List.length_take]; omega)
          rw [h2] at h1
          exact h1
        have hsS : List.Pairwise (· < ·)
            (((Node.mk (set_label (l.take (matchLen l krem))) false false
              [(l.getD (matchLen l krem) 0,
                Node.mk (set_label (l.drop (matchLen l krem + 1))) wo wi cs)]) :
                Node).children.map Prod.fst) := by
          simp
        have hclS : child_lookup
            (.mk (set_label (l.take (matchLen l krem))) false false
              [(l.getD (matchLen l krem) 0,
                .mk (set_label (l.drop (matchLen l krem + 1))) wo wi cs)]) b = none := by
          apply child_lookup_eq_none_of
          intro bc hbc
          simp only [Node.children_mk, List.mem_singleton] at hbc
          subst hbc
          exact hbne
        rw [insertGo_split_extend (n := .mk l wo wi cs) (by simpa using hj)
          (by simpa using hd)]
        simp only [Node.label_mk, Node.word_mk, Node.wild_mk, Node.children_mk]
        obtain ⟨hRl, hRw, hRwi, hRmem, hRpair, hRlen, hRgd⟩ :=
          insert_child_spec (.mk (set_label rest) true wc []) hsS hclS
        apply (bytesOkNode_iff' _).mpr
        constructor
        · rw [hRl]
          intro b2 hbm
          simp only [Node.label_mk] at hbm
          exact hlb b2 (List.mem_of_mem_take (mem_set_label hbm))
        · intro bc hbc
          rcases (hRmem bc).mp hbc with rfl | hbc2
          · refine ⟨hbk, ?_⟩
            apply (bytesOkNode_iff' _).mpr
            constructor
            · intro b2 hbm
              simp only [Node.label_mk] at hbm
              apply hkb
              apply List.mem_of_mem_drop (n := matchLen l krem)
              rw [hd]
              exact List.mem_cons_of_mem _ (mem_set_label hbm)
            · intro bc2 hbc2
              simp only [Node.children_mk] at hbc2
              exact absurd hbc2 (List.not_mem_nil _)
          · simp only [Node.children_mk, List.mem_singleton] at hbc2
            subst hbc2
            exact ⟨hgd, hsubB⟩
    · cases hd : krem.drop (matchLen l krem) with
      | nil =>
        rw [insertGo_flags (n := .mk l wo wi cs) (by simpa using hj)
          (by simpa using hd)]
        apply (bytesOkNode_iff' _).mpr
        refine ⟨by simpa using hlb, ?_⟩
        intro bc hbc
        simp only [Node.children_mk] at hbc
        exact hcb bc hbc
      | cons b rest =>
        have hbk : b < 256 := by
          apply hkb
          apply List.mem_of_mem_drop (n := matchLen l krem)
          rw [hd]
          exact List.mem_cons_self _ _
        have hrb : ∀ b2 ∈ rest, b2 < 256 := by
          intro b2 hb2
          apply hkb
          apply List.mem_of_mem_drop (n := matchLen l krem)
          rw [hd]
          exact List.mem_cons_of_mem _ hb2
        cases hcl : child_lookup (.mk l wo wi cs : Node) b with
        | some i =>
          obtain ⟨hilt, _⟩ := child_lookup_some hcl
          have hilt' : i < cs.length := by simpa using hilt
          rw [insertGo_descend (n := .mk l wo wi cs) (by simpa using hj)
            (by simpa using hd) hcl]
          apply (bytesOkNode_iff' _).mpr
          refine ⟨by simpa using hlb, ?_⟩
          intro bc hbc
          simp only [Node.label_mk, Node.children_mk] at hbc ⊢
          rw [set_decomp hilt'] at hbc
          rcases List.mem_append.mp hbc with htk2 | hrest2
          · exact hcb bc (List.mem_of_mem_take htk2)
          · rcases List.mem_cons.mp hrest2 with rfl | hdp2
            · constructor
              · simp only
                exact (hcb _ (getD_mem hilt')).1
              · simp only
                apply ih _ (by simpa using getD_mem hilt')
                  (((sortedNode_iff' _).mp hs).2 _ (by simpa using getD_mem hilt'))
                · exact (hcb _ (getD_mem hilt')).2
                · exact hrb
            · exact hcb bc (List.mem_of_mem_drop hdp2)
        | none =>
          rw [insertGo_extend (n := .mk l wo wi cs) (by simpa using hj)
            (by simpa using hd) hcl]
          obtain ⟨hRl, hRw, hRwi, hRmem, hRpair, hRlen, hRgd⟩ :=
            insert_child_spec (.mk (set_label rest) true wc [])
              (by simpa using hpw) hcl
          apply (bytesOkNode_iff' _).mpr
          constructor
          · rw [hRl]
            simpa using hlb
          · intro bc hbc
            rcases (hRmem bc).mp hbc with rfl | hbc2
            · refine ⟨hbk, ?_⟩
              apply (bytesOkNode_iff' _).mpr
              constructor
              · intro b2 hbm
                simp only [Node.label_mk] at hbm
                exact hrb b2 (mem_set_label hbm)
              · intro bc2 hbc2
                simp only [Node.children_mk] at hbc2
                exact absurd hbc2 (List.not_mem_nil _)
            · simp only [Node.children_mk] at hbc2
              exact hcb bc hbc2

/- ### Trie-level support for the claims -/

theorem trieInv_init : trieInv ctrie_init := by
  refine ⟨rfl, rfl, rfl, ?_, ?_, ?_, ?_⟩
  · simp [sortedNode, ctrie_init, Trie.root, chainLt]
  · simp [wildWordNode, ctrie_init, Trie.root]
  · simp [strBounded, ctrie_init, Trie.root]
  · simp [labels255, ctrie_init, Trie.root]

/-- Re-inserting a registered word: no node is created, the returned
value slot is the slot `find` resolves both before and after. -/
theorem insert_present_trie {t : Trie} (hinv : trieInv t) {k : List Nat}
    (hk : k ∈ wordsOf t) (w : Bool) :
    trieNodeCount (ctrie_insert t k w).1 = trieNodeCount t ∧
    ctrie_find t k = some (ctrie_insert t k w).2 ∧
    ctrie_find (ctrie_insert t k w).1 k = some (ctrie_insert t k w).2 := by
  obtain ⟨h1, h2, h3, h4, h5, h6, h7⟩ := hinv
  obtain ⟨hroot, hfr', hpath⟩ := ctrie_insert_root h1 k w
  obtain ⟨hcnt, hpk, hwd, hpk2, hwd2⟩ := insertGo_present t.root h4 k w hk
  obtain ⟨hs', _, _⟩ := insertGo_aux t.root h4 k w
  refine ⟨?_, ?_, ?_⟩
  · show nodeCount (ctrie_insert t k w).1.fake_root = nodeCount t.fake_root
    have hfe : (ctrie_insert t k w).1.fake_root =
        Node.mk t.fake_root.label t.fake_root.word t.fake_root.wild
          (t.fake_root.children.set 0
            ((t.fake_root.children.getD 0 default).1, (insertGo t.root k w).1)) := rfl
    rw [hfe, nodeCount_eq', nodeCount_eq']
    simp only [Node.children_mk]
    congr 1
    apply sum_map_set (by omega)
    show nodeCount (insertGo t.root k w).1 = _
    rw [Trie.root_eq]
    exact hcnt
  · show resolve t k = _
    have hfind : find3Go t.root k [] none = some (insertGo t.root k w).2 :=
      findPath _ t.root k h4 hpk hwd
    show find3Go t.root k [0] none = _
    rw [find3Go_start hfind [0] none]
    rw [hpath]
    rfl
  · show resolve (ctrie_insert t k w).1 k = _
    have hfind : find3Go (insertGo t.root k w).1 k [] none =
        some (insertGo t.root k w).2 :=
      findPath _ _ k hs' hpk2 hwd2
    show find3Go (ctrie_insert t k w).1.root k [0] none = _
    rw [hroot]
    rw [find3Go_start hfind [0] none]
    rw [hpath]
    rfl

/-- After inserting a key that fits the length budget, `find` resolves
exactly the value slot `insert` returned. -/
theorem insert_find_trie {t : Trie} (hinv : trieInv t) {k : List Nat}
    (hklen : k.length ≤ 256) (w : Bool) :
    ctrie_find (ctrie_insert t k w).1 k = some (ctrie_insert t k w).2 := by
  obtain ⟨h1, h2, h3, h4, h5, h6, h7⟩ := hinv
  obtain ⟨hroot, hfr', hpath⟩ := ctrie_insert_root h1 k w
  obtain ⟨hs', _, _, _, hpk2, hwd2⟩ := insertGo_spec t.root h4 h7 k w hklen
  have hfind : find3Go (insertGo t.root k w).1 k [] none =
      some (insertGo t.root k w).2 :=
    findPath _ _ k hs' hpk2 hwd2
  show find3Go (ctrie_insert t k w).1.root k [0] none = _
  rw [hroot]
  rw [find3Go_start hfind [0] none]
  rw [hpath]
  rfl

/- ### Claim theorems -/

/-- C1 (amended): under the discipline that inserted keys fit in 256
bytes and removed keys are registered non-wildcard nonempty words,
`contains k` is true iff `k` is a registered word (noting that the empty
key is registered from initialization) or some registered wildcard key
is a strict byte-prefix of `k`. -/
theorem claim1_amended (ops : List Op) (hleg : legalC1 spec0 ops) (k : List Nat) :
    ctrie_contains (execOps ctrie_init ops) k = true ↔
      (k ∈ (specRun spec0 ops).1 ∨
       ∃ x ∈ (specRun spec0 ops).2, stem x k ∧ x ≠ k) := by
  obtain ⟨_, _, _, h4, _, _, _, _, h9, h10⟩ :=
    invC1_run ops ctrie_init spec0 invC1_init hleg
  rw [contains_iff h4 k]
  constructor
  · rintro (h | ⟨x, hx, hs2⟩)
    · exact Or.inl ((h9 k).mp h)
    · exact Or.inr ⟨x, (h10 x).mp hx, hs2⟩
  · rintro (h | ⟨x, hx, hs2⟩)
    · exact Or.inl ((h9 k).mpr h)
    · exact Or.inr ⟨x, (h10 x).mpr hx, hs2⟩

/-- Counterexample to C1 as stated: after inserting the wildcard key "a"
and removing the absent key "ab", the remove's wildcard fallback deletes
the "a" node, so `contains "a"` is false although "a" was inserted and
never removed. -/
theorem claim1_cex :
    ctrie_contains (execOps ctrie_init [.ins [97] true, .rem [97, 98]]) [97] = false ∧
    [97] ∈ (specRun spec0 [.ins [97] true, .rem [97, 98]]).1 := by
  constructor
  · simp +decide [ctrie_contains, resolve, find3Go, execOps, execOp, ctrie_insert,
      ctrie_remove, insertGo, removeAt, ctrie_init, Trie.root, matchLen,
      child_lookup, find_child_idx, bsearch, insert_child, set_label, cut,
      Node.setChild, Node.removeChild]
  · decide

/-- Witness for the amended C1 on a concrete legal run. -/
theorem claim1_witness :
    legalC1 spec0 [Op.ins [97] false] ∧
    (ctrie_contains (execOps ctrie_init [Op.ins [97] false]) [97] = true ↔
      ([97] ∈ (specRun spec0 [Op.ins [97] false]).1 ∨
       ∃ x ∈ (specRun spec0 [Op.ins [97] false]).2, stem x [97] ∧ x ≠ [97])) :=
  ⟨by decide, claim1_amended [Op.ins [97] false] (by decide) [97]⟩

/-- C3: after initialization and any sequence of inserts and removes
(with nonempty keys for removals and wildcard insertions), every node
below the true root has at least two children or is a word node. -/
theorem claim3 (ops : List Op) (hok : ∀ op ∈ ops, opOk3 op) :
    compactBelowRoot (execOps ctrie_init ops) = true := by
  obtain ⟨_, _, _, _, _, h6⟩ := invC3_run ops ctrie_init invC3_init hok
  show (execOps ctrie_init ops).root.children.all _ = true
  rw [List.all_eq_true]
  intro bc hbc
  exact ((compactNode_iff' _).mp h6).2 bc hbc

/-- Witness for C3 on a concrete run. -/
theorem claim3_witness :
    (∀ op ∈ [Op.ins [97] false], opOk3 op) ∧
    compactBelowRoot (execOps ctrie_init [Op.ins [97] false]) = true := by
  have hok : ∀ op ∈ [Op.ins [97] false], opOk3 op := by
    intro op hop
    simp only [List.mem_singleton] at hop
    subst hop
    intro h
    exact absurd h (by simp)
  exact ⟨hok, claim3 [Op.ins [97] false] hok⟩

/-- C4 (amended): when nothing resolves, remove reports `-1` and leaves
the trie unchanged; when the key is a registered non-wildcard nonempty
word, remove returns `0`, unregisters exactly that key, and keeps the
wildcard set.  (As stated the claim is wrong: a remove of an absent key
can resolve a wildcard node and mutate the trie; see the
counterexample.) -/
theorem claim4_amended {t : Trie} (hinv : trieInv t) (k : List Nat) :
    (resolve t k = none → ctrie_remove t k = (-1, t)) ∧
    (k ∈ wordsOf t → k ∉ wildsOf t → k ≠ [] →
      (ctrie_remove t k).1 = 0 ∧
      (∀ y, y ∈ wordsOf (ctrie_remove t k).2 ↔ (y ∈ wordsOf t ∧ y ≠ k)) ∧
      (∀ y, y ∈ wildsOf (ctrie_remove t k).2 ↔ y ∈ wildsOf t)) := by
  obtain ⟨h1, h2, h3, h4, h5, h6, h7⟩ := hinv
  constructor
  · intro hres
    unfold ctrie_remove
    rw [hres]
  · intro hk hkw hkne
    obtain ⟨b1, _, _, _, _, _, _, _, _, b10, b11⟩ :=
      ctrie_remove_spec h1 h2 h3 h4 h5 h6 h7 hk hkne hkw
    exact ⟨b1, b10, b11⟩

/-- Counterexample to C4 as stated: removing the absent key "ab" from a
trie holding only the wildcard "a" resolves the wildcard node, returns
the success status 0, and mutates the trie ("a" is gone). -/
theorem claim4_cex :
    (ctrie_remove (execOps ctrie_init [.ins [97] true]) [97, 98]).1 = 0 ∧
    ctrie_contains (execOps ctrie_init [.ins [97] true]) [97] = true ∧
    ctrie_contains (ctrie_remove (execOps ctrie_init [.ins [97] true]) [97, 98]).2
      [97] = false := by
  refine ⟨?_, ?_, ?_⟩ <;>
    simp +decide [ctrie_contains, resolve, find3Go, execOps, execOp, ctrie_insert,
      ctrie_remove, insertGo, removeAt, ctrie_init, Trie.root, matchLen,
      child_lookup, find_child_idx, bsearch, insert_child, set_label, cut,
      Node.setChild, Node.removeChild]

/-- Witness for the amended C4 at a concrete trie and key. -/
theorem claim4_witness :
    trieInv ctrie_init ∧
    ((resolve ctrie_init [97] = none →
        ctrie_remove ctrie_init [97] = (-1, ctrie_init)) ∧
     ([97] ∈ wordsOf ctrie_init → [97] ∉ wildsOf ctrie_init → [97] ≠ [] →
       (ctrie_remove ctrie_init [97]).1 = 0 ∧
       (∀ y, y ∈ wordsOf (ctrie_remove ctrie_init [97]).2 ↔
         (y ∈ wordsOf ctrie_init ∧ y ≠ [97])) ∧
       (∀ y, y ∈ wildsOf (ctrie_remove ctrie_init [97]).2 ↔
         y ∈ wildsOf ctrie_init))) :=
  ⟨trieInv_init, claim4_amended trieInv_init [97]⟩

/-- C5: re-inserting a registered key (any wildcard flag) creates no new
node, and the returned value slot is the slot of the node `find`
resolves for that key, both before and after the re-insert. -/
theorem claim5 {t : Trie} (hinv : trieInv t) {k : List Nat}
    (hk : k ∈ wordsOf t) (w : Bool) :
    trieNodeCount (ctrie_insert t k w).1 = trieNodeCount t ∧
    ctrie_find t k = some (ctrie_insert t k w).2 ∧
    ctrie_find (ctrie_insert t k w).1 k = some (ctrie_insert t k w).2 :=
  insert_present_trie hinv hk w

/-- Witness for C5: re-inserting the empty key registered at init. -/
theorem claim5_witness :
    trieInv ctrie_init ∧ [] ∈ wordsOf ctrie_init ∧
    (trieNodeCount (ctrie_insert ctrie_init [] false).1 = trieNodeCount ctrie_init ∧
     ctrie_find ctrie_init [] = some (ctrie_insert ctrie_init [] false).2 ∧
     ctrie_find (ctrie_insert ctrie_init [] false).1 [] =
       some (ctrie_insert ctrie_init [] false).2) :=
  ⟨trieInv_init, by simp [wordsOf, wordsAux, ctrie_init, Trie.root],
   claim5 trieInv_init (by simp [wordsOf, wordsAux, ctrie_init, Trie.root]) false⟩

/-- C6 (amended): on a freshly created trie, `contains ""` is true: init
marks the true root with `F_WORD`, so the empty key is registered from
the start. -/
theorem claim6_amended : ctrie_contains ctrie_init [] = true := by
  simp +decide [ctrie_contains, resolve, find3Go, ctrie_init, Trie.root, matchLen,
    child_lookup, find_child_idx, bsearch]

/-- Counterexample to C6 as stated: `contains ""` on the fresh trie is
not false. -/
theorem claim6_cex : ctrie_contains ctrie_init [] ≠ false := by
  simp +decide [ctrie_contains, resolve, find3Go, ctrie_init, Trie.root, matchLen,
    child_lookup, find_child_idx, bsearch]

/-- C7: with wildcards "a" and "ab" inserted, `find "abc"` resolves the
"ab" node (the same slot `find "ab"` resolves), not the "a" node: the
deeper wildcard recorded during descent wins. -/
theorem claim7 :
    ctrie_find (execOps ctrie_init [.ins [97] true, .ins [97, 98] true])
      [97, 98, 99] = some [0, 0, 0] ∧
    ctrie_find (execOps ctrie_init [.ins [97] true, .ins [97, 98] true])
      [97, 98] = some [0, 0, 0] ∧
    ctrie_find (execOps ctrie_init [.ins [97] true, .ins [97, 98] true])
      [97] = some [0, 0] := by
  refine ⟨?_, ?_, ?_⟩ <;>
    simp +decide [ctrie_find, resolve, find3Go, execOps, execOp, ctrie_insert,
      insertGo, ctrie_init, Trie.root, matchLen, child_lookup, find_child_idx,
      bsearch, insert_child, set_label]

theorem childrenBounded255_iff (l : List Nat) (w wi : Bool) (cs : List (Nat × Node)) :
    childrenBounded255 (.mk l w wi cs) = true ↔
      cs.length ≤ 255 ∧ ∀ bc ∈ cs, childrenBounded255 bc.2 = true := by
  rw [childrenBounded255]
  simp only [Bool.and_eq_true, List.all_eq_true, List.mem_attach, true_implies,
    Subtype.forall, decide_eq_true_eq]

theorem childrenBounded255_iff' (n : Node) :
    childrenBounded255 n = true ↔
      n.children.length ≤ 255 ∧ ∀ bc ∈ n.children, childrenBounded255 bc.2 = true := by
  cases n
  exact childrenBounded255_iff _ _ _ _

theorem insertGoC_split_exact {n : Node} {krem : List Nat}
    (h : matchLen n.label krem < n.label.length)
    (hd : krem.drop (matchLen n.label krem) = []) (wildcard : Bool) :
    insertGoC n krem wildcard =
      some (.mk (set_label (n.label.take (matchLen n.label krem))) true wildcard
        [(n.label.getD (matchLen n.label krem) 0,
          .mk (set_label (n.label.drop (matchLen n.label krem + 1)))
            n.word n.wild n.children)], []) := by
  rw [insertGoC, if_pos h, hd]
  simp

theorem insertGoC_split_extend {n : Node} {krem : List Nat} {b : Nat}
    {rest : List Nat} (h : matchLen n.label krem < n.label.length)
    (hd : krem.drop (matchLen n.label krem) = b :: rest) (wildcard : Bool) :
    insertGoC n krem wildcard =
      some ((insert_child
          (.mk (set_label (n.label.take (matchLen n.label krem))) false false
            [(n.label.getD (matchLen n.label krem) 0,
              .mk (set_label (n.label.drop (matchLen n.label krem + 1)))
                n.word n.wild n.children)])
          b (.mk (set_label rest) true wildcard [])).1,
       [(insert_child
          (.mk (set_label (n.label.take (matchLen n.label krem))) false false
            [(n.label.getD (matchLen n.label krem) 0,
              .mk (set_label (n.label.drop (matchLen n.label krem + 1)))
                n.word n.wild n.children)])
          b (.mk (set_label rest) true wildcard [])).2]) := by
  rw [insertGoC, if_pos h, hd]
  rfl

theorem insertGoC_flags {n : Node} {krem : List Nat}
    (h : ¬ matchLen n.label krem < n.label.length)
    (hd : krem.drop (matchLen n.label krem) = []) (wildcard : Bool) :
    insertGoC n krem wildcard =
      some (.mk n.label true (n.wild || wildcard) n.children, []) := by
  rw [insertGoC, if_neg h]
  split
  · rfl
  · next heq => rw [hd] at heq; simp at heq

theorem insertGoC_descend {n : Node} {krem : List Nat} {b : Nat}
    {rest : List Nat} {i : Nat} {ci : Node × List Nat}
    (h : ¬ matchLen n.label krem < n.label.length)
    (hd : krem.drop (matchLen n.label krem) = b :: rest)
    (hcl : child_lookup n b = some i) (wildcard : Bool)
    (hci : insertGoC (n.children.getD i default).2 rest wildcard = some ci) :
    insertGoC n krem wildcard =
      some (.mk n.label n.word n.wild
        (n.children.set i ((n.children.getD i default).1, ci.1)), i :: ci.2) := by
  rw [insertGoC, if_neg h]
  split
  · next heq => rw [hd] at heq; simp at heq
  · next b' rest' heq =>
    rw [hd] at heq
    injection heq with h1 h2
    subst h1
    subst h2
    simp only [hcl, hci, Option.map_some']

theorem insertGoC_descend_none {n : Node} {krem : List Nat} {b : Nat}
    {rest : List Nat} {i : Nat}
    (h : ¬ matchLen n.label krem < n.label.length)
    (hd : krem.drop (matchLen n.label krem) = b :: rest)
    (hcl : child_lookup n b = some i) (wildcard : Bool)
    (hci : insertGoC (n.children.getD i default).2 rest wildcard = none) :
    insertGoC n krem wildcard = none := by
  rw [insertGoC, if_neg h]
  split
  · next heq => rw [hd] at heq; simp at heq
  · next b' rest' heq =>
    rw [hd] at heq
    injection heq with h1 h2
    subst h1
    subst h2
    simp only [hcl, hci, Option.map_none']

theorem insertGoC_extend {n : Node} {krem : List Nat} {b : Nat}
    {rest : List Nat} (h : ¬ matchLen n.label krem < n.label.length)
    (hd : krem.drop (matchLen n.label krem) = b :: rest)
    (hcl : child_lookup n b = none) (wildcard : Bool) :
    insertGoC n krem wildcard =
      if n.children.length + 1 ≤ 255 then
        some ((insert_child n b (.mk (set_label rest) true wildcard [])).1,
          [(insert_child n b (.mk (set_label rest) true wildcard [])).2])
      else none := by
  rw [insertGoC, if_neg h]
  split
  · next heq => rw [hd] at heq; simp at heq
  · next b' rest' heq =>
    rw [hd] at heq
    injection heq with h1 h2
    subst h1
    subst h2
    simp only [hcl]

theorem insert_child_children (n : Node) (b : Nat) (c : Node) :
    (insert_child n b c).1.children =
      n.children.insertIdx (find_child_idx n b) (b, c) := rfl

/-- `insert_child` keeps all child counts at 255 or below when the
receiving node has room for one more child. -/
theorem insert_child_bounded {n : Node} {b : Nat} {c : Node}
    (hpw : List.Pairwise (· < ·) (n.children.map Prod.fst))
    (hlen : n.children.length + 1 ≤ 255)
    (hcs : ∀ bc ∈ n.children, childrenBounded255 bc.2 = true)
    (hc : childrenBounded255 c = true) :
    childrenBounded255 (insert_child n b c).1 = true := by
  have hidx : find_child_idx n b ≤ n.children.length := find_child_idx_le n b hpw
  apply (childrenBounded255_iff' _).mpr
  constructor
  · rw [insert_child_children, List.length_insertIdx _ _ hidx]
    omega
  · intro bc hbc
    rw [insert_child_children] at hbc
    rcases (List.mem_insertIdx hidx).mp hbc with rfl | hbc2
    · exact hc
    · exact hcs bc hbc2

/-- The capped insertion refines the uncapped one: whenever it succeeds,
it builds exactly the tree and path that `insertGo` builds. -/
theorem insertGoC_refine : ∀ (n : Node) (krem : List Nat) (wc : Bool)
    (r : Node × List Nat), insertGoC n krem wc = some r →
    insertGo n krem wc = r := by
  intro n
  induction n using Node.indMem with
  | h l wo wi cs ih =>
    intro krem wc r hr
    by_cases hj : matchLen l krem < l.length
    · cases hd : krem.drop (matchLen l krem) with
      | nil =>
        rw [insertGoC_split_exact (n := .mk l wo wi cs) (by simpa using hj)
          (by simpa using hd)] at hr
        injection hr with hr
        rw [insertGo_split_exact (n := .mk l wo wi cs) (by simpa using hj)
          (by simpa using hd)]
        exact hr
      | cons b rest =>
        rw [insertGoC_split_extend (n := .mk l wo wi cs) (by simpa using hj)
          (by simpa using hd)] at hr
        injection hr with hr
        rw [insertGo_split_extend (n := .mk l wo wi cs) (by simpa using hj)
          (by simpa using hd)]
        exact hr
    · cases hd : krem.drop (matchLen l krem) with
      | nil =>
        rw [insertGoC_flags (n := .mk l wo wi cs) (by simpa using hj)
          (by simpa using hd)] at hr
        injection hr with hr
        rw [insertGo_flags (n := .mk l wo wi cs) (by simpa using hj)
          (by simpa using hd)]
        exact hr
      | cons b rest =>
        cases hcl : child_lookup (.mk l wo wi cs : Node) b with
        | some i =>
          obtain ⟨hilt, _⟩ := child_lookup_some hcl
          have hilt' : i < cs.length := by simpa using hilt
          cases hci : insertGoC ((Node.mk l wo wi cs).children.getD i default).2 rest wc with
          | none =>
            rw [insertGoC_descend_none (n := .mk l wo wi cs) (by simpa using hj)
              (by simpa using hd) hcl wc hci] at hr
            exact Option.noConfusion hr
          | some ci =>
            rw [insertGoC_descend (n := .mk l wo wi cs) (by simpa using hj)
              (by simpa using hd) hcl wc hci] at hr
            injection hr with hr
            have hgo := ih _ (by simpa using getD_mem hilt') rest wc ci hci
            rw [insertGo_descend (n := .mk l wo wi cs) (by simpa using hj)
              (by simpa using hd) hcl wc]
            simp only [Node.label_mk, Node.word_mk, Node.wild_mk,
              Node.children_mk] at hr hgo ⊢
            rw [hgo]
            exact hr
        | none =>
          rw [insertGoC_extend (n := .mk l wo wi cs) (by simpa using hj)
            (by simpa using hd) hcl wc] at hr
          by_cases hcap : (Node.mk l wo wi cs : Node).children.length + 1 ≤ 255
          · rw [if_pos hcap] at hr
            injection hr with hr
            rw [insertGo_extend (n := .mk l wo wi cs) (by simpa using hj)
              (by simpa using hd) hcl wc]
            exact hr
          · rw [if_neg hcap] at hr
            exact Option.noConfusion hr

/-- A successful capped insertion keeps every child count at 255 or
below. -/
theorem insertGoC_bounded : ∀ (n : Node), sortedNode n = true →
    childrenBounded255 n = true →
    ∀ (krem : List Nat) (wc : Bool) (r : Node × List Nat),
    insertGoC n krem wc = some r → childrenBounded255 r.1 = true := by
  intro n
  induction n using Node.indMem with
  | h l wo wi cs ih =>
    intro hs hb krem wc r hr
    have hpw : List.Pairwise (· < ·) (cs.map Prod.fst) := by
      have := sortedNode_pairwise hs
      simpa using this
    have hlen : cs.length ≤ 255 := by
      simpa using ((childrenBounded255_iff' _).mp hb).1
    have hcb : ∀ bc ∈ cs, childrenBounded255 bc.2 = true := by
      have := ((childrenBounded255_iff' _).mp hb).2
      simpa using this
    have hleafB : ∀ (rest : List Nat) (w2 : Bool),
        childrenBounded255 (.mk (set_label rest) true w2 []) = true := by
      intro rest w2
      apply (childrenBounded255_iff' _).mpr
      constructor
      · simp
      · intro bc hbc
        simp only [Node.children_mk] at hbc
        exact absurd hbc (List.not_mem_nil _)
    by_cases hj : matchLen l krem < l.length
    · have hsub : childrenBounded255
          (.mk (set_label (l.drop (matchLen l krem + 1))) wo wi cs) = true := by
        apply (childrenBounded255_iff' _).mpr
        exact ⟨by simpa using hlen, by simpa using hcb⟩
      cases hd : krem.drop (matchLen l krem) with
      | nil =>
        rw [insertGoC_split_exact (n := .mk l wo wi cs) (by simpa using hj)
          (by simpa using hd)] at hr
        injection hr with hr
        rw [← hr]
        apply (childrenBounded255_iff' _).mpr
        constructor
        · simp
        · intro bc hbc
          simp only [Node.children_mk, List.mem_singleton] at hbc
          subst hbc
          simpa using hsub
      | cons b rest =>
        rw [insertGoC_split_extend (n := .mk l wo wi cs) (by simpa using hj)
          (by simpa using hd)] at hr
        injection hr with hr
        rw [← hr]
        apply insert_child_bounded
        · simp
        · simp
        · intro bc hbc
          simp only [Node.children_mk, List.mem_singleton] at hbc
          subst hbc
          simpa using hsub
        · exact hleafB rest wc
    · cases hd : krem.drop (matchLen l krem) with
      | nil =>
        rw [insertGoC_flags (n := .mk l wo wi cs) (by simpa using hj)
          (by simpa using hd)] at hr
        injection hr with hr
        rw [← hr]
        apply (childrenBounded255_iff' _).mpr
        refine ⟨by simpa using hlen, ?_⟩
        intro bc hbc
        simp only [Node.children_mk] at hbc
        exact hcb bc hbc
      | cons b rest =>
        cases hcl : child_lookup (.mk l wo wi cs : Node) b with
        | some i =>
          obtain ⟨hilt, _⟩ := child_lookup_some hcl
          have hilt' : i < cs.length := by simpa using hilt
          cases hci : insertGoC ((Node.mk l wo wi cs).children.getD i default).2 rest wc with
          | none =>
            rw [insertGoC_descend_none (n := .mk l wo wi cs) (by simpa using hj)
              (by simpa using hd) hcl wc hci] at hr
            exact Option.noConfusion hr
          | some ci =>
            rw [insertGoC_descend (n := .mk l wo wi cs) (by simpa using hj)
              (by simpa using hd) hcl wc hci] at hr
            injection hr with hr
            rw [← hr]
            apply (childrenBounded255_iff' _).mpr
            constructor
            · simpa using hlen
            · intro bc hbc
              simp only [Node.label_mk, Node.children_mk] at hbc
              rw [set_decomp hilt'] at hbc
              rcases List.mem_append.mp hbc with htk2 | hrest2
              · exact hcb bc (List.mem_of_mem_take htk2)
              · rcases List.mem_cons.mp hrest2 with rfl | hdp2
                · show childrenBounded255 ci.1 = true
                  exact ih _ (by simpa using getD_mem hilt')
                    (((sortedNode_iff' _).mp hs).2 _ (by simpa using getD_mem hilt'))
                    (hcb _ (getD_mem hilt')) rest wc ci (by simpa using hci)
                · exact hcb bc (List.mem_of_mem_drop hdp2)
        | none =>
          rw [insertGoC_extend (n := .mk l wo wi cs) (by simpa using hj)
            (by simpa using hd) hcl wc] at hr
          by_cases hcap : (Node.mk l wo wi cs : Node).children.length + 1 ≤ 255
          · rw [if_pos hcap] at hr
            injection hr with hr
            rw [← hr]
            apply insert_child_bounded (by simpa using hpw) hcap
              (by simpa using hcb) (hleafB rest wc)
          · rw [if_neg hcap] at hr
            exact Option.noConfusion hr

/-- C8 (amended): the per-node bound of 255 children holds as claimed:
`resize_if_needed` caps node capacity at 255 children, so any
insert-only run that completes under the cap (the capped model returns
a trie instead of failing the capacity assertion) leaves every node
with at most 255 children.  The claimed chain-splitting of over-long
shared prefixes does not exist: label lengths are stored in one byte
and wrap modulo 256, silently truncating keys longer than 256 bytes
(see the counterexample). -/
theorem claim8_amended (ops : List Op)
    (hins : ∀ op ∈ ops, match op with
      | .ins _ _ => True
      | .rem _ => False)
    (t : Trie) (hrun : execOpsC ctrie_init ops = some t) :
    childrenBounded255 t.root = true := by
  suffices h : ∀ (ops2 : List Op) (t0 : Trie), t0.fake_root.children.length = 1 →
      sortedNode t0.root = true → childrenBounded255 t0.root = true →
      (∀ op ∈ ops2, match op with
        | Op.ins _ _ => True
        | Op.rem _ => False) →
      ∀ (t1 : Trie), execOpsC t0 ops2 = some t1 →
      childrenBounded255 t1.root = true by
    exact h ops ctrie_init rfl
      (by simp [sortedNode, ctrie_init, Trie.root, chainLt])
      (by simp [childrenBounded255, ctrie_init, Trie.root]) hins t hrun
  intro ops2
  induction ops2 with
  | nil =>
    intro t0 _ _ hb _ t1 hrun1
    rw [execOpsC] at hrun1
    injection hrun1 with hrun1
    rw [← hrun1]
    exact hb
  | cons op ops2 ih =>
    intro t0 h1 hs hb hall t1 hrun1
    cases op with
    | ins k w =>
      rw [execOpsC] at hrun1
      cases hgo : insertGoC t0.root k w with
      | none =>
        simp [execOpC, ctrie_insertC, hgo] at hrun1
      | some ri =>
        have hop : execOpsC
            (⟨.mk t0.fake_root.label t0.fake_root.word t0.fake_root.wild
              (t0.fake_root.children.set 0
                ((t0.fake_root.children.getD 0 default).1, ri.1))⟩ : Trie) ops2 =
            some t1 := by
          simp only [execOpC, ctrie_insertC, hgo, Option.map_some',
            Option.some_bind] at hrun1
          exact hrun1
        have hrefine : insertGo t0.root k w = ri := insertGoC_refine t0.root k w ri hgo
        have hroot2 : (⟨.mk t0.fake_root.label t0.fake_root.word t0.fake_root.wild
              (t0.fake_root.children.set 0
                ((t0.fake_root.children.getD 0 default).1, ri.1))⟩ : Trie).root = ri.1 := by
          show ((t0.fake_root.children.set 0
            ((t0.fake_root.children.getD 0 default).1, ri.1)).getD 0 default).2 = ri.1
          rw [getD_set_self (by omega)]
        refine ih _ ?_ ?_ ?_ (fun op hop2 => hall op (List.mem_cons_of_mem _ hop2)) t1 hop
        · show (t0.fake_root.children.set 0
            ((t0.fake_root.children.getD 0 default).1, ri.1)).length = 1
          rw [List.length_set]
          exact h1
        · rw [hroot2, ← hrefine]
          exact (insertGo_aux t0.root hs k w).1
        · rw [hroot2]
          exact insertGoC_bounded t0.root hs hb k w ri hgo
    | rem k =>
      exact (hall (.rem k) (List.mem_cons_self _ _)).elim

set_option maxRecDepth 4000 in
/-- Counterexample to C8 as stated: inserting a 257-byte key does not
split its label across a chain of nodes; the label length is stored in a
byte and wraps to 0, silently truncating the key, which is then not even
found again. -/
theorem claim8_cex :
    (97 :: 97 :: List.replicate 255 97).length = 257 ∧
    ctrie_contains
      (ctrie_insert ctrie_init (97 :: 97 :: List.replicate 255 97) false).1
      (97 :: 97 :: List.replicate 255 97) = false := by
  constructor
  · simp
  · simp +decide [ctrie_contains, resolve, find3Go, ctrie_insert, insertGo,
      ctrie_init, Trie.root, matchLen, child_lookup, find_child_idx, bsearch,
      insert_child, set_label]

/-- Witness for the amended C8 on a concrete insert-only run that the
capacity cap admits. -/
theorem claim8_witness :
    ∃ t, execOpsC ctrie_init [Op.ins [97] false] = some t ∧
      childrenBounded255 t.root = true := by
  have hrun : execOpsC ctrie_init [Op.ins [97] false] =
      some ⟨.mk [] false false
        [(0, .mk [] true false [(97, .mk [] true false [])])]⟩ := by
    simp +decide [execOpsC, execOpC, ctrie_insertC, insertGoC, ctrie_init,
      Trie.root, matchLen, child_lookup, find_child_idx, bsearch,
      insert_child, set_label]
  refine ⟨_, hrun, ?_⟩
  exact claim8_amended [Op.ins [97] false]
    (by intro op hop; simp only [List.mem_singleton] at hop; subst hop; trivial)
    _ hrun

/-- C9: insert never unregisters a word key and never clears a wildcard
key: both key sets only grow, whatever the wildcard flag of the insert
(in particular re-inserting a wildcard key with the flag off keeps it
wild). -/
theorem claim9 {t : Trie} (hinv : trieInv t) {k : List Nat}
    (hklen : k.length ≤ 256) (w : Bool) :
    (∀ y ∈ wordsOf t, y ∈ wordsOf (ctrie_insert t k w).1) ∧
    (∀ y ∈ wildsOf t, y ∈ wildsOf (ctrie_insert t k w).1) := by
  obtain ⟨h1, h2, h3, h4, h5, h6, h7⟩ := hinv
  obtain ⟨hroot, _, _⟩ := ctrie_insert_root h1 k w
  obtain ⟨_, _, hwords, hwilds, _, _⟩ := insertGo_spec t.root h4 h7 k w hklen
  constructor
  · intro y hy
    show y ∈ wordsAux [] (ctrie_insert t k w).1.root
    rw [hroot]
    exact (hwords y).mpr (Or.inl hy)
  · intro y hy
    show y ∈ wildsAux [] (ctrie_insert t k w).1.root
    rw [hroot]
    exact (hwilds y).mpr (Or.inl hy)

/-- Witness for C9 at a concrete trie and key. -/
theorem claim9_witness :
    trieInv ctrie_init ∧ ([97] : List Nat).length ≤ 256 ∧
    ((∀ y ∈ wordsOf ctrie_init, y ∈ wordsOf (ctrie_insert ctrie_init [97] true).1) ∧
     (∀ y ∈ wildsOf ctrie_init, y ∈ wildsOf (ctrie_insert ctrie_init [97] true).1)) :=
  ⟨trieInv_init, by simp, claim9 trieInv_init (by simp) true⟩

/-- C10 (amended): for keys of at most 256 bytes, `find k` after
`insert k` returns exactly the value slot the insert returned.  For
longer keys this fails: the label is truncated and the slot is
unreachable (see the counterexample). -/
theorem claim10_amended {t : Trie} (hinv : trieInv t) {k : List Nat}
    (hklen : k.length ≤ 256) (w : Bool) :
    ctrie_find (ctrie_insert t k w).1 k = some (ctrie_insert t k w).2 :=
  insert_find_trie hinv hklen w

set_option maxRecDepth 4000 in
/-- Counterexample to C10 as stated: after inserting a 257-byte key, the
insert returns the new node's slot, but `find` of the same key (with no
intervening mutation) returns nothing, not that slot. -/
theorem claim10_cex :
    (ctrie_insert ctrie_init (97 :: 97 :: List.replicate 255 97) false).2 = [0, 0] ∧
    ctrie_find
      (ctrie_insert ctrie_init (97 :: 97 :: List.replicate 255 97) false).1
      (97 :: 97 :: List.replicate 255 97) = none := by
  constructor <;>
    simp +decide [ctrie_find, resolve, find3Go, ctrie_insert, insertGo,
      ctrie_init, Trie.root, matchLen, child_lookup, find_child_idx, bsearch,
      insert_child, set_label]

/-- Witness for the amended C10 at a concrete trie and key. -/
theorem claim10_witness :
    trieInv ctrie_init ∧ ([97] : List Nat).length ≤ 256 ∧
    ctrie_find (ctrie_insert ctrie_init [97] false).1 [97] =
      some (ctrie_insert ctrie_init [97] false).2 :=
  ⟨trieInv_init, by simp, claim10_amended trieInv_init (by simp) false⟩

/- ### Iterator correctness (C2 machinery) -/

theorem wordsAux_plain (pre l : List Nat) (w wi : Bool) (cs : List (Nat × Node)) :
    wordsAux pre (.mk l w wi cs) =
      (if w then [pre ++ l] else []) ++
      (cs.map (fun bc => wordsAux (pre ++ l ++ [bc.1]) bc.2)).flatten := by
  rw [wordsAux]
  congr 1
  exact congrArg List.flatten
    (List.attach_map_val cs (fun bc => wordsAux (pre ++ l ++ [bc.1]) bc.2))

theorem wordsAux_plain' (pre : List Nat) (n : Node) :
    wordsAux pre n =
      (if n.word then [pre ++ n.label] else []) ++
      (n.children.map (fun bc => wordsAux (pre ++ n.label ++ [bc.1]) bc.2)).flatten := by
  cases n
  exact wordsAux_plain _ _ _ _ _

theorem stateFuel_cons (fr : Frame) (rest : List Frame) (buf buf2 : List Nat) :
    stateFuel ⟨fr :: rest, buf⟩ = frameFuel fr + stateFuel ⟨rest, buf2⟩ := by
  unfold stateFuel
  simp

theorem frameFuel_pos (fr : Frame) : 1 ≤ frameFuel fr := by
  unfold frameFuel
  omega

theorem stackOk_of_all : ∀ {stack : List Frame} {buf buf2 : List Nat},
    stackOk stack buf → (∀ fr ∈ stack, fr.key_len ≤ buf2.length) →
    stackOk stack buf2 := by
  intro stack
  induction stack with
  | nil => intro _ _ _ _; trivial
  | cons fr rest ih =>
    intro buf buf2 h hall
    obtain ⟨_, hm, hr⟩ := h
    exact ⟨hall fr (List.mem_cons_self _ _), hm,
      ih hr (fun fr2 h2 => hall fr2 (List.mem_cons_of_mem _ h2))⟩

/-- The iterator loop, with enough fuel, emits exactly the pending
pre-order output of its stack. -/
theorem iterLoop_spec : ∀ (fuel : Nat) (stack : List Frame) (buf : List Nat),
    stackOk stack buf → stateFuel ⟨stack, buf⟩ ≤ fuel →
    iterLoop fuel ⟨stack, buf⟩ = iterOut stack buf := by
  intro fuel
  induction fuel with
  | zero =>
    intro stack buf hok hfuel
    cases stack with
    | nil =>
      rw [iterLoop]
      rfl
    | cons fr rest =>
      exfalso
      have h1 := frameFuel_pos fr
      rw [stateFuel_cons fr rest buf buf] at hfuel
      omega
  | succ fuel ih =>
    intro stack buf hok hfuel
    match stack, hok with
    | [], _ =>
      rw [iterLoop]
      rfl
    | fr :: rest, ⟨hlen, hmono, hrest⟩ =>
      rw [stateFuel_cons fr rest buf buf] at hfuel
      have hffp := frameFuel_pos fr
      by_cases hidx : fr.idx ≥ fr.n.children.length
      · have hre : iterLoop (fuel + 1) ⟨fr :: rest, buf⟩ = iterLoop fuel ⟨rest, buf⟩ := by
          simp only [iterLoop]
          rw [if_pos hidx]
        rw [hre, ih rest buf hrest (by omega)]
        unfold iterOut
        simp only [List.map_cons, List.flatten_cons]
        rw [show frameOut buf fr = [] from by
          unfold frameOut
          rw [List.drop_eq_nil_of_le (by omega)]
          rfl]
        simp
      · have hidx2 : fr.idx < fr.n.children.length := by omega
        have hdropc : fr.n.children.drop fr.idx =
            (fr.n.children.getD fr.idx default) :: fr.n.children.drop (fr.idx + 1) := by
          rw [List.drop_eq_getElem_cons hidx2,
            List.getD_eq_getElem _ default hidx2]
        have hkeylen : (buf.take fr.key_len).length = fr.key_len := by
          rw [List.length_take]
          omega
        have hkey : (buf.take fr.key_len ++
            (fr.n.children.getD fr.idx default).1 ::
            (fr.n.children.getD fr.idx default).2.label).take fr.key_len =
            buf.take fr.key_len := by
          rw [List.take_append_of_le_length (by omega)]
          rw [List.take_take]
          congr 1
          omega
        have hbuflen : (buf.take fr.key_len ++
            (fr.n.children.getD fr.idx default).1 ::
            (fr.n.children.getD fr.idx default).2.label).length =
            fr.key_len + 1 + (fr.n.children.getD fr.idx default).2.label.length := by
          simp only [List.length_append, List.length_cons]
          omega
        have hbuf' : (buf.take fr.key_len ++
            (fr.n.children.getD fr.idx default).1 ::
            (fr.n.children.getD fr.idx default).2.label).take
              (fr.key_len + 1 + (fr.n.children.getD fr.idx default).2.label.length) =
            buf.take fr.key_len ++ (fr.n.children.getD fr.idx default).1 ::
              (fr.n.children.getD fr.idx default).2.label := by
          rw [← hbuflen]
          exact List.take_length _
        have hrestkey : ∀ fr2 ∈ rest, (buf.take fr.key_len ++
            (fr.n.children.getD fr.idx default).1 ::
            (fr.n.children.getD fr.idx default).2.label).take fr2.key_len =
            buf.take fr2.key_len := by
          intro fr2 hfr2
          rw [List.take_append_of_le_length (by
            rw [hkeylen]
            exact hmono fr2 hfr2)]
          rw [List.take_take]
          congr 1
          exact Nat.min_eq_left (hmono fr2 hfr2)
        have hrestout : ∀ (bufx : List Nat),
            (∀ fr2 ∈ rest, bufx.take fr2.key_len = buf.take fr2.key_len) →
            rest.map (frameOut bufx) = rest.map (frameOut buf) := by
          intro bufx hx
          apply List.map_congr_left
          intro fr2 hfr2
          unfold frameOut
          rw [hx fr2 hfr2]
        have hfrout : frameOut buf fr =
            wordsAux (buf.take fr.key_len ++ [(fr.n.children.getD fr.idx default).1])
              (fr.n.children.getD fr.idx default).2 ++
            frameOut buf ⟨fr.n, fr.idx + 1, fr.key_len⟩ := by
          unfold frameOut
          rw [hdropc]
          simp
        have hsplit : wordsAux
            (buf.take fr.key_len ++ [(fr.n.children.getD fr.idx default).1])
            (fr.n.children.getD fr.idx default).2 =
            (if (fr.n.children.getD fr.idx default).2.word then
              [buf.take fr.key_len ++ (fr.n.children.getD fr.idx default).1 ::
                (fr.n.children.getD fr.idx default).2.label]
            else []) ++
            ((fr.n.children.getD fr.idx default).2.children.map
              (fun bc => wordsAux ((buf.take fr.key_len ++
                (fr.n.children.getD fr.idx default).1 ::
                (fr.n.children.getD fr.idx default).2.label) ++ [bc.1])
                bc.2)).flatten := by
          rw [wordsAux_plain']
          congr 1
          · split
            · congr 1
              simp
            · rfl
          · congr 1
            apply List.map_congr_left
            intro bc _
            congr 2
            simp
        -- fuel bookkeeping
        have hcount : nodeCount (fr.n.children.getD fr.idx default).2 =
            1 + ((fr.n.children.getD fr.idx default).2.children.map
              (fun bc => nodeCount bc.2)).sum := nodeCount_eq' _
        have hff : frameFuel fr =
            2 * (nodeCount (fr.n.children.getD fr.idx default).2 +
              ((fr.n.children.drop (fr.idx + 1)).map
                (fun bc => nodeCount bc.2)).sum) + 1 := by
          unfold frameFuel
          rw [hdropc]
          simp
        have hff' : frameFuel ⟨fr.n, fr.idx + 1, fr.key_len⟩ =
            2 * ((fr.n.children.drop (fr.idx + 1)).map
              (fun bc => nodeCount bc.2)).sum + 1 := rfl
        have hffc : frameFuel ⟨(fr.n.children.getD fr.idx default).2, 0,
            fr.key_len + 1 + (fr.n.children.getD fr.idx default).2.label.length⟩ =
            2 * ((fr.n.children.getD fr.idx default).2.children.map
              (fun bc => nodeCount bc.2)).sum + 1 := by
          unfold frameFuel
          simp
        have hloop : iterLoop (fuel + 1) ⟨fr :: rest, buf⟩ =
            (let bc := fr.n.children.getD fr.idx default
             let klen := fr.key_len + 1 + bc.2.label.length
             let buf2 := buf.take fr.key_len ++ bc.1 :: bc.2.label
             let fr2 : Frame := ⟨fr.n, fr.idx + 1, fr.key_len⟩
             let stack2 :=
               if bc.2.children.length ≠ 0 then (⟨bc.2, 0, klen⟩ : Frame) :: fr2 :: rest
               else fr2 :: rest
             if bc.2.word then buf2 :: iterLoop fuel ⟨stack2, buf2⟩
             else iterLoop fuel ⟨stack2, buf2⟩) := by
          simp only [iterLoop]
          rw [if_neg hidx]
        rw [hloop]
        simp only
        by_cases hpush : (fr.n.children.getD fr.idx default).2.children.length ≠ 0
        · rw [if_pos hpush]
          have hrest' : stackOk rest (buf.take fr.key_len ++
              (fr.n.children.getD fr.idx default).1 ::
              (fr.n.children.getD fr.idx default).2.label) := by
            apply stackOk_of_all hrest
            intro fr2 h2
            rw [hbuflen]
            have := hmono fr2 h2
            omega
          have hok2 : stackOk (⟨(fr.n.children.getD fr.idx default).2, 0,
              fr.key_len + 1 + (fr.n.children.getD fr.idx default).2.label.length⟩ ::
              (⟨fr.n, fr.idx + 1, fr.key_len⟩ : Frame) :: rest)
              (buf.take fr.key_len ++ (fr.n.children.getD fr.idx default).1 ::
                (fr.n.children.getD fr.idx default).2.label) := by
            refine ⟨?_, ?_, ?_, hmono, hrest'⟩
            · show fr.key_len + 1 + (fr.n.children.getD fr.idx default).2.label.length
                ≤ _
              rw [hbuflen]
            · intro fr2 hfr2
              show fr2.key_len ≤
                fr.key_len + 1 + (fr.n.children.getD fr.idx default).2.label.length
              rcases List.mem_cons.mp hfr2 with rfl | h2
              · show fr.key_len ≤ fr.key_len + 1 +
                  (fr.n.children.getD fr.idx default).2.label.length
                omega
              · have := hmono fr2 h2
                omega
            · show fr.key_len ≤ _
              rw [hbuflen]
              omega
          have hfuel2 : stateFuel ⟨⟨(fr.n.children.getD fr.idx default).2, 0,
              fr.key_len + 1 + (fr.n.children.getD fr.idx default).2.label.length⟩ ::
              (⟨fr.n, fr.idx + 1, fr.key_len⟩ : Frame) :: rest,
              buf.take fr.key_len ++ (fr.n.children.getD fr.idx default).1 ::
                (fr.n.children.getD fr.idx default).2.label⟩ ≤ fuel := by
            rw [stateFuel_cons _ _ _ buf, stateFuel_cons _ _ _ buf]
            rw [hffc, hff']
            rw [hff] at hfuel
            rw [hcount] at hfuel
            omega
          have hih := ih _ _ hok2 hfuel2
          cases hw : (fr.n.children.getD fr.idx default).2.word with
          | true =>
            rw [if_pos rfl]
            rw [hih]
            unfold iterOut
            simp only [List.map_cons, List.flatten_cons]
            rw [hrestout _ hrestkey]
            rw [hfrout, hsplit, hw]
            unfold frameOut
            simp only [List.drop_zero]
            rw [hkey, hbuf']
            simp
          | false =>
            rw [if_neg (by simp [hw])]
            rw [hih]
            unfold iterOut
            simp only [List.map_cons, List.flatten_cons]
            rw [hrestout _ hrestkey]
            rw [hfrout, hsplit, hw]
            unfold frameOut
            simp only [List.drop_zero]
            rw [hkey, hbuf']
            simp
        · rw [if_neg hpush]
          have hchn : (fr.n.children.getD fr.idx default).2.children = [] := by
            rw [← List.length_eq_zero]
            omega
          have hrest' : stackOk rest (buf.take fr.key_len ++
              (fr.n.children.getD fr.idx default).1 ::
              (fr.n.children.getD fr.idx default).2.label) := by
            apply stackOk_of_all hrest
            intro fr2 h2
            rw [hbuflen]
            have := hmono fr2 h2
            omega
          have hok2 : stackOk ((⟨fr.n, fr.idx + 1, fr.key_len⟩ : Frame) :: rest)
              (buf.take fr.key_len ++ (fr.n.children.getD fr.idx default).1 ::
                (fr.n.children.getD fr.idx default).2.label) := by
            refine ⟨?_, hmono, hrest'⟩
            show fr.key_len ≤ _
            rw [hbuflen]
            omega
          have hfuel2 : stateFuel ⟨(⟨fr.n, fr.idx + 1, fr.key_len⟩ : Frame) :: rest,
              buf.take fr.key_len ++ (fr.n.children.getD fr.idx default).1 ::
                (fr.n.children.getD fr.idx default).2.label⟩ ≤ fuel := by
            rw [stateFuel_cons _ _ _ buf]
            rw [hff']
            rw [hff] at hfuel
            omega
          have hih := ih _ _ hok2 hfuel2
          cases hw : (fr.n.children.getD fr.idx default).2.word with
          | true =>
            rw [if_pos rfl]
            rw [hih]
            unfold iterOut
            simp only [List.map_cons, List.flatten_cons]
            rw [hrestout _ hrestkey]
            rw [hfrout, hsplit, hw]
            unfold frameOut
            rw [hkey, hchn]
            simp
          | false =>
            rw [if_neg (by simp [hw])]
            rw [hih]
            unfold iterOut
            simp only [List.map_cons, List.flatten_cons]
            rw [hrestout _ hrestkey]
            rw [hfrout, hsplit, hw]
            unfold frameOut
            rw [hkey, hchn]
            simp

theorem lex_of_stem : ∀ {x y : List Nat}, stem x y → x ≠ y → List.Lex (· < ·) x y := by
  intro x
  induction x with
  | nil =>
    intro y _ hne
    cases y with
    | nil => exact absurd rfl hne
    | cons b ys => exact List.Lex.nil
  | cons a as ih =>
    intro y hst hne
    obtain ⟨r, rfl⟩ := hst
    apply List.Lex.cons
    apply ih ⟨r, rfl⟩
    intro h
    apply hne
    show a :: as = (a :: as) ++ r
    conv_lhs => rw [h]
    simp

theorem lex_append_lt {p : List Nat} {b1 b2 : Nat} (h : b1 < b2) :
    ∀ (xs ys : List Nat), List.Lex (· < ·) (p ++ b1 :: xs) (p ++ b2 :: ys) := by
  induction p with
  | nil => intro xs ys; exact List.Lex.rel h
  | cons a p ih => intro xs ys; exact List.Lex.cons (ih xs ys)

/-- Under sorted children, the word list of a subtree is strictly
lexicographically increasing. -/
theorem wordsAux_sorted_lex : ∀ (n : Node), sortedNode n = true →
    ∀ (pre : List Nat), List.Pairwise (List.Lex (· < ·)) (wordsAux pre n) := by
  intro n
  induction n using Node.indMem with
  | h l wo wi cs ih =>
    intro hs pre
    have hpw : List.Pairwise (· < ·) (cs.map Prod.fst) := by
      have := sortedNode_pairwise hs
      simpa using this
    have hsch : ∀ bc ∈ cs, sortedNode bc.2 = true := by
      have := sortedNode_children hs
      simpa using this
    rw [wordsAux_plain]
    apply List.pairwise_append.mpr
    refine ⟨?_, ?_, ?_⟩
    · split <;> simp
    · apply List.pairwise_join.mpr
      constructor
      · intro ws hws
        obtain ⟨bc, hbc, rfl⟩ := List.mem_map.mp hws
        exact ih bc hbc (hsch bc hbc) _
      · rw [List.pairwise_map]
        have hpw2 : List.Pairwise (fun bc1 bc2 : Nat × Node => bc1.1 < bc2.1) cs := by
          rw [← List.pairwise_map]
          exact hpw
        apply hpw2.imp
        intro bc1 bc2 hblt x hx y hy
        have hsx := stem_of_mem_wordsAux bc1.2 _ x hx
        have hsy := stem_of_mem_wordsAux bc2.2 _ y hy
        have hsx2 : stem (pre ++ l ++ [bc1.1]) x :=
          stem_trans ⟨bc1.2.label, by simp⟩ hsx
        have hsy2 : stem (pre ++ l ++ [bc2.1]) y :=
          stem_trans ⟨bc2.2.label, by simp⟩ hsy
        obtain ⟨rx, hrx⟩ := hsx2
        obtain ⟨ry, hry⟩ := hsy2
        have hx2 : (pre ++ l ++ [bc1.1]) ++ rx = (pre ++ l) ++ bc1.1 :: rx := by simp
        have hy2 : (pre ++ l ++ [bc2.1]) ++ ry = (pre ++ l) ++ bc2.1 :: ry := by simp
        rw [← hrx, ← hry, hx2, hy2]
        exact lex_append_lt hblt _ _
    · intro x hx y hy
      have hxeq : x = pre ++ l := by
        split at hx
        · simpa using hx
        · simp at hx
      obtain ⟨ws, hws, hyw⟩ := List.mem_flatten.mp hy
      obtain ⟨bc, hbc, rfl⟩ := List.mem_map.mp hws
      have hsy := stem_of_mem_wordsAux bc.2 _ y hyw
      have hsy2 : stem (pre ++ l ++ [bc.1]) y :=
        stem_trans ⟨bc.2.label, by simp⟩ hsy
      obtain ⟨ry, hry⟩ := hsy2
      rw [hxeq, ← hry]
      apply lex_of_stem
      · exact ⟨bc.1 :: ry, by simp⟩
      · intro h
        have hlen := congrArg List.length h
        simp at hlen

/-- C2 (amended): with enough fuel to finish (the loop terminates once
the stack empties), iteration yields exactly the nonempty registered
keys, each once, in strictly increasing byte-lexicographic order.  The
empty key, registered on the root from init, is never yielded (see the
counterexample to the claim as stated). -/
theorem claim2_amended (t : Trie) (hs : sortedNode t.root = true)
    (hrl : t.root.label = []) (fuel : Nat)
    (hfuel : stateFuel (ctrie_iter_init t) ≤ fuel) :
    (∀ k, k ∈ iterLoop fuel (ctrie_iter_init t) ↔ (k ∈ wordsOf t ∧ k ≠ [])) ∧
    List.Pairwise (List.Lex (· < ·)) (iterLoop fuel (ctrie_iter_init t)) := by
  have hok : stackOk [⟨t.root, 0, 0⟩] [] := ⟨by simp, by simp, trivial⟩
  have hspec : iterLoop fuel (ctrie_iter_init t) = iterOut [⟨t.root, 0, 0⟩] [] :=
    iterLoop_spec fuel [⟨t.root, 0, 0⟩] [] hok hfuel
  have hout : iterOut [⟨t.root, 0, 0⟩] [] =
      (t.root.children.map (fun bc => wordsAux [bc.1] bc.2)).flatten := by
    unfold iterOut frameOut
    simp
  have hwd : wordsAux [] t.root =
      (if t.root.word then [[]] else []) ++
      (t.root.children.map (fun bc => wordsAux [bc.1] bc.2)).flatten := by
    rw [wordsAux_plain', hrl]
    simp
  constructor
  · intro k
    rw [hspec, hout]
    show _ ↔ (k ∈ wordsAux [] t.root ∧ _)
    rw [hwd]
    constructor
    · intro hk
      refine ⟨List.mem_append.mpr (Or.inr hk), ?_⟩
      obtain ⟨ws, hws, hkw⟩ := List.mem_flatten.mp hk
      obtain ⟨bc, _, rfl⟩ := List.mem_map.mp hws
      have hst := stem_of_mem_wordsAux bc.2 _ k hkw
      have hst2 : stem [bc.1] k := stem_trans ⟨bc.2.label, by simp⟩ hst
      obtain ⟨r, hr⟩ := hst2
      intro h
      rw [h] at hr
      simp at hr
    · rintro ⟨hk, hne⟩
      rcases List.mem_append.mp hk with h | h
      · exfalso
        apply hne
        split at h
        · simpa using h
        · simp at h
      · exact h
  · rw [hspec, hout]
    have hall := wordsAux_sorted_lex t.root hs []
    rw [hwd] at hall
    exact (List.pairwise_append.mp hall).2.1

/-- Counterexample to C2 as stated: the freshly initialized trie
registers the empty key (the root carries `F_WORD`), yet a full
iteration yields nothing. -/
theorem claim2_cex :
    wordsOf ctrie_init = [[]] ∧
    iterLoop (stateFuel (ctrie_iter_init ctrie_init))
      (ctrie_iter_init ctrie_init) = [] := by
  constructor
  · simp [wordsOf, wordsAux, ctrie_init, Trie.root]
  · simp +decide [iterLoop, stateFuel, frameFuel, ctrie_iter_init, ctrie_init,
      Trie.root, nodeCount]

/-- Witness for the amended C2 on a concrete trie. -/
theorem claim2_witness :
    sortedNode (execOps ctrie_init [Op.ins [97] false]).root = true ∧
    (execOps ctrie_init [Op.ins [97] false]).root.label = [] ∧
    stateFuel (ctrie_iter_init (execOps ctrie_init [Op.ins [97] false])) ≤ 3 ∧
    ((∀ k, k ∈ iterLoop 3 (ctrie_iter_init (execOps ctrie_init [Op.ins [97] false]))
        ↔ (k ∈ wordsOf (execOps ctrie_init [Op.ins [97] false]) ∧ k ≠ [])) ∧
     List.Pairwise (List.Lex (· < ·))
       (iterLoop 3 (ctrie_iter_init (execOps ctrie_init [Op.ins [97] false])))) := by
  have h1 : sortedNode (execOps ctrie_init [Op.ins [97] false]).root = true := by
    simp +decide [sortedNode, chainLt, execOps, execOp, ctrie_insert, insertGo,
      ctrie_init, Trie.root, matchLen, child_lookup, find_child_idx, bsearch,
      insert_child, set_label]
  have h2 : (execOps ctrie_init [Op.ins [97] false]).root.label = [] := by
    simp +decide [execOps, execOp, ctrie_insert, insertGo, ctrie_init, Trie.root,
      matchLen, child_lookup, find_child_idx, bsearch, insert_child, set_label]
  have h3 : stateFuel (ctrie_iter_init (execOps ctrie_init [Op.ins [97] false]))
      ≤ 3 := by
    simp +decide [stateFuel, frameFuel, ctrie_iter_init, nodeCount, execOps,
      execOp, ctrie_insert, insertGo, ctrie_init, Trie.root, matchLen,
      child_lookup, find_child_idx, bsearch, insert_child, set_label]
  exact ⟨h1, h2, h3, claim2_amended _ h1 h2 3 h3⟩
